import Mathlib

/-!
# Robin Hood hash map with a linked record list (`src/hashmap.h`)

A shallow embedding of the class template `HashMap<KeyType, ValueType, Hash>`.

* The record store `std::list<HashPair>` is a sequence of node handles; the nodes
  themselves live in a `Heap`, one cell per node ever allocated.  A list iterator is the
  handle of the node it designates, so that an iterator stored in a slot of one map can
  designate a node that belongs to the list of another map.
* The slot table `std::vector<Node>` is a `List Node`.
* `size_t` values are natural numbers; the hash function is any `K → Nat`.
* The three `while (true)` loops carry an iteration bound equal to the table size, and the
  recursion `insert_pair → increase_size → insert_pair` carries a depth bound.  Exhausting
  a bound is reported as `Err.diverged`; the theorems show it never happens in a state
  reached from a new map by `insert`, `erase`, `operator[]` and `clear`.
* Dereferencing an iterator that designates no live node is reported as `Err.undefined`.
-/

namespace RobinHood

/-! ## Data model -/

/-- Ways in which a call does not return normally. -/
inductive Err where
  /-- The exception `std::out_of_range` thrown by `at`. -/
  | out_of_range
  /-- An iterator that designates no live record was used. -/
  | undefined
  /-- A loop or recursion bound of the model was exhausted. -/
  | diverged
deriving DecidableEq, Repr

/-- The private `struct Node`: a slot of the table. `it = none` is the singular
(default constructed) iterator. -/
structure Node where
  free : Bool
  PSL : Nat
  it : Option Nat
deriving DecidableEq, Repr

/-- The constructor `Node()`. -/
def Node.vacant : Node := ⟨true, 0, none⟩

/-- The constructor `Node(it)`. -/
def Node.of_it (h : Nat) : Node := ⟨false, 0, some h⟩

/-- Memory of list nodes: cell `h` holds the pair of the node with handle `h`, or `none`
once the node has been destroyed. -/
abbrev Heap (K V : Type) := List (Option (K × V))

/-- The data members of `HashMap`. -/
structure HashMap (K V : Type) where
  table : List Node
  hash_pairs : List Nat
  cnt_elements : Nat
  hash : K → Nat

variable {K V : Type}

/-- The pair stored in node `h`, if the node is live. -/
def read (hp : Heap K V) (h : Nat) : Option (K × V) := hp.getD h none

/-- Dereference of a list iterator (`*it`). -/
def deref (hp : Heap K V) : Option Nat → Option (K × V)
  | none => none
  | some h => read hp h

/-- Allocation of a fresh list node holding `kv`; returns the new heap and the handle. -/
def alloc (hp : Heap K V) (kv : K × V) : Heap K V × Nat := (hp ++ [some kv], hp.length)

/-- Destruction of the list node `h`. -/
def dealloc (hp : Heap K V) (h : Nat) : Heap K V := hp.set h none

/-- Assignment `ref = v` through a reference to the `second` member of node `h`. -/
def store (hp : Heap K V) (h : Nat) (v : V) : Heap K V :=
  match read hp h with
  | none => hp
  | some (k, _) => hp.set h (some (k, v))

/-- The element `table[pos]`. -/
def node_at (table : List Node) (pos : Nat) : Node := table.getD pos Node.vacant

/-- The constant `INITIAL_SIZE`. -/
def INITIAL_SIZE : Nat := 2

/-- The test `get_load_factor() > LOAD_FACTOR`, that is `cnt / size > 0.8`, as an exact
comparison of rationals. For a table size that is a power of two below `2 ^ 50` the
quotient is computed exactly in double precision and the comparison with the double
nearest to `0.8` has the same outcome. -/
def load_exceeded (cnt size : Nat) : Prop := 5 * cnt > 4 * size

instance (cnt size : Nat) : Decidable (load_exceeded cnt size) := by
  unfold load_exceeded; infer_instance

/-! ## Private member functions -/

/-- The function `next_pos(pos)` for a table of `size` slots. -/
def next_pos (size pos : Nat) : Nat := if pos + 1 = size then 0 else pos + 1

/-- The function `hash_function()`. -/
def hash_function (m : HashMap K V) : K → Nat := m.hash

/-- The function `get_pos(key)`. -/
def get_pos (m : HashMap K V) (key : K) : Nat :=
  if m.table.isEmpty then 0 else hash_function m key % m.table.length

/-- The loop of `find_key_pos`; `fuel` bounds the number of slots inspected. -/
def find_loop [DecidableEq K] (hp : Heap K V) (table : List Node) (key : K) :
    Nat → Nat → Nat → Except Err Nat
  | 0, _, _ => .error .diverged
  | fuel + 1, pos, PSL =>
    if PSL > (node_at table pos).PSL ∨ (node_at table pos).free = true then
      .ok table.length
    else
      match deref hp (node_at table pos).it with
      | none => .error .undefined
      | some kv =>
        if kv.1 = key then .ok pos
        else find_loop hp table key fuel (next_pos table.length pos) (PSL + 1)

/-- The function `find_key_pos(key)`: the position of the slot holding `key`, or `table.size()`. -/
def find_key_pos [DecidableEq K] (hp : Heap K V) (m : HashMap K V) (key : K) :
    Except Err Nat :=
  if m.table.isEmpty then .ok 0
  else find_loop hp m.table key m.table.length (get_pos m key) 0

/-- The function `insert_and_get_it(hash_pair)`: `push_front` and `begin()`. -/
def insert_and_get_it (hp : Heap K V) (hash_pairs : List Nat) (kv : K × V) :
    Heap K V × List Nat × Nat :=
  ((alloc hp kv).1, (alloc hp kv).2 :: hash_pairs, (alloc hp kv).2)

/-- The backward shift loop of `erase_key`; `fuel` bounds the number of iterations. -/
def erase_loop : Nat → List Node → Nat → Except Err (List Node)
  | 0, _, _ => .error .diverged
  | fuel + 1, table, pos =>
    let nxt := node_at table (next_pos table.length pos)
    if nxt.PSL = 0 ∨ nxt.free = true then .ok table
    else
      -- table[pos] = table[next_pos(pos)]; --table[pos].PSL;
      let table1 := table.set pos { nxt with PSL := nxt.PSL - 1 }
      -- pos = next_pos(pos); table[pos].free = true;
      let pos1 := next_pos table.length pos
      let table2 := table1.set pos1 { node_at table1 pos1 with free := true }
      erase_loop fuel table2 pos1

/-- The function `erase_key(key)`. The list member function `erase` is applied to an
iterator, which has to designate a node of this list. The count is never decremented
at zero in a reachable state, so the subtraction does not wrap. -/
def erase_key [DecidableEq K] (hp : Heap K V) (m : HashMap K V) (key : K) :
    Except Err (Heap K V × HashMap K V) :=
  match find_key_pos hp m key with
  | .error e => .error e
  | .ok pos =>
    if pos = m.table.length then .ok (hp, m)
    else
      let table1 := m.table.set pos { node_at m.table pos with free := true }
      -- hash_pairs.erase(table[pos].it)
      match (node_at m.table pos).it with
      | none => .error .undefined
      | some h =>
        if h ∈ m.hash_pairs then
          match erase_loop table1.length table1 pos with
          | .error e => .error e
          | .ok table2 =>
            .ok (dealloc hp h,
              { m with cnt_elements := m.cnt_elements - 1,
                       table := table2,
                       hash_pairs := m.hash_pairs.erase h })
        else .error .undefined

/-- The placement loop of `insert_pair`; `fuel` bounds the number of slots inspected. -/
def insert_loop : Nat → List Node → Node → Nat → Except Err (List Node)
  | 0, _, _, _ => .error .diverged
  | fuel + 1, table, nd, pos =>
    if (node_at table pos).free = true then .ok (table.set pos nd)
    else if nd.PSL > (node_at table pos).PSL then
      -- std::swap(nd, table[pos]); pos = next_pos(pos); ++nd.PSL;
      insert_loop fuel (table.set pos nd)
        { node_at table pos with PSL := (node_at table pos).PSL + 1 }
        (next_pos table.length pos)
    else
      insert_loop fuel table { nd with PSL := nd.PSL + 1 } (next_pos table.length pos)

/-- The pairs of the nodes of a list, front to back (a traversal from `begin()` to
`end()`, and the contents of a copy of the list). -/
def iterate (hp : Heap K V) : List Nat → Except Err (List (K × V))
  | [] => .ok []
  | h :: rest =>
    match read hp h with
    | none => .error .undefined
    | some kv =>
      match iterate hp rest with
      | .error e => .error e
      | .ok kvs => .ok (kv :: kvs)

/-- The loop `for (hash_pair : pairs) erase_key(hash_pair.first)`. -/
def erase_all [DecidableEq K] :
    Heap K V → HashMap K V → List (K × V) → Except Err (Heap K V × HashMap K V)
  | hp, m, [] => .ok (hp, m)
  | hp, m, kv :: rest =>
    match erase_key hp m kv.1 with
    | .error e => .error e
    | .ok s => erase_all s.1 s.2 rest

/-- The loop `for (hash_pair : pairs) insert_pair(hash_pair)`, for a given `insert_pair`. -/
def insert_all (ins : Heap K V → HashMap K V → K × V → Except Err (Heap K V × HashMap K V)) :
    Heap K V → HashMap K V → List (K × V) → Except Err (Heap K V × HashMap K V)
  | hp, m, [] => .ok (hp, m)
  | hp, m, kv :: rest =>
    match ins hp m kv with
    | .error e => .error e
    | .ok s => insert_all ins s.1 s.2 rest

/-- The function `increase_size()`, with the recursive call to `insert_pair` passed as `ins`. -/
def increase_size [DecidableEq K]
    (ins : Heap K V → HashMap K V → K × V → Except Err (Heap K V × HashMap K V))
    (hp : Heap K V) (m : HashMap K V) : Except Err (Heap K V × HashMap K V) :=
  if m.table.isEmpty then
    .ok (hp, { m with table := List.replicate INITIAL_SIZE Node.vacant })
  else if load_exceeded m.cnt_elements m.table.length then
    match iterate hp m.hash_pairs with
    | .error e => .error e
    | .ok old_pairs =>
      match erase_all hp m old_pairs with
      | .error e => .error e
      | .ok s =>
        insert_all ins s.1
          { s.2 with table := s.2.table ++ List.replicate s.2.table.length Node.vacant }
          old_pairs
  else .ok (hp, m)

/-- The function `insert_pair(hash_pair)`; `depth` bounds the nesting of `insert_pair` calls. -/
def insert_pair [DecidableEq K] :
    Nat → Heap K V → HashMap K V → K × V → Except Err (Heap K V × HashMap K V)
  | 0, _, _, _ => .error .diverged
  | depth + 1, hp, m, kv =>
    match find_key_pos hp m kv.1 with
    | .error e => .error e
    | .ok found =>
      if found < m.table.length then .ok (hp, m)
      else
        match increase_size (insert_pair depth) hp
            { m with cnt_elements := m.cnt_elements + 1 } with
        | .error e => .error e
        | .ok s =>
          let pos := get_pos s.2 kv.1
          let r := insert_and_get_it s.1 s.2.hash_pairs kv
          match insert_loop s.2.table.length s.2.table (Node.of_it r.2.2) pos with
          | .error e => .error e
          | .ok table1 => .ok (r.1, { s.2 with table := table1, hash_pairs := r.2.1 })

/-! ## Public member functions -/

/-- The constructor `HashMap(hash)`. -/
def HashMap.init (hash : K → Nat) : HashMap K V := ⟨[], [], 0, hash⟩

/-- The function `size()`. -/
def size (m : HashMap K V) : Nat := m.cnt_elements

/-- The function `empty()`. -/
def empty (m : HashMap K V) : Bool := m.cnt_elements == 0

/-- The function `insert(hash_pair)`. Two levels of `insert_pair` are allowed: the call
itself and the calls made by the rehash of its `increase_size`; a rehash that would itself
rehash is reported as `Err.diverged`. -/
def insert [DecidableEq K] (hp : Heap K V) (m : HashMap K V) (kv : K × V) :
    Except Err (Heap K V × HashMap K V) :=
  insert_pair 2 hp m kv

/-- The function `erase(key)`. -/
def erase [DecidableEq K] (hp : Heap K V) (m : HashMap K V) (key : K) :
    Except Err (Heap K V × HashMap K V) :=
  erase_key hp m key

/-- The function `find(key)`: `none` is the end sentinel `hash_pairs.end()`, `some h` the iterator
designating node `h`. -/
def find [DecidableEq K] (hp : Heap K V) (m : HashMap K V) (key : K) :
    Except Err (Option Nat) :=
  match find_key_pos hp m key with
  | .error e => .error e
  | .ok pos =>
    if pos = m.table.length then .ok none
    else
      match (node_at m.table pos).it with
      | none => .error .undefined
      | some h => .ok (some h)

/-- The function `operator[](key)`: the new state and the handle of the node whose `second` member the
returned reference designates. -/
def index [DecidableEq K] [Inhabited V] (hp : Heap K V) (m : HashMap K V) (key : K) :
    Except Err (Heap K V × HashMap K V × Nat) :=
  match find_key_pos hp m key with
  | .error e => .error e
  | .ok pos =>
    if pos < m.table.length then
      match (node_at m.table pos).it with
      | none => .error .undefined
      | some h =>
        match read hp h with
        | none => .error .undefined
        | some _ => .ok (hp, m, h)
    else
      match insert_pair 2 hp m (key, default) with
      | .error e => .error e
      | .ok s =>
        match find_key_pos s.1 s.2 key with
        | .error e => .error e
        | .ok pos1 =>
          match (node_at s.2.table pos1).it with
          | none => .error .undefined
          | some h =>
            match read s.1 h with
            | none => .error .undefined
            | some _ => .ok (s.1, s.2, h)

/-- The function `at(key)`. -/
def at_ [DecidableEq K] (hp : Heap K V) (m : HashMap K V) (key : K) : Except Err V :=
  match find_key_pos hp m key with
  | .error e => .error e
  | .ok pos =>
    if pos = m.table.length then .error .out_of_range
    else
      match deref hp (node_at m.table pos).it with
      | none => .error .undefined
      | some kv => .ok kv.2

/-- The function `clear()`. -/
def clear [DecidableEq K] (hp : Heap K V) (m : HashMap K V) :
    Except Err (Heap K V × HashMap K V) :=
  match iterate hp m.hash_pairs with
  | .error e => .error e
  | .ok copy =>
    match erase_all hp m copy with
    | .error e => .error e
    | .ok s => .ok (s.2.hash_pairs.foldl dealloc s.1, { s.2 with hash_pairs := [] })

/-- The sequence of pairs visited by a traversal from `begin()` to `end()`. -/
def items (hp : Heap K V) (m : HashMap K V) : Except Err (List (K × V)) :=
  iterate hp m.hash_pairs

/-- The copy constructor of `std::list`: a fresh node for every node of the source,
in order. -/
def copy_list : Heap K V → List Nat → Except Err (Heap K V × List Nat)
  | hp, [] => .ok (hp, [])
  | hp, h :: rest =>
    match read hp h with
    | none => .error .undefined
    | some kv =>
      match copy_list (alloc hp kv).1 rest with
      | .error e => .error e
      | .ok r => .ok (r.1, (alloc hp kv).2 :: r.2)

/-- The copy assignment `self = other`: the new heap and the new value of `self`.
The nodes `self` owned before are destroyed with the local `copy`. -/
def assign (hp : Heap K V) (self other : HashMap K V) :
    Except Err (Heap K V × HashMap K V) :=
  match copy_list hp other.hash_pairs with
  | .error e => .error e
  | .ok r =>
    .ok (self.hash_pairs.foldl dealloc r.1,
      { self with hash_pairs := r.2,
                  cnt_elements := other.cnt_elements,
                  table := other.table })

/-- The loop of the range constructor: `tmp` runs over the positions of the range, and
every iteration inserts the pair that `begin` designates. -/
def range_loop [DecidableEq K] (first : K × V) :
    Heap K V → HashMap K V → List (K × V) → Except Err (Heap K V × HashMap K V)
  | hp, m, [] => .ok (hp, m)
  | hp, m, _ :: rest =>
    match insert hp m first with
    | .error e => .error e
    | .ok s => range_loop first s.1 s.2 rest

/-- The constructor `HashMap(begin, end, hash)` for the range holding `range`. -/
def HashMap.of_range [DecidableEq K] (hp : Heap K V) (range : List (K × V))
    (hash : K → Nat) : Except Err (Heap K V × HashMap K V) :=
  match range with
  | [] => .ok (hp, HashMap.init hash)
  | first :: _ => range_loop first hp (HashMap.init hash) range

/-- The constructor `HashMap(initializer_list, hash)`. -/
def HashMap.of_list [DecidableEq K] (hp : Heap K V) (pairs : List (K × V))
    (hash : K → Nat) : Except Err (Heap K V × HashMap K V) :=
  insert_all insert hp (HashMap.init hash) pairs

/-! ## Invariants and reachable states -/

/-- The key of the record in node `h`, if the node is live. -/
def key_of (hp : Heap K V) (h : Nat) : Option K := (read hp h).map Prod.fst

/-- The pairs of the live nodes among `L`, in order. -/
def pairs_of (hp : Heap K V) (L : List Nat) : List (K × V) := L.filterMap (read hp)

/-- Coherence of a slot table `T` with a record list `L`, where `kf` gives the key of the
record in a node and `hash` is the hash function. -/
structure TableOK (kf : Nat → Option K) (hash : K → Nat) (T : List Node) (L : List Nat) :
    Prop where
  /-- An occupied slot designates a record of the list, and its PSL is the circular
  distance from the ideal bucket of the key to the slot. -/
  slot : ∀ p, p < T.length → (node_at T p).free = false →
    ∃ h k, (node_at T p).it = some h ∧ h ∈ L ∧ kf h = some k ∧
      (node_at T p).PSL < T.length ∧ (hash k % T.length + (node_at T p).PSL) % T.length = p
  /-- An occupied slot with a positive PSL follows an occupied slot whose PSL is at most
  one smaller. -/
  chain : ∀ p, p < T.length → (node_at T (next_pos T.length p)).free = false →
    1 ≤ (node_at T (next_pos T.length p)).PSL →
    (node_at T p).free = false ∧
      (node_at T (next_pos T.length p)).PSL ≤ (node_at T p).PSL + 1
  /-- Every record of the list is designated by an occupied slot. -/
  cover : ∀ h, h ∈ L → ∃ p, p < T.length ∧ (node_at T p).free = false ∧
    (node_at T p).it = some h
  /-- Two occupied slots designate different records. -/
  inj : ∀ p q, p < T.length → q < T.length → (node_at T p).free = false →
    (node_at T q).free = false → (node_at T p).it = (node_at T q).it → p = q
  /-- The list holds every node once. -/
  nodup : L.Nodup
  /-- Two records of the list have different keys. -/
  keys_inj : ∀ h1, h1 ∈ L → ∀ h2, h2 ∈ L → kf h1 = kf h2 → h1 = h2

/-- The representation invariant of a map `m` in the heap `hp`. -/
structure WF (hp : Heap K V) (m : HashMap K V) : Prop where
  table_ok : TableOK (key_of hp) m.hash m.table m.hash_pairs
  count : m.cnt_elements = m.hash_pairs.length
  load : 5 * m.cnt_elements ≤ 4 * m.table.length
  cap : m.table.length = 0 ∨ 2 ≤ m.table.length

/-- The invariant of the placement loop of `insert_pair`: the table is coherent with the
list `L` except that the record of the candidate `nd`, which is to be examined at
position `pos`, is in no slot yet. -/
structure Placing (kf : Nat → Option K) (hash : K → Nat) (T : List Node) (L : List Nat)
    (nd : Node) (pos : Nat) : Prop where
  slot : ∀ p, p < T.length → (node_at T p).free = false →
    ∃ h k, (node_at T p).it = some h ∧ h ∈ L ∧ kf h = some k ∧
      (node_at T p).PSL < T.length ∧ (hash k % T.length + (node_at T p).PSL) % T.length = p
  chain : ∀ p, p < T.length → (node_at T (next_pos T.length p)).free = false →
    1 ≤ (node_at T (next_pos T.length p)).PSL →
    (node_at T p).free = false ∧
      (node_at T (next_pos T.length p)).PSL ≤ (node_at T p).PSL + 1
  cover : ∀ h, h ∈ L → nd.it = some h ∨ ∃ p, p < T.length ∧ (node_at T p).free = false ∧
    (node_at T p).it = some h
  inj : ∀ p q, p < T.length → q < T.length → (node_at T p).free = false →
    (node_at T q).free = false → (node_at T p).it = (node_at T q).it → p = q
  nodup : L.Nodup
  keys_inj : ∀ h1, h1 ∈ L → ∀ h2, h2 ∈ L → kf h1 = kf h2 → h1 = h2
  pos_lt : pos < T.length
  cand_occ : nd.free = false
  cand : ∃ h k, nd.it = some h ∧ h ∈ L ∧ kf h = some k ∧
    (hash k % T.length + nd.PSL) % T.length = pos
  cand_new : ∀ p, p < T.length → (node_at T p).free = false → (node_at T p).it ≠ nd.it
  cand_chain : 1 ≤ nd.PSL → ∃ pp, pp < T.length ∧ next_pos T.length pp = pos ∧
    (node_at T pp).free = false ∧ nd.PSL ≤ (node_at T pp).PSL + 1

/-- The invariant of the backward shift loop of `erase_key`: the table is coherent with
the list `L` except for the hole at position `pos`, whose successor may still have to
move back. -/
structure Shifting (kf : Nat → Option K) (hash : K → Nat) (T : List Node) (L : List Nat)
    (pos : Nat) : Prop where
  slot : ∀ p, p < T.length → (node_at T p).free = false →
    ∃ h k, (node_at T p).it = some h ∧ h ∈ L ∧ kf h = some k ∧
      (node_at T p).PSL < T.length ∧ (hash k % T.length + (node_at T p).PSL) % T.length = p
  chain : ∀ p, p < T.length → p ≠ pos → (node_at T (next_pos T.length p)).free = false →
    1 ≤ (node_at T (next_pos T.length p)).PSL →
    (node_at T p).free = false ∧
      (node_at T (next_pos T.length p)).PSL ≤ (node_at T p).PSL + 1
  cover : ∀ h, h ∈ L → ∃ p, p < T.length ∧ (node_at T p).free = false ∧
    (node_at T p).it = some h
  inj : ∀ p q, p < T.length → q < T.length → (node_at T p).free = false →
    (node_at T q).free = false → (node_at T p).it = (node_at T q).it → p = q
  nodup : L.Nodup
  keys_inj : ∀ h1, h1 ∈ L → ∀ h2, h2 ∈ L → kf h1 = kf h2 → h1 = h2
  pos_lt : pos < T.length
  hole : (node_at T pos).free = true
  hole_chain : (node_at T (next_pos T.length pos)).free = false →
    2 ≤ (node_at T (next_pos T.length pos)).PSL →
    ∀ pp, pp < T.length → next_pos T.length pp = pos →
      (node_at T pp).free = false ∧
        (node_at T (next_pos T.length pos)).PSL ≤ (node_at T pp).PSL + 2

/-- The states of a map reached from a newly constructed empty map by `insert`, `erase`,
`operator[]`, `clear` and assignments to the value of a stored pair through a reference
or iterator obtained from the map. Copy assignment is not among these steps: the state of
a map after `operator=` is given by `assign`. -/
inductive Reachable [DecidableEq K] [Inhabited V] : Heap K V → HashMap K V → Prop
  | init (hp : Heap K V) (hash : K → Nat) : Reachable hp (HashMap.init hash)
  | insert {hp hp1 : Heap K V} {m m1 : HashMap K V} (kv : K × V) :
      Reachable hp m → insert hp m kv = .ok (hp1, m1) → Reachable hp1 m1
  | erase {hp hp1 : Heap K V} {m m1 : HashMap K V} (key : K) :
      Reachable hp m → erase hp m key = .ok (hp1, m1) → Reachable hp1 m1
  | index {hp hp1 : Heap K V} {m m1 : HashMap K V} (key : K) (h : Nat) :
      Reachable hp m → index hp m key = .ok (hp1, m1, h) → Reachable hp1 m1
  | store {hp : Heap K V} {m : HashMap K V} (h : Nat) (v : V) :
      Reachable hp m → h ∈ m.hash_pairs → Reachable (store hp h v) m
  | clear {hp hp1 : Heap K V} {m m1 : HashMap K V} :
      Reachable hp m → clear hp m = .ok (hp1, m1) → Reachable hp1 m1

/-- The condition under which `insert_pair` of a new key rehashes into a doubled table:
the table exists and `(cnt_elements + 1) / size > 0.8`. -/
def grows (m : HashMap K V) : Prop :=
  m.table.length ≠ 0 ∧ load_exceeded (m.cnt_elements + 1) m.table.length

instance (m : HashMap K V) : Decidable (grows m) := by
  unfold grows; infer_instance

/-- The result of `find(key)` dereferenced: the pair the iterator designates, `none` for
the end sentinel. -/
def find_pair [DecidableEq K] (hp : Heap K V) (m : HashMap K V) (key : K) :
    Except Err (Option (K × V)) :=
  match find hp m key with
  | .error e => .error e
  | .ok none => .ok none
  | .ok (some h) =>
    match read hp h with
    | none => .error .undefined
    | some kv => .ok (some kv)

/-! ## Call sequences, reference models and concrete inputs -/

/-- A call of `insert` or of `erase`. -/
inductive Op (K V : Type) where
  | insert (kv : K × V)
  | erase (key : K)

/-- One call applied to the outcome of the calls before it. -/
def apply_op [DecidableEq K] (s : Except Err (Heap K V × HashMap K V)) (op : Op K V) :
    Except Err (Heap K V × HashMap K V) :=
  match s with
  | .error e => .error e
  | .ok s =>
    match op with
    | .insert kv => insert s.1 s.2 kv
    | .erase key => erase s.1 s.2 key

/-- A sequence of calls applied to a newly constructed empty map with hash function
`hash`. -/
def run [DecidableEq K] (hash : K → Nat) (ops : List (Op K V)) :
    Except Err (Heap K V × HashMap K V) :=
  ops.foldl apply_op (.ok ([], HashMap.init hash))

/-- The reference key set after one call. -/
def ref_step [DecidableEq K] (S : Finset K) (op : Op K V) : Finset K :=
  match op with
  | .insert kv => Insert.insert kv.1 S
  | .erase key => S.erase key

/-- The reference key set of a sequence of calls: the keys inserted and not erased
afterwards. -/
def ref_keys [DecidableEq K] (ops : List (Op K V)) : Finset K := ops.foldl ref_step ∅

/-- The table size and the iteration sequence after one more `insert` of a new key:
the new pair goes to the front, and a growth of the table reverses the older pairs. -/
def order_step (acc : Nat × List (K × V)) (kv : K × V) : Nat × List (K × V) :=
  if acc.1 = 0 then (INITIAL_SIZE, kv :: acc.2)
  else if load_exceeded (acc.2.length + 1) acc.1 then (2 * acc.1, kv :: acc.2.reverse)
  else (acc.1, kv :: acc.2)

/-- The iteration sequence after inserting pairs with pairwise distinct keys, in order,
into an empty map. -/
def insertion_order (kvs : List (K × V)) : List (K × V) :=
  (kvs.foldl order_step (0, [])).2

/-- A hash functor with a data member: `seeded s` is the instance with seed `s`. -/
def seeded (seed : Nat) (key : Nat) : Nat := key + seed

/-- The heap after `insert(1,"a")`, `insert(2,"b")` on an empty map with the identity
hash. -/
def scenario_heap : Heap Nat String := [none, some (1, "a"), some (2, "b")]

/-- The map after `insert(1,"a")`, `insert(2,"b")` on an empty map with the identity
hash. -/
def scenario_map : HashMap Nat String :=
  ⟨[Node.vacant, ⟨false, 0, some 1⟩, ⟨false, 0, some 2⟩, Node.vacant], [2, 1], 2, id⟩

/-- The heap holding the one record of `source_map`. -/
def source_heap : Heap Nat Nat := [some (1, 10)]

/-- The map after `insert(1, 10)` on an empty map whose hash functor has seed `0`. -/
def source_map : HashMap Nat Nat := ⟨[Node.vacant, ⟨false, 0, some 0⟩], [0], 1, seeded 0⟩

/-- The reference association map after one call, in the words of the specification:
`insert` keeps an existing binding and binds an unbound key, `erase` removes the
binding. -/
def ref_bind [DecidableEq K] (f : K → Option V) (op : Op K V) : K → Option V :=
  match op with
  | .insert kv => fun k =>
    if k = kv.1 then
      match f k with
      | none => some kv.2
      | some w => some w
    else f k
  | .erase key => fun k => if k = key then none else f k

/-- The reference association map of a sequence of calls on an empty map. -/
def ref_map [DecidableEq K] (ops : List (Op K V)) : K → Option V :=
  ops.foldl ref_bind (fun _ => none)

/-- The circular predecessor of position `pos` in a table of `size` slots. -/
def prev_pos (size pos : Nat) : Nat := if pos = 0 then size - 1 else pos - 1

/-- The number of occupied (non-free) slots of a table. -/
def occupied_count (table : List Node) : Nat := (table.filter (fun nd => !nd.free)).length

/-- The heap after inserting the keys 0, 8, 16, 2 (with values 1, 2, 3, 4) into an empty
map with the identity hash. -/
def cluster_heap : Heap Nat Nat :=
  [none, none, none, none, some (16, 3), some (8, 2), some (0, 1), some (2, 4)]

/-- The map after inserting the keys 0, 8, 16, 2 (with values 1, 2, 3, 4) into an empty
map with the identity hash: the keys 16, 8, 0 share the ideal bucket 0 and the key 2 sits
behind them. -/
def cluster_map : HashMap Nat Nat :=
  ⟨[⟨false, 0, some 4⟩, ⟨false, 1, some 5⟩, ⟨false, 2, some 6⟩, ⟨false, 1, some 7⟩,
    Node.vacant, Node.vacant, Node.vacant, Node.vacant], [7, 6, 5, 4], 4, id⟩

/-- The heap after `a.insert({1, 10}); a = a;`: the node the table designates has been
destroyed with the local `copy`, the list owns a fresh node. -/
def self_assigned_heap : Heap Nat Nat := [none, some (1, 10)]

/-- The map `a` after `a.insert({1, 10}); a = a;`: slot 1 still holds the iterator to the
destroyed node 0, the list holds the fresh node 1. -/
def self_assigned_map : HashMap Nat Nat :=
  ⟨[Node.vacant, ⟨false, 0, some 0⟩], [1], 1, seeded 0⟩

end RobinHood


namespace RobinHood

variable {K V : Type}

/-! ## Circular positions -/

theorem next_pos_lt {n p : Nat} (hp : p < n) : next_pos n p < n := by
  unfold next_pos
  split_ifs <;> omega

theorem next_pos_inj {n p q : Nat} (hp : p < n) (hq : q < n)
    (h : next_pos n p = next_pos n q) : p = q := by
  unfold next_pos at h
  have := hp
  have := hq
  split_ifs at h <;> omega

theorem next_pos_ne_self {n p : Nat} (hn : 2 ≤ n) : next_pos n p ≠ p := by
  unfold next_pos
  split_ifs <;> omega

theorem next_pos_mod {n : Nat} (hn : 0 < n) (a : Nat) :
    next_pos n (a % n) = (a + 1) % n := by
  have hlt : a % n < n := Nat.mod_lt _ hn
  rw [← Nat.mod_add_mod a n 1]
  unfold next_pos
  split_ifs with h
  · rw [h, Nat.mod_self]
  · have e : (a % n + 1) % n = a % n + 1 := Nat.mod_eq_of_lt (by omega)
    rw [e]

theorem next_pos_add_mod (n x j : Nat) :
    (next_pos n x + j) % n = (x + (j + 1)) % n := by
  unfold next_pos
  split_ifs with h
  · have : x + (j + 1) = j + n := by omega
    rw [this, Nat.add_mod_right, Nat.zero_add]
  · congr 1; omega

theorem exists_offset {n p q : Nat} (hp : p < n) (hq : q < n) :
    ∃ j, j < n ∧ (p + j) % n = q := by
  by_cases h : p ≤ q
  · exact ⟨q - p, by omega, by rw [Nat.add_sub_cancel' h, Nat.mod_eq_of_lt hq]⟩
  · refine ⟨q + n - p, by omega, ?_⟩
    have : p + (q + n - p) = q + n := by omega
    rw [this, Nat.add_mod_right, Nat.mod_eq_of_lt hq]

theorem offset_ne {n x j d : Nat} (hjd : j < d) (hd : d < n) :
    (x + j) % n ≠ (x + d) % n := by
  intro h
  have h1 : j % n = d % n := Nat.ModEq.add_left_cancel' x h
  rw [Nat.mod_eq_of_lt (by omega), Nat.mod_eq_of_lt hd] at h1
  omega

theorem offset_zero {n p : Nat} (hp : p < n) : (p + 0) % n = p := by
  simp [Nat.mod_eq_of_lt hp]

/-! ## Table access -/

theorem node_at_set_self {T : List Node} {p : Nat} (x : Node) (hp : p < T.length) :
    node_at (T.set p x) p = x := by
  simp [node_at, List.getD_eq_getElem?_getD, hp]

theorem node_at_set_ne {T : List Node} {p q : Nat} (x : Node) (h : p ≠ q) :
    node_at (T.set p x) q = node_at T q := by
  simp [node_at, List.getD_eq_getElem?_getD, List.getElem?_set_ne h]

theorem node_at_vacant_of_le {T : List Node} {p : Nat} (h : T.length ≤ p) :
    node_at T p = Node.vacant := by
  simp [node_at, List.getD_eq_getElem?_getD, List.getElem?_eq_none h]

theorem node_at_replicate (n p : Nat) : node_at (List.replicate n Node.vacant) p = Node.vacant := by
  by_cases h : p < n
  · simp [node_at, List.getD_eq_getElem?_getD, List.getElem?_replicate, h]
  · exact node_at_vacant_of_le (by simpa using h)

theorem node_at_append_left {T T1 : List Node} {p : Nat} (h : p < T.length) :
    node_at (T ++ T1) p = node_at T p := by
  simp [node_at, List.getD_eq_getElem?_getD, List.getElem?_append_left h]

theorem node_at_append_replicate {T : List Node} {n p : Nat} (h : T.length ≤ p) :
    node_at (T ++ List.replicate n Node.vacant) p = Node.vacant := by
  have := node_at_replicate n (p - T.length)
  simp [node_at, List.getD_eq_getElem?_getD, List.getElem?_append_right h]

/-! ## The heap -/

theorem read_lt {hp : Heap K V} {h : Nat} {kv : K × V} (hr : read hp h = some kv) :
    h < hp.length := by
  by_contra hlt
  simp [read, List.getD_eq_getElem?_getD, List.getElem?_eq_none (Nat.le_of_not_lt hlt)] at hr

theorem read_alloc_old {hp : Heap K V} {h : Nat} (kv : K × V) (hlt : h < hp.length) :
    read (alloc hp kv).1 h = read hp h := by
  simp [read, alloc, List.getD_eq_getElem?_getD, List.getElem?_append_left hlt]

theorem read_alloc_new (hp : Heap K V) (kv : K × V) :
    read (alloc hp kv).1 hp.length = some kv := by
  simp [read, alloc, List.getD_eq_getElem?_getD]

theorem read_dealloc_ne {hp : Heap K V} {h h1 : Nat} (hne : h ≠ h1) :
    read (dealloc hp h) h1 = read hp h1 := by
  simp [read, dealloc, List.getD_eq_getElem?_getD, List.getElem?_set_ne hne]

theorem read_dealloc_self (hp : Heap K V) (h : Nat) : read (dealloc hp h) h = none := by
  by_cases hlt : h < hp.length
  · simp [read, dealloc, List.getD_eq_getElem?_getD, hlt]
  · have hle : (hp.set h none).length ≤ h := by simpa using hlt
    simp [read, dealloc, List.getD_eq_getElem?_getD, List.getElem?_eq_none hle]

theorem length_dealloc (hp : Heap K V) (h : Nat) : (dealloc hp h).length = hp.length := by
  simp [dealloc]

theorem read_store_ne {hp : Heap K V} {h h1 : Nat} (v : V) (hne : h ≠ h1) :
    read (store hp h v) h1 = read hp h1 := by
  unfold store
  split
  · rfl
  · simp [read, List.getD_eq_getElem?_getD, List.getElem?_set_ne hne]

theorem read_store_self {hp : Heap K V} {h : Nat} {kv : K × V} (v : V)
    (hr : read hp h = some kv) : read (store hp h v) h = some (kv.1, v) := by
  have hlt := read_lt hr
  unfold store
  rw [hr]
  simp [read, List.getD_eq_getElem?_getD, hlt]

theorem key_of_store (hp : Heap K V) (h h1 : Nat) (v : V) :
    key_of (store hp h v) h1 = key_of hp h1 := by
  unfold key_of
  by_cases hne : h = h1
  · subst hne
    cases hr : read hp h with
    | none => simp [store, hr]
    | some kv => simp [read_store_self v hr]
  · rw [read_store_ne v hne]

theorem key_of_some {hp : Heap K V} {h : Nat} {k : K} (hk : key_of hp h = some k) :
    ∃ v, read hp h = some (k, v) := by
  unfold key_of at hk
  cases hr : read hp h with
  | none => simp [hr] at hk
  | some kv =>
    obtain ⟨k1, v1⟩ := kv
    simp [hr] at hk
    exact ⟨v1, by rw [hk]⟩

theorem key_of_read {hp : Heap K V} {h : Nat} {kv : K × V} (hr : read hp h = some kv) :
    key_of hp h = some kv.1 := by
  simp [key_of, hr]

end RobinHood


namespace RobinHood

variable {K V : Type}

/-! ## Free slots and probe chains -/

theorem TableOK.exists_free {kf : Nat → Option K} {hash : K → Nat} {T : List Node}
    {L : List Nat} (ok : TableOK kf hash T L) (hlt : L.length < T.length) :
    ∃ q, q < T.length ∧ (node_at T q).free = true := by
  by_contra hcon
  have hocc : ∀ q, q < T.length → (node_at T q).free = false := by
    intro q hq
    by_contra hf
    exact hcon ⟨q, hq, by simpa using hf⟩
  have hle : (Finset.range T.length).card ≤ L.toFinset.card := by
    apply Finset.card_le_card_of_injOn (fun p => ((node_at T p).it).getD 0)
    · intro p hp
      have hp1 : p < T.length := by simpa using hp
      obtain ⟨h, k, hit, hL, _⟩ := ok.slot p hp1 (hocc p hp1)
      simp [hit, hL]
    · intro p hp q hq hpq
      have hp1 : p < T.length := by simpa using hp
      have hq1 : q < T.length := by simpa using hq
      obtain ⟨h, k, hit, _⟩ := ok.slot p hp1 (hocc p hp1)
      obtain ⟨h2, k2, hit2, _⟩ := ok.slot q hq1 (hocc q hq1)
      apply ok.inj p q hp1 hq1 (hocc p hp1) (hocc q hq1)
      simp only [hit, hit2, Option.getD_some] at hpq
      rw [hit, hit2, hpq]
  have h2 := List.toFinset_card_le L
  simp only [Finset.card_range] at hle
  omega

theorem TableOK.chain_back {kf : Nat → Option K} {hash : K → Nat} {T : List Node}
    {L : List Nat} (ok : TableOK kf hash T L) (hn : 0 < T.length) (x : Nat) :
    ∀ d, (node_at T ((x + d) % T.length)).free = false →
      d ≤ (node_at T ((x + d) % T.length)).PSL →
      ∀ j, j ≤ d → (node_at T ((x + j) % T.length)).free = false ∧
        j ≤ (node_at T ((x + j) % T.length)).PSL := by
  intro d
  induction d with
  | zero =>
    intro hf hpsl j hj
    have : j = 0 := by omega
    subst this
    exact ⟨hf, hpsl⟩
  | succ d ih =>
    intro hf hpsl j hj
    have hnext : next_pos T.length ((x + d) % T.length) = (x + (d + 1)) % T.length :=
      next_pos_mod hn (x + d)
    have hc := ok.chain ((x + d) % T.length) (Nat.mod_lt _ hn)
      (by rw [hnext]; exact hf) (by rw [hnext]; omega)
    rw [hnext] at hc
    by_cases hjd : j = d + 1
    · subst hjd; exact ⟨hf, hpsl⟩
    · exact ih hc.1 (by omega) j (by omega)

/-! ## Lookup -/

theorem find_loop_present [DecidableEq K] (hp : Heap K V) (T : List Node) (key : K)
    (hn : 0 < T.length) (x d : Nat)
    (hbefore : ∀ j, j < d → (node_at T ((x + j) % T.length)).free = false ∧
      j ≤ (node_at T ((x + j) % T.length)).PSL ∧
      ∃ kv, deref hp (node_at T ((x + j) % T.length)).it = some kv ∧ kv.1 ≠ key)
    (hat : (node_at T ((x + d) % T.length)).free = false ∧
      d ≤ (node_at T ((x + d) % T.length)).PSL ∧
      ∃ kv, deref hp (node_at T ((x + d) % T.length)).it = some kv ∧ kv.1 = key) :
    ∀ fuel j, j ≤ d → d - j < fuel →
      find_loop hp T key fuel ((x + j) % T.length) j = .ok ((x + d) % T.length) := by
  intro fuel
  induction fuel with
  | zero => intro j _ h; omega
  | succ fuel ih =>
    intro j hj hfuel
    unfold find_loop
    by_cases hjd : j = d
    · subst hjd
      obtain ⟨hf, hpsl, kv, hkv, hkey⟩ := hat
      have hcond : ¬ (j > (node_at T ((x + j) % T.length)).PSL ∨
          (node_at T ((x + j) % T.length)).free = true) := by
        simp [hf]; omega
      rw [if_neg hcond, hkv]
      simp [hkey]
    · obtain ⟨hf, hpsl, kv, hkv, hkey⟩ := hbefore j (by omega)
      have hcond : ¬ (j > (node_at T ((x + j) % T.length)).PSL ∨
          (node_at T ((x + j) % T.length)).free = true) := by
        simp [hf]; omega
      rw [if_neg hcond, hkv]
      simp only [hkey, if_false]
      rw [next_pos_mod hn (x + j)]
      exact ih (j + 1) (by omega) (by omega)

theorem find_loop_absent [DecidableEq K] (hp : Heap K V) (T : List Node) (key : K)
    (hocc : ∀ p, p < T.length → (node_at T p).free = false →
      ∃ kv, deref hp (node_at T p).it = some kv ∧ kv.1 ≠ key) :
    ∀ j pos fuel c, pos < T.length → (node_at T ((pos + j) % T.length)).free = true →
      j < fuel → find_loop hp T key fuel pos c = .ok T.length := by
  intro j
  induction j with
  | zero =>
    intro pos fuel c hpos hfree hfuel
    rw [offset_zero hpos] at hfree
    obtain ⟨f, rfl⟩ : ∃ f, fuel = f + 1 := ⟨fuel - 1, by omega⟩
    unfold find_loop
    simp [hfree]
  | succ j ih =>
    intro pos fuel c hpos hfree hfuel
    obtain ⟨f, rfl⟩ : ∃ f, fuel = f + 1 := ⟨fuel - 1, by omega⟩
    unfold find_loop
    split_ifs with hcond
    · rfl
    · have hf : (node_at T pos).free = false := by
        by_contra hx
        exact hcond (Or.inr (by simpa using hx))
      obtain ⟨kv, hkv, hkey⟩ := hocc pos hpos hf
      rw [hkv]
      simp only [hkey, if_false]
      apply ih (next_pos T.length pos) f (c + 1) (next_pos_lt hpos)
      · rw [next_pos_add_mod]; exact hfree
      · omega

theorem TableOK.deref_slot {hp : Heap K V} {hash : K → Nat} {T : List Node} {L : List Nat}
    (ok : TableOK (key_of hp) hash T L) {p : Nat} (hp1 : p < T.length)
    (hf : (node_at T p).free = false) :
    ∃ h k v, (node_at T p).it = some h ∧ h ∈ L ∧ read hp h = some (k, v) ∧
      deref hp (node_at T p).it = some (k, v) ∧
      (node_at T p).PSL < T.length ∧
      (hash k % T.length + (node_at T p).PSL) % T.length = p := by
  obtain ⟨h, k, hit, hL, hk, hpsl, hpos⟩ := ok.slot p hp1 hf
  obtain ⟨v, hv⟩ := key_of_some hk
  exact ⟨h, k, v, hit, hL, hv, by rw [hit]; exact hv, hpsl, hpos⟩

theorem find_key_pos_present [DecidableEq K] {hp : Heap K V} {m : HashMap K V}
    (ok : TableOK (key_of hp) m.hash m.table m.hash_pairs) {h : Nat} {key : K}
    (hL : h ∈ m.hash_pairs) (hk : key_of hp h = some key) :
    ∃ p, p < m.table.length ∧ find_key_pos hp m key = .ok p ∧
      (node_at m.table p).free = false ∧ (node_at m.table p).it = some h := by
  obtain ⟨p, hp1, hf, hit⟩ := ok.cover h hL
  have hn : 0 < m.table.length := by omega
  obtain ⟨h1, k1, v1, hit1, hL1, hr1, hd1, hpsl1, hpos1⟩ := ok.deref_slot hp1 hf
  have hh : h1 = h := by rw [hit] at hit1; exact (Option.some.inj hit1).symm
  subst hh
  have hk1 : k1 = key := by
    have := key_of_read hr1
    rw [hk] at this
    exact (Option.some.inj this).symm
  subst hk1
  refine ⟨p, hp1, ?_, hf, hit⟩
  have hne : m.table.isEmpty = false := by
    cases hT : m.table with
    | nil => simp [hT] at hn
    | cons a t => rfl
  unfold find_key_pos get_pos hash_function
  simp only [hne, Bool.false_eq_true, if_false]
  set x := m.hash k1 % m.table.length with hx
  set d := (node_at m.table p).PSL with hd
  have hchain := ok.chain_back hn x d (by rw [hpos1]; exact hf) (by rw [hpos1])
  have key_lemma := find_loop_present hp m.table k1 hn x d
    (by
      intro j hj
      obtain ⟨hfj, hpslj⟩ := hchain j (by omega)
      refine ⟨hfj, hpslj, ?_⟩
      obtain ⟨h2, k2, v2, hit2, hL2, hr2, hd2, _, _⟩ :=
        ok.deref_slot (Nat.mod_lt (x + j) hn) hfj
      refine ⟨(k2, v2), hd2, ?_⟩
      intro hkk
      have hkk1 : k2 = k1 := hkk
      subst hkk1
      have heq : h2 = h1 := ok.keys_inj h2 hL2 h1 hL (by rw [key_of_read hr2, hk])
      subst heq
      have hpq := ok.inj ((x + j) % m.table.length) p (Nat.mod_lt _ hn) hp1 hfj hf
        (by rw [hit2, hit])
      have := offset_ne (n := m.table.length) (x := x) hj hpsl1
      rw [hpos1] at this
      exact this hpq)
    (by
      rw [hpos1]
      exact ⟨hf, le_refl _, (k1, v1), hd1, rfl⟩)
    m.table.length 0 (by omega) (by omega)
  rw [hpos1] at key_lemma
  rw [← key_lemma]
  congr 1
  simp [hx, Nat.mod_mod]

theorem find_key_pos_absent [DecidableEq K] {hp : Heap K V} {m : HashMap K V}
    (ok : TableOK (key_of hp) m.hash m.table m.hash_pairs) {key : K}
    (hlen : m.hash_pairs.length < m.table.length ∨ m.table.length = 0)
    (habs : ∀ h, h ∈ m.hash_pairs → key_of hp h ≠ some key) :
    find_key_pos hp m key = .ok m.table.length := by
  unfold find_key_pos
  cases hT : m.table with
  | nil => simp
  | cons a t =>
    simp only [List.isEmpty_cons, Bool.false_eq_true, if_false]
    rw [← hT]
    have hn : 0 < m.table.length := by rw [hT]; simp
    have hlt : m.hash_pairs.length < m.table.length := by
      rcases hlen with h | h
      · exact h
      · omega
    obtain ⟨q, hq, hfree⟩ := ok.exists_free hlt
    have hpos : get_pos m key < m.table.length := by
      unfold get_pos hash_function
      simp only [hT, List.isEmpty_cons, Bool.false_eq_true, if_false]
      exact Nat.mod_lt _ (by simp)
    obtain ⟨j, hj, hjq⟩ := exists_offset hpos hq
    apply find_loop_absent hp m.table key _ j (get_pos m key) m.table.length 0 hpos
      (by rw [hjq]; exact hfree) hj
    intro p hp1 hf
    obtain ⟨h2, k2, v2, hit2, hL2, hr2, hd2, _, _⟩ := ok.deref_slot hp1 hf
    refine ⟨(k2, v2), hd2, ?_⟩
    intro hkk
    have hkk1 : k2 = key := hkk
    subst hkk1
    exact habs h2 hL2 (key_of_read hr2)

end RobinHood


namespace RobinHood

variable {K V : Type}

/-! ## The placement loop of `insert_pair` -/

theorem node_at_set {T : List Node} {pos : Nat} (x : Node) (hpos : pos < T.length)
    (p : Nat) : node_at (T.set pos x) p = if p = pos then x else node_at T p := by
  split_ifs with h
  · subst h; exact node_at_set_self x hpos
  · exact node_at_set_ne x (Ne.symm h)

theorem Placing.finish {kf : Nat → Option K} {hash : K → Nat} {T : List Node} {L : List Nat}
    {nd : Node} {pos : Nat} (inv : Placing kf hash T L nd pos)
    (hfree : (node_at T pos).free = true) (hpsl : nd.PSL < T.length) :
    TableOK kf hash (T.set pos nd) L := by
  have hlen : (T.set pos nd).length = T.length := List.length_set _ _ _
  have hpos := inv.pos_lt
  constructor
  · intro p hp hf
    rw [hlen] at hp ⊢
    rw [node_at_set nd hpos] at hf ⊢
    split_ifs at hf ⊢ with hpp
    · obtain ⟨h, k, hit, hL, hk, hposk⟩ := inv.cand
      exact ⟨h, k, hit, hL, hk, hpsl, by rw [hpp]; exact hposk⟩
    · exact inv.slot p hp hf
  · intro p hp hf h1
    rw [hlen] at hp hf h1 ⊢
    simp only [node_at_set nd hpos] at hf h1 ⊢
    by_cases hq : next_pos T.length p = pos
    · simp only [hq, if_true] at hf h1 ⊢
      by_cases hpp : p = pos
      · simp only [hpp, if_true]
        exact ⟨inv.cand_occ, by omega⟩
      · simp only [hpp, if_false]
        obtain ⟨pp, hpp1, hpp2, hpp3, hpp4⟩ := inv.cand_chain h1
        have : pp = p := next_pos_inj hpp1 hp (by rw [hpp2, hq])
        subst this
        exact ⟨hpp3, hpp4⟩
    · simp only [hq, if_false] at hf h1 ⊢
      by_cases hpp : p = pos
      · have := (inv.chain p hp hf h1).1
        rw [hpp, hfree] at this
        exact absurd this (by simp)
      · simp only [hpp, if_false]
        exact inv.chain p hp hf h1
  · intro h hL
    rw [hlen]
    rcases inv.cover h hL with hc | ⟨p, hp, hf, hit⟩
    · exact ⟨pos, hpos, by rw [node_at_set_self nd hpos]; exact inv.cand_occ,
        by rw [node_at_set_self nd hpos]; exact hc⟩
    · have hne : p ≠ pos := by
        intro he; rw [he, hfree] at hf; exact absurd hf (by simp)
      exact ⟨p, hp, by rw [node_at_set nd hpos, if_neg hne]; exact hf,
        by rw [node_at_set nd hpos, if_neg hne]; exact hit⟩
  · intro p q hp hq hfp hfq hpq
    rw [hlen] at hp hq
    rw [node_at_set nd hpos] at hfp hfq hpq
    rw [node_at_set nd hpos q] at hpq
    by_cases h1 : p = pos <;> by_cases h2 : q = pos
    · rw [h1, h2]
    · simp only [h1, h2, if_true, if_false] at hfp hfq hpq
      exact absurd hpq.symm (inv.cand_new q hq hfq)
    · simp only [h1, h2, if_true, if_false] at hfp hfq hpq
      exact absurd hpq (inv.cand_new p hp hfp)
    · simp only [h1, h2, if_false] at hfp hfq hpq
      exact inv.inj p q hp hq hfp hfq hpq
  · exact inv.nodup
  · exact inv.keys_inj

theorem Placing.step_keep {kf : Nat → Option K} {hash : K → Nat} {T : List Node}
    {L : List Nat} {nd : Node} {pos : Nat} (inv : Placing kf hash T L nd pos)
    (hocc : (node_at T pos).free = false) (hle : nd.PSL ≤ (node_at T pos).PSL) :
    Placing kf hash T L { nd with PSL := nd.PSL + 1 } (next_pos T.length pos) := by
  have hpos := inv.pos_lt
  have hn : 0 < T.length := by omega
  refine ⟨inv.slot, inv.chain, inv.cover, inv.inj, inv.nodup, inv.keys_inj,
    next_pos_lt hpos, inv.cand_occ, ?_, inv.cand_new, ?_⟩
  · obtain ⟨h, k, hit, hL, hk, hposk⟩ := inv.cand
    refine ⟨h, k, hit, hL, hk, ?_⟩
    show (hash k % T.length + (nd.PSL + 1)) % T.length = next_pos T.length pos
    rw [← hposk, next_pos_mod hn]
    rfl
  · intro _
    exact ⟨pos, hpos, rfl, hocc, by show nd.PSL + 1 ≤ (node_at T pos).PSL + 1; omega⟩

theorem Placing.step_swap {kf : Nat → Option K} {hash : K → Nat} {T : List Node}
    {L : List Nat} {nd : Node} {pos : Nat} (inv : Placing kf hash T L nd pos)
    (hocc : (node_at T pos).free = false) (hgt : nd.PSL > (node_at T pos).PSL)
    (hpsl : nd.PSL < T.length) :
    Placing kf hash (T.set pos nd) L
      { node_at T pos with PSL := (node_at T pos).PSL + 1 }
      (next_pos (T.set pos nd).length pos) := by
  have hlen : (T.set pos nd).length = T.length := List.length_set _ _ _
  have hpos := inv.pos_lt
  have hn : 0 < T.length := by omega
  obtain ⟨hc, kc, hcit, hcL, hck, hcpsl, hcpos⟩ := inv.slot pos hpos hocc
  constructor
  · intro p hp hf
    rw [hlen] at hp ⊢
    rw [node_at_set nd hpos] at hf ⊢
    split_ifs at hf ⊢ with hpp
    · obtain ⟨h, k, hit, hL, hk, hposk⟩ := inv.cand
      exact ⟨h, k, hit, hL, hk, hpsl, by rw [hpp]; exact hposk⟩
    · exact inv.slot p hp hf
  · intro p hp hf h1
    rw [hlen] at hp hf h1 ⊢
    simp only [node_at_set nd hpos] at hf h1 ⊢
    by_cases hq : next_pos T.length p = pos
    · simp only [hq, if_true] at hf h1 ⊢
      by_cases hpp : p = pos
      · simp only [hpp, if_true]
        exact ⟨inv.cand_occ, by omega⟩
      · simp only [hpp, if_false]
        obtain ⟨pp, hpp1, hpp2, hpp3, hpp4⟩ := inv.cand_chain h1
        have : pp = p := next_pos_inj hpp1 hp (by rw [hpp2, hq])
        subst this
        exact ⟨hpp3, hpp4⟩
    · simp only [hq, if_false] at hf h1 ⊢
      by_cases hpp : p = pos
      · simp only [hpp, if_true]
        have := inv.chain p hp hf h1
        rw [hpp] at this
        exact ⟨inv.cand_occ, by omega⟩
      · simp only [hpp, if_false]
        exact inv.chain p hp hf h1
  · intro h hL
    rw [hlen]
    rcases inv.cover h hL with hc1 | ⟨p, hp, hf, hit⟩
    · exact Or.inr ⟨pos, hpos, by rw [node_at_set_self nd hpos]; exact inv.cand_occ,
        by rw [node_at_set_self nd hpos]; exact hc1⟩
    · by_cases hne : p = pos
      · left
        show (node_at T pos).it = some h
        rw [← hne]; exact hit
      · exact Or.inr ⟨p, hp, by rw [node_at_set nd hpos, if_neg hne]; exact hf,
          by rw [node_at_set nd hpos, if_neg hne]; exact hit⟩
  · intro p q hp hq hfp hfq hpq
    rw [hlen] at hp hq
    rw [node_at_set nd hpos] at hfp hfq hpq
    rw [node_at_set nd hpos q] at hpq
    by_cases h1 : p = pos <;> by_cases h2 : q = pos
    · rw [h1, h2]
    · simp only [h1, h2, if_true, if_false] at hfp hfq hpq
      exact absurd hpq.symm (inv.cand_new q hq hfq)
    · simp only [h1, h2, if_true, if_false] at hfp hfq hpq
      exact absurd hpq (inv.cand_new p hp hfp)
    · simp only [h1, h2, if_false] at hfp hfq hpq
      exact inv.inj p q hp hq hfp hfq hpq
  · exact inv.nodup
  · exact inv.keys_inj
  · rw [hlen]; exact next_pos_lt hpos
  · exact hocc
  · refine ⟨hc, kc, hcit, hcL, hck, ?_⟩
    rw [hlen]
    show (hash kc % T.length + ((node_at T pos).PSL + 1)) % T.length = next_pos T.length pos
    rw [← Nat.add_assoc, ← next_pos_mod hn, hcpos]
  · intro p hp hf
    rw [hlen] at hp
    rw [node_at_set nd hpos] at hf ⊢
    show (if p = pos then nd else node_at T p).it ≠ (node_at T pos).it
    split_ifs at hf ⊢ with hpp
    · exact fun e => inv.cand_new pos hpos hocc e.symm
    · intro e
      exact hpp (inv.inj p pos hp hpos hf hocc e)
  · intro _
    rw [hlen]
    refine ⟨pos, hpos, rfl, ?_, ?_⟩
    · rw [node_at_set_self nd hpos]; exact inv.cand_occ
    · rw [node_at_set_self nd hpos]
      show (node_at T pos).PSL + 1 ≤ nd.PSL + 1
      omega

theorem insert_loop_spec {kf : Nat → Option K} {hash : K → Nat} {L : List Nat} :
    ∀ (j : Nat) (T : List Node) (nd : Node) (pos t fuel : Nat),
      Placing kf hash T L nd pos →
      (node_at T ((pos + j) % T.length)).free = true →
      nd.PSL ≤ t → t + j < T.length → j < fuel →
      ∃ T1, insert_loop fuel T nd pos = .ok T1 ∧ T1.length = T.length ∧
        TableOK kf hash T1 L := by
  intro j
  induction j with
  | zero =>
    intro T nd pos t fuel inv hfree ht htj hfuel
    obtain ⟨f, rfl⟩ : ∃ f, fuel = f + 1 := ⟨fuel - 1, by omega⟩
    rw [offset_zero inv.pos_lt] at hfree
    unfold insert_loop
    rw [if_pos hfree]
    exact ⟨_, rfl, List.length_set _ _ _, inv.finish hfree (by omega)⟩
  | succ j ih =>
    intro T nd pos t fuel inv hfree ht htj hfuel
    obtain ⟨f, rfl⟩ : ∃ f, fuel = f + 1 := ⟨fuel - 1, by omega⟩
    have hpos := inv.pos_lt
    unfold insert_loop
    by_cases hocc : (node_at T pos).free = true
    · rw [if_pos hocc]
      exact ⟨_, rfl, List.length_set _ _ _, inv.finish hocc (by omega)⟩
    · rw [if_neg hocc]
      have hocc1 : (node_at T pos).free = false := by simpa using hocc
      by_cases hgt : nd.PSL > (node_at T pos).PSL
      · rw [if_pos hgt]
        have hlen : (T.set pos nd).length = T.length := List.length_set _ _ _
        have inv1 := inv.step_swap hocc1 hgt (by omega)
        rw [hlen] at inv1
        have hne : (pos + (j + 1)) % T.length ≠ pos := by
          have := offset_ne (n := T.length) (x := pos) (j := 0) (d := j + 1)
            (by omega) (by omega)
          rw [offset_zero hpos] at this
          exact fun e => this e.symm
        obtain ⟨T1, h1, h2, h3⟩ := ih (T.set pos nd)
          { node_at T pos with PSL := (node_at T pos).PSL + 1 }
          (next_pos T.length pos) (t + 1) f inv1
          (by
            rw [hlen, next_pos_add_mod, node_at_set nd hpos, if_neg hne]
            exact hfree)
          (by show (node_at T pos).PSL + 1 ≤ t + 1; omega)
          (by rw [hlen]; omega) (by omega)
        exact ⟨T1, h1, by rw [h2, hlen], h3⟩
      · rw [if_neg hgt]
        have inv1 := inv.step_keep hocc1 (by omega)
        exact ih T { nd with PSL := nd.PSL + 1 } (next_pos T.length pos) (t + 1) f inv1
          (by rw [next_pos_add_mod]; exact hfree)
          (by show nd.PSL + 1 ≤ t + 1; omega) (by omega) (by omega)

theorem TableOK.placing {kf : Nat → Option K} {hash : K → Nat} {T : List Node}
    {L : List Nat} (ok : TableOK kf hash T L) (hn : 0 < T.length) {hc : Nat} {kc : K}
    (hnew : hc ∉ L) (hk : kf hc = some kc) (habs : ∀ h, h ∈ L → kf h ≠ some kc) :
    Placing kf hash T (hc :: L) (Node.of_it hc) (hash kc % T.length) := by
  constructor
  · intro p hp hf
    obtain ⟨h, k, hit, hL, r⟩ := ok.slot p hp hf
    exact ⟨h, k, hit, List.mem_cons_of_mem _ hL, r⟩
  · exact ok.chain
  · intro h hL
    rcases List.mem_cons.mp hL with e | hL1
    · left; rw [e]; rfl
    · exact Or.inr (ok.cover h hL1)
  · exact ok.inj
  · exact List.nodup_cons.mpr ⟨hnew, ok.nodup⟩
  · intro h1 hL1 h2 hL2 e
    rcases List.mem_cons.mp hL1 with e1 | hL1 <;> rcases List.mem_cons.mp hL2 with e2 | hL2
    · rw [e1, e2]
    · rw [e1, hk] at e
      exact absurd e.symm (habs h2 hL2)
    · rw [e2, hk] at e
      exact absurd e (habs h1 hL1)
    · exact ok.keys_inj h1 hL1 h2 hL2 e
  · exact Nat.mod_lt _ hn
  · rfl
  · exact ⟨hc, kc, rfl, List.mem_cons_self _ _, hk, by
      show (hash kc % T.length + 0) % T.length = hash kc % T.length
      rw [Nat.add_zero, Nat.mod_mod]⟩
  · intro p hp hf e
    obtain ⟨h, k, hit, hL, _⟩ := ok.slot p hp hf
    rw [hit] at e
    have : h = hc := Option.some.inj e
    exact hnew (this ▸ hL)
  · intro h1
    exact absurd h1 (by show ¬ 1 ≤ 0; omega)

/-- Placement of a new record into a coherent table that has a free slot. -/
theorem insert_loop_ok {kf : Nat → Option K} {hash : K → Nat} {T : List Node}
    {L : List Nat} (ok : TableOK kf hash T L) (hlt : L.length < T.length) {hc : Nat}
    {kc : K} (hnew : hc ∉ L) (hk : kf hc = some kc) (habs : ∀ h, h ∈ L → kf h ≠ some kc) :
    ∃ T1, insert_loop T.length T (Node.of_it hc) (hash kc % T.length) = .ok T1 ∧
      T1.length = T.length ∧ TableOK kf hash T1 (hc :: L) := by
  have hn : 0 < T.length := by omega
  obtain ⟨q, hq, hfree⟩ := ok.exists_free hlt
  obtain ⟨j, hj, hjq⟩ := exists_offset (Nat.mod_lt (hash kc) hn) hq
  exact insert_loop_spec j T (Node.of_it hc) (hash kc % T.length) 0 T.length
    (ok.placing hn hnew hk habs) (by rw [hjq]; exact hfree) (Nat.le_refl 0) (by omega) hj

end RobinHood


namespace RobinHood

variable {K V : Type}

/-! ## The backward shift loop of `erase_key` -/

theorem Shifting.stop {kf : Nat → Option K} {hash : K → Nat} {T : List Node} {L : List Nat}
    {pos : Nat} (inv : Shifting kf hash T L pos)
    (hstop : (node_at T (next_pos T.length pos)).PSL = 0 ∨
      (node_at T (next_pos T.length pos)).free = true) :
    TableOK kf hash T L := by
  refine ⟨inv.slot, ?_, inv.cover, inv.inj, inv.nodup, inv.keys_inj⟩
  intro p hp hf h1
  by_cases hpp : p = pos
  · subst hpp
    rcases hstop with h0 | hfr
    · omega
    · rw [hfr] at hf; exact absurd hf (by simp)
  · exact inv.chain p hp hpp hf h1

theorem Shifting.next_ne {kf : Nat → Option K} {hash : K → Nat} {T : List Node}
    {L : List Nat} {pos : Nat} (inv : Shifting kf hash T L pos)
    (hocc : (node_at T (next_pos T.length pos)).free = false) :
    next_pos T.length pos ≠ pos := by
  intro e
  rw [e, inv.hole] at hocc
  exact absurd hocc (by simp)

theorem node_at_shift {T : List Node} {pos : Nat} (hpos : pos < T.length) (x y : Node)
    (p : Nat) :
    node_at ((T.set pos x).set (next_pos T.length pos) y) p =
      if p = next_pos T.length pos then y else if p = pos then x else node_at T p := by
  have hlen : (T.set pos x).length = T.length := List.length_set _ _ _
  rw [node_at_set y (by rw [hlen]; exact next_pos_lt hpos), node_at_set x hpos]

theorem Shifting.step {kf : Nat → Option K} {hash : K → Nat} {T : List Node}
    {L : List Nat} {pos : Nat} (inv : Shifting kf hash T L pos) {pos1 : Nat} {nxt : Node}
    (hp1 : next_pos T.length pos = pos1) (hnx : node_at T pos1 = nxt)
    (hocc : nxt.free = false) (hpsl : 1 ≤ nxt.PSL) :
    Shifting kf hash
      ((T.set pos { nxt with PSL := nxt.PSL - 1 }).set pos1 { nxt with free := true })
      L pos1 := by
  have hpos := inv.pos_lt
  have hn : 0 < T.length := by omega
  have hocc0 : (node_at T (next_pos T.length pos)).free = false := by
    rw [hp1, hnx]; exact hocc
  have hne : pos1 ≠ pos := by
    rw [← hp1]; exact inv.next_ne hocc0
  have hpos1 : pos1 < T.length := by rw [← hp1]; exact next_pos_lt hpos
  have hlen : ((T.set pos { nxt with PSL := nxt.PSL - 1 }).set pos1
      { nxt with free := true }).length = T.length := by
    rw [List.length_set, List.length_set]
  have hat := node_at_shift hpos { nxt with PSL := nxt.PSL - 1 } { nxt with free := true }
  rw [hp1] at hat
  have hocc1 : (node_at T pos1).free = false := by rw [hnx]; exact hocc
  obtain ⟨hx, kx, hxit, hxL, hxk, hxpsl, hxpos⟩ := inv.slot pos1 hpos1 hocc1
  rw [hnx] at hxit hxpsl hxpos
  have hhc := inv.hole_chain
  rw [hp1, hnx] at hhc
  constructor
  · intro p hp hf
    rw [hlen] at hp ⊢
    rw [hat] at hf ⊢
    by_cases h1 : p = pos1
    · simp [h1] at hf
    · simp only [h1, if_false] at hf ⊢
      by_cases h2 : p = pos
      · simp only [h2, if_true] at hf ⊢
        refine ⟨hx, kx, hxit, hxL, hxk, ?_, ?_⟩
        · show nxt.PSL - 1 < T.length
          omega
        · show (hash kx % T.length + (nxt.PSL - 1)) % T.length = pos
          apply next_pos_inj (Nat.mod_lt _ hn) hpos
          rw [next_pos_mod hn, hp1, ← hxpos]
          congr 1
          omega
      · simp only [h2, if_false] at hf ⊢
        exact inv.slot p hp hf
  · intro p hp hpne hf h1
    rw [hlen] at hp hf h1 ⊢
    simp only [hat] at hf h1 ⊢
    have hq1 : next_pos T.length p ≠ pos1 := by
      intro e
      simp [e] at hf
    have hp2 : p ≠ pos := by
      intro e
      exact hq1 (by rw [e, hp1])
    simp only [hq1, hpne, hp2, if_false] at hf h1 ⊢
    by_cases hq : next_pos T.length p = pos
    · simp only [hq, if_true] at hf h1 ⊢
      have h2 : 2 ≤ nxt.PSL := by
        have : 1 ≤ nxt.PSL - 1 := h1
        omega
      have hh := hhc hocc h2 p hp hq
      refine ⟨hh.1, ?_⟩
      show nxt.PSL - 1 ≤ (node_at T p).PSL + 1
      have := hh.2
      omega
    · simp only [hq, if_false] at hf h1 ⊢
      exact inv.chain p hp hp2 hf h1
  · intro h hL
    rw [hlen]
    obtain ⟨p, hp, hf, hit⟩ := inv.cover h hL
    have hp2 : p ≠ pos := by
      intro e; rw [e, inv.hole] at hf; exact absurd hf (by simp)
    by_cases h1 : p = pos1
    · refine ⟨pos, hpos, ?_, ?_⟩
      · rw [hat]; simp only [Ne.symm hne, if_false, if_true]
        exact hocc
      · rw [hat]; simp only [Ne.symm hne, if_false, if_true]
        rw [h1, hnx] at hit; exact hit
    · refine ⟨p, hp, ?_, ?_⟩
      · rw [hat]; simp only [h1, hp2, if_false]; exact hf
      · rw [hat]; simp only [h1, hp2, if_false]; exact hit
  · intro p q hp hq hfp hfq hpq
    rw [hlen] at hp hq
    simp only [hat] at hfp hfq hpq
    have hp1n : p ≠ pos1 := by
      intro e; simp [e] at hfp
    have hq1n : q ≠ pos1 := by
      intro e; simp [e] at hfq
    simp only [hp1n, hq1n, if_false] at hfp hfq hpq
    by_cases h1 : p = pos <;> by_cases h2 : q = pos
    · rw [h1, h2]
    · simp only [h1, h2, if_true, if_false] at hfp hfq hpq
      have hq2 : (node_at T q).it = (node_at T pos1).it := by rw [hnx]; exact hpq.symm
      exact absurd (inv.inj q pos1 hq hpos1 hfq hocc1 hq2) hq1n
    · simp only [h1, h2, if_true, if_false] at hfp hfq hpq
      have hp2 : (node_at T p).it = (node_at T pos1).it := by rw [hnx]; exact hpq
      exact absurd (inv.inj p pos1 hp hpos1 hfp hocc1 hp2) hp1n
    · simp only [h1, h2, if_false] at hfp hfq hpq
      exact inv.inj p q hp hq hfp hfq hpq
  · exact inv.nodup
  · exact inv.keys_inj
  · rw [hlen]; exact hpos1
  · rw [hat]; simp
  · rw [hlen]
    intro hf h2 pp hpp hppe
    have hppos : pp = pos := next_pos_inj hpp hpos (by rw [hppe, hp1])
    subst hppos
    simp only [hat] at hf h2 ⊢
    have hr1 : next_pos T.length pos1 ≠ pos1 := by
      intro e
      simp [e] at hf
    simp only [hr1, Ne.symm hne, if_false, if_true] at hf h2 ⊢
    refine ⟨hocc, ?_⟩
    by_cases hr : next_pos T.length pos1 = pp
    · simp only [hr, if_true] at hf h2 ⊢
      show nxt.PSL - 1 ≤ nxt.PSL - 1 + 2
      omega
    · simp only [hr, if_false] at hf h2 ⊢
      have hch := (inv.chain pos1 hpos1 hne hf (by omega)).2
      rw [hnx] at hch
      show (node_at T (next_pos T.length pos1)).PSL ≤ nxt.PSL - 1 + 2
      omega

theorem erase_loop_spec {kf : Nat → Option K} {hash : K → Nat} {L : List Nat} :
    ∀ (j : Nat) (T : List Node) (pos fuel : Nat),
      Shifting kf hash T L pos →
      (node_at T ((pos + (j + 1)) % T.length)).free = true →
      j + 1 < T.length → j < fuel →
      ∃ T1, erase_loop fuel T pos = .ok T1 ∧ T1.length = T.length ∧
        TableOK kf hash T1 L := by
  intro j
  induction j with
  | zero =>
    intro T pos fuel inv hfree hjn hfuel
    obtain ⟨f, rfl⟩ : ∃ f, fuel = f + 1 := ⟨fuel - 1, by omega⟩
    have hnp : next_pos T.length pos = (pos + (0 + 1)) % T.length := by
      have := next_pos_add_mod T.length pos 0
      rw [Nat.add_zero, Nat.mod_eq_of_lt (next_pos_lt inv.pos_lt)] at this
      exact this
    unfold erase_loop
    have hstop : (node_at T (next_pos T.length pos)).PSL = 0 ∨
        (node_at T (next_pos T.length pos)).free = true := Or.inr (by rw [hnp]; exact hfree)
    simp only [hstop, if_true]
    exact ⟨T, rfl, rfl, inv.stop hstop⟩
  | succ j ih =>
    intro T pos fuel inv hfree hjn hfuel
    obtain ⟨f, rfl⟩ : ∃ f, fuel = f + 1 := ⟨fuel - 1, by omega⟩
    have hpos := inv.pos_lt
    unfold erase_loop
    by_cases hstop : (node_at T (next_pos T.length pos)).PSL = 0 ∨
        (node_at T (next_pos T.length pos)).free = true
    · simp only [hstop, if_true]
      exact ⟨T, rfl, rfl, inv.stop hstop⟩
    · simp only [hstop, if_false]
      have hocc : (node_at T (next_pos T.length pos)).free = false := by
        by_contra hx
        exact hstop (Or.inr (by simpa using hx))
      have hpsl : 1 ≤ (node_at T (next_pos T.length pos)).PSL := by
        by_contra hx
        exact hstop (Or.inl (by omega))
      have hne := inv.next_ne hocc
      have hlen1 : (T.set pos { node_at T (next_pos T.length pos) with
          PSL := (node_at T (next_pos T.length pos)).PSL - 1 }).length = T.length :=
        List.length_set _ _ _
      have hsame : node_at (T.set pos { node_at T (next_pos T.length pos) with
          PSL := (node_at T (next_pos T.length pos)).PSL - 1 }) (next_pos T.length pos) =
          node_at T (next_pos T.length pos) := node_at_set_ne _ (Ne.symm hne)
      rw [hsame]
      have inv1 := inv.step rfl rfl hocc hpsl
      have hlen : ((T.set pos { node_at T (next_pos T.length pos) with
          PSL := (node_at T (next_pos T.length pos)).PSL - 1 }).set (next_pos T.length pos)
          { node_at T (next_pos T.length pos) with free := true }).length = T.length := by
        rw [List.length_set, List.length_set]
      have hnp : next_pos T.length pos = (pos + 1) % T.length := by
        have := next_pos_add_mod T.length pos 0
        rw [Nat.add_zero, Nat.mod_eq_of_lt (next_pos_lt hpos)] at this
        exact this
      have hq0 : (pos + (j + 1 + 1)) % T.length ≠ pos := by
        have := offset_ne (n := T.length) (x := pos) (j := 0) (d := j + 1 + 1)
          (by omega) (by omega)
        rw [offset_zero hpos] at this
        exact fun e => this e.symm
      have hq1 : (pos + (j + 1 + 1)) % T.length ≠ next_pos T.length pos := by
        rw [hnp]
        exact fun e => offset_ne (n := T.length) (x := pos) (j := 1) (d := j + 1 + 1)
          (by omega) (by omega) e.symm
      obtain ⟨T1, h1, h2, h3⟩ := ih _ (next_pos T.length pos) f inv1
        (by
          rw [hlen, next_pos_add_mod, node_at_shift hpos]
          simp only [hq0, hq1, if_false]
          exact hfree)
        (by rw [hlen]; omega) (by omega)
      exact ⟨T1, h1, by rw [h2, hlen], h3⟩

theorem TableOK.shifting {kf : Nat → Option K} {hash : K → Nat} {T : List Node}
    {L : List Nat} (ok : TableOK kf hash T L) {p h : Nat} (hp : p < T.length)
    (hf : (node_at T p).free = false) (hit : (node_at T p).it = some h) :
    Shifting kf hash (T.set p { node_at T p with free := true }) (L.erase h) p := by
  have hlen : (T.set p { node_at T p with free := true }).length = T.length :=
    List.length_set _ _ _
  have hat := fun q => node_at_set (T := T) { node_at T p with free := true } hp q
  have hnd := ok.nodup
  constructor
  · intro q hq hfq
    rw [hlen] at hq ⊢
    rw [hat] at hfq ⊢
    by_cases h1 : q = p
    · simp [h1] at hfq
    · simp only [h1, if_false] at hfq ⊢
      obtain ⟨h2, k, hit2, hL, r⟩ := ok.slot q hq hfq
      refine ⟨h2, k, hit2, ?_, r⟩
      apply (List.mem_erase_of_ne ?_).mpr hL
      intro e
      exact h1 (ok.inj q p hq hp hfq hf (by rw [hit2, hit, e]))
  · intro q hq hqp hfq h1
    rw [hlen] at hq hfq h1 ⊢
    simp only [hat] at hfq h1 ⊢
    have hn1 : next_pos T.length q ≠ p := by
      intro e; simp [e] at hfq
    simp only [hn1, hqp, if_false] at hfq h1 ⊢
    exact ok.chain q hq hfq h1
  · intro h2 hL
    rw [hlen]
    have hL2 : h2 ∈ L := List.mem_of_mem_erase hL
    have hne : h2 ≠ h := by
      intro e
      rw [e] at hL
      exact (List.Nodup.not_mem_erase hnd) hL
    obtain ⟨q, hq, hfq, hitq⟩ := ok.cover h2 hL2
    have hqp : q ≠ p := by
      intro e
      rw [e, hit] at hitq
      exact hne (Option.some.inj hitq).symm
    exact ⟨q, hq, by rw [hat, if_neg hqp]; exact hfq, by rw [hat, if_neg hqp]; exact hitq⟩
  · intro q r hq hr hfq hfr hqr
    rw [hlen] at hq hr
    simp only [hat] at hfq hfr hqr
    have h1 : q ≠ p := by
      intro e; simp [e] at hfq
    have h2 : r ≠ p := by
      intro e; simp [e] at hfr
    simp only [h1, h2, if_false] at hfq hfr hqr
    exact ok.inj q r hq hr hfq hfr hqr
  · exact hnd.erase h
  · intro h1 hL1 h2 hL2 e
    exact ok.keys_inj h1 (List.mem_of_mem_erase hL1) h2 (List.mem_of_mem_erase hL2) e
  · rw [hlen]; exact hp
  · rw [hat]; simp
  · rw [hlen]
    intro hfn h2 pp hpp hppe
    simp only [hat] at hfn h2 ⊢
    have hn1 : next_pos T.length p ≠ p := by
      intro e; simp [e] at hfn
    simp only [hn1, if_false] at hfn h2 ⊢
    have hpp1 : pp ≠ p := by
      intro e
      rw [e] at hppe
      exact hn1 hppe
    simp only [hpp1, if_false]
    have c1 := ok.chain p hp hfn (by omega)
    have c2 := ok.chain pp hpp (by rw [hppe]; exact hf) (by rw [hppe]; omega)
    rw [hppe] at c2
    exact ⟨c2.1, by omega⟩

/-- Removal of the record of an occupied slot from a coherent table that has a free
slot. -/
theorem erase_loop_ok {kf : Nat → Option K} {hash : K → Nat} {T : List Node}
    {L : List Nat} (ok : TableOK kf hash T L) (hlt : L.length < T.length) {p h : Nat}
    (hp : p < T.length) (hf : (node_at T p).free = false)
    (hit : (node_at T p).it = some h) :
    ∃ T1, erase_loop T.length (T.set p { node_at T p with free := true }) p = .ok T1 ∧
      T1.length = T.length ∧ TableOK kf hash T1 (L.erase h) := by
  have hlen : (T.set p { node_at T p with free := true }).length = T.length :=
    List.length_set _ _ _
  obtain ⟨q, hq, hfree⟩ := ok.exists_free hlt
  obtain ⟨j, hj, hjq⟩ := exists_offset hp hq
  have hqp : q ≠ p := by
    intro e; rw [e, hf] at hfree; exact absurd hfree (by simp)
  have hj0 : j ≠ 0 := by
    intro e
    rw [e, offset_zero hp] at hjq
    exact hqp hjq.symm
  obtain ⟨i, rfl⟩ : ∃ i, j = i + 1 := ⟨j - 1, by omega⟩
  obtain ⟨T1, h1, h2, h3⟩ := erase_loop_spec i _ p T.length (ok.shifting hp hf hit)
    (by
      rw [hlen, hjq, node_at_set _ hp, if_neg hqp]
      exact hfree)
    (by rw [hlen]; exact hj) (by omega)
  exact ⟨T1, h1, by rw [h2, hlen], h3⟩

end RobinHood


namespace RobinHood

variable {K V : Type}

/-! ## Coherence under changes of the heap -/

theorem TableOK.congr {kf kf1 : Nat → Option K} {hash : K → Nat} {T : List Node}
    {L : List Nat} (ok : TableOK kf hash T L) (hkf : ∀ h, h ∈ L → kf1 h = kf h) :
    TableOK kf1 hash T L := by
  refine ⟨?_, ok.chain, ok.cover, ok.inj, ok.nodup, ?_⟩
  · intro p hp hf
    obtain ⟨h, k, hit, hL, hk, r⟩ := ok.slot p hp hf
    exact ⟨h, k, hit, hL, by rw [hkf h hL]; exact hk, r⟩
  · intro h1 hL1 h2 hL2 e
    rw [hkf h1 hL1, hkf h2 hL2] at e
    exact ok.keys_inj h1 hL1 h2 hL2 e

theorem TableOK.key_some {kf : Nat → Option K} {hash : K → Nat} {T : List Node}
    {L : List Nat} (ok : TableOK kf hash T L) {h : Nat} (hL : h ∈ L) :
    ∃ k, kf h = some k := by
  obtain ⟨p, hp, hf, hit⟩ := ok.cover h hL
  obtain ⟨h1, k, hit1, _, hk, _⟩ := ok.slot p hp hf
  rw [hit] at hit1
  rw [Option.some.inj hit1]
  exact ⟨k, hk⟩

theorem TableOK.live {hp : Heap K V} {hash : K → Nat} {T : List Node} {L : List Nat}
    (ok : TableOK (key_of hp) hash T L) {h : Nat} (hL : h ∈ L) :
    ∃ kv, read hp h = some kv := by
  obtain ⟨k, hk⟩ := ok.key_some hL
  obtain ⟨v, hv⟩ := key_of_some hk
  exact ⟨(k, v), hv⟩

theorem TableOK.lt_length {hp : Heap K V} {hash : K → Nat} {T : List Node} {L : List Nat}
    (ok : TableOK (key_of hp) hash T L) {h : Nat} (hL : h ∈ L) : h < hp.length := by
  obtain ⟨kv, hr⟩ := ok.live hL
  exact read_lt hr

theorem TableOK.all_free {kf : Nat → Option K} {hash : K → Nat} {T : List Node}
    (ok : TableOK kf hash T []) (p : Nat) : (node_at T p).free = true := by
  by_cases hp : p < T.length
  · by_contra hf
    obtain ⟨h, k, _, hL, _⟩ := ok.slot p hp (by simpa using hf)
    exact absurd hL (List.not_mem_nil h)
  · rw [node_at_vacant_of_le (Nat.le_of_not_lt hp)]
    rfl

theorem TableOK.of_all_free (kf : Nat → Option K) (hash : K → Nat) {T : List Node}
    (hfree : ∀ p, (node_at T p).free = true) : TableOK kf hash T [] := by
  refine ⟨?_, ?_, ?_, ?_, List.nodup_nil, ?_⟩
  · intro p _ hf; rw [hfree p] at hf; exact absurd hf (by simp)
  · intro p _ hf; rw [hfree _] at hf; exact absurd hf (by simp)
  · intro h hL; exact absurd hL (List.not_mem_nil h)
  · intro p q _ _ hf; rw [hfree p] at hf; exact absurd hf (by simp)
  · intro h hL; exact absurd hL (List.not_mem_nil h)

/-! ## `erase_key` -/

theorem erase_key_absent [DecidableEq K] {hp : Heap K V} {m : HashMap K V} {key : K}
    (hfind : find_key_pos hp m key = .ok m.table.length) :
    erase_key hp m key = .ok (hp, m) := by
  unfold erase_key
  rw [hfind]
  simp

theorem erase_key_present [DecidableEq K] {hp : Heap K V} {m : HashMap K V} {key : K}
    {h : Nat} (ok : TableOK (key_of hp) m.hash m.table m.hash_pairs)
    (hlt : m.hash_pairs.length < m.table.length) (hL : h ∈ m.hash_pairs)
    (hk : key_of hp h = some key) :
    ∃ T1, erase_key hp m key = .ok (dealloc hp h,
        { m with cnt_elements := m.cnt_elements - 1, table := T1,
                 hash_pairs := m.hash_pairs.erase h }) ∧
      T1.length = m.table.length ∧
      TableOK (key_of (dealloc hp h)) m.hash T1 (m.hash_pairs.erase h) := by
  obtain ⟨p, hp1, hfind, hf, hit⟩ := find_key_pos_present ok hL hk
  obtain ⟨T1, hloop, hlen, ok1⟩ := erase_loop_ok ok hlt hp1 hf hit
  refine ⟨T1, ?_, hlen, ?_⟩
  · unfold erase_key
    rw [hfind]
    have hne : p ≠ m.table.length := by omega
    simp only [hit] at hloop
    simp only [hne, if_false, hit, hL, if_true, List.length_set, hloop]
  · apply ok1.congr
    intro h1 hL1
    have hne : h ≠ h1 := by
      intro e
      rw [← e] at hL1
      exact (List.Nodup.not_mem_erase ok.nodup) hL1
    unfold key_of
    rw [read_dealloc_ne hne]

/-! ## `insert_pair` without growth -/

theorem get_pos_eq {m : HashMap K V} (hn : 0 < m.table.length) (key : K) :
    get_pos m key = m.hash key % m.table.length := by
  unfold get_pos hash_function
  cases hT : m.table with
  | nil => simp [hT] at hn
  | cons a t => simp

theorem key_of_alloc_old {hp : Heap K V} {h : Nat} (kv : K × V) (hlt : h < hp.length) :
    key_of (alloc hp kv).1 h = key_of hp h := by
  unfold key_of
  rw [read_alloc_old kv hlt]

theorem insert_slot_ok {hp : Heap K V} {m : HashMap K V} (kv : K × V)
    (ok : TableOK (key_of hp) m.hash m.table m.hash_pairs)
    (hlt : m.hash_pairs.length < m.table.length)
    (habs : ∀ h, h ∈ m.hash_pairs → key_of hp h ≠ some kv.1) :
    ∃ T1, insert_loop m.table.length m.table (Node.of_it hp.length) (get_pos m kv.1) =
        .ok T1 ∧ T1.length = m.table.length ∧
      TableOK (key_of (alloc hp kv).1) m.hash T1 (hp.length :: m.hash_pairs) := by
  have hn : 0 < m.table.length := by omega
  have ok1 : TableOK (key_of (alloc hp kv).1) m.hash m.table m.hash_pairs :=
    ok.congr (fun h hL => key_of_alloc_old kv (ok.lt_length hL))
  have hnew : hp.length ∉ m.hash_pairs := by
    intro hL
    exact absurd (ok.lt_length hL) (Nat.lt_irrefl _)
  have hk : key_of (alloc hp kv).1 hp.length = some kv.1 := by
    have := read_alloc_new hp kv
    exact key_of_read this
  rw [get_pos_eq hn]
  exact insert_loop_ok ok1 hlt hnew hk
    (fun h hL => by rw [key_of_alloc_old kv (ok.lt_length hL)]; exact habs h hL)

theorem increase_size_keep [DecidableEq K]
    (ins : Heap K V → HashMap K V → K × V → Except Err (Heap K V × HashMap K V))
    (hp : Heap K V) {m : HashMap K V} (hn : 0 < m.table.length)
    (hload : ¬ load_exceeded m.cnt_elements m.table.length) :
    increase_size ins hp m = .ok (hp, m) := by
  have hE : m.table.isEmpty = false := by
    cases hT : m.table with
    | nil => simp [hT] at hn
    | cons a t => rfl
  unfold increase_size
  simp only [hE, Bool.false_eq_true, if_false, hload]

theorem increase_size_first [DecidableEq K]
    (ins : Heap K V → HashMap K V → K × V → Except Err (Heap K V × HashMap K V))
    (hp : Heap K V) {m : HashMap K V} (hn : m.table.length = 0) :
    increase_size ins hp m =
      .ok (hp, { m with table := List.replicate INITIAL_SIZE Node.vacant }) := by
  unfold increase_size
  cases hT : m.table with
  | nil => simp
  | cons a t => simp [hT] at hn

theorem insert_pair_present [DecidableEq K] {hp : Heap K V} {m : HashMap K V}
    {kv : K × V} {h : Nat} (ok : TableOK (key_of hp) m.hash m.table m.hash_pairs)
    (hL : h ∈ m.hash_pairs) (hk : key_of hp h = some kv.1) (d : Nat) :
    insert_pair (d + 1) hp m kv = .ok (hp, m) := by
  obtain ⟨p, hp1, hfind, _, _⟩ := find_key_pos_present ok hL hk
  unfold insert_pair
  rw [hfind]
  simp [hp1]

theorem insert_pair_keep [DecidableEq K] {hp : Heap K V} {m : HashMap K V} (kv : K × V)
    (ok : TableOK (key_of hp) m.hash m.table m.hash_pairs)
    (hlt : m.hash_pairs.length < m.table.length)
    (hload : ¬ load_exceeded (m.cnt_elements + 1) m.table.length)
    (habs : ∀ h, h ∈ m.hash_pairs → key_of hp h ≠ some kv.1) (d : Nat) :
    ∃ T1, insert_pair (d + 1) hp m kv = .ok ((alloc hp kv).1,
        { m with cnt_elements := m.cnt_elements + 1, table := T1,
                 hash_pairs := hp.length :: m.hash_pairs }) ∧
      T1.length = m.table.length ∧
      TableOK (key_of (alloc hp kv).1) m.hash T1 (hp.length :: m.hash_pairs) := by
  have hn : 0 < m.table.length := by omega
  have hfind := find_key_pos_absent ok (Or.inl hlt) habs
  obtain ⟨T1, hloop, hlen, ok1⟩ := insert_slot_ok kv ok hlt habs
  refine ⟨T1, ?_, hlen, ok1⟩
  unfold insert_pair
  rw [hfind]
  simp only [Nat.lt_irrefl, if_false]
  rw [increase_size_keep (insert_pair d) hp (m := { m with cnt_elements := m.cnt_elements + 1 })
    hn hload]
  simp only [insert_and_get_it, alloc]
  have hg : get_pos ({ m with cnt_elements := m.cnt_elements + 1 } : HashMap K V) kv.1 =
      get_pos m kv.1 := rfl
  rw [hg, hloop]

theorem insert_pair_first [DecidableEq K] {hp : Heap K V} {m : HashMap K V} (kv : K × V)
    (hn : m.table.length = 0) (hL : m.hash_pairs = []) (d : Nat) :
    ∃ T1, insert_pair (d + 1) hp m kv = .ok ((alloc hp kv).1,
        { m with cnt_elements := m.cnt_elements + 1, table := T1,
                 hash_pairs := [hp.length] }) ∧
      T1.length = INITIAL_SIZE ∧
      TableOK (key_of (alloc hp kv).1) m.hash T1 [hp.length] := by
  have hT : m.table = [] := List.length_eq_zero.mp hn
  have hfind : find_key_pos hp m kv.1 = .ok 0 := by
    unfold find_key_pos
    simp [hT]
  have ok0 : TableOK (key_of hp)
      ({ m with cnt_elements := m.cnt_elements + 1,
                table := List.replicate INITIAL_SIZE Node.vacant } : HashMap K V).hash
      ({ m with cnt_elements := m.cnt_elements + 1,
                table := List.replicate INITIAL_SIZE Node.vacant } : HashMap K V).table
      ({ m with cnt_elements := m.cnt_elements + 1,
                table := List.replicate INITIAL_SIZE Node.vacant } : HashMap K V).hash_pairs := by
    show TableOK (key_of hp) m.hash (List.replicate INITIAL_SIZE Node.vacant) m.hash_pairs
    rw [hL]
    apply TableOK.of_all_free
    intro p
    rw [node_at_replicate]
    rfl
  obtain ⟨T1, hloop, hlen, ok1⟩ := insert_slot_ok kv ok0
    (by show m.hash_pairs.length < (List.replicate INITIAL_SIZE Node.vacant).length
        rw [hL]; simp [INITIAL_SIZE])
    (by intro h hh
        have : h ∈ m.hash_pairs := hh
        rw [hL] at this
        exact absurd this (List.not_mem_nil h))
  refine ⟨T1, ?_, by rw [hlen]; simp, by
    have := ok1
    simp only [hL] at this
    exact this⟩
  unfold insert_pair
  rw [hfind]
  simp only [hn, Nat.lt_irrefl, if_false]
  rw [increase_size_first (insert_pair d) hp (m := { m with cnt_elements := m.cnt_elements + 1 })
    hn]
  simp only [insert_and_get_it, alloc]
  simp only [alloc] at hloop
  rw [hloop]
  simp [hL]

end RobinHood


namespace RobinHood

variable {K V : Type}

/-! ## The sequence of pairs -/

theorem pairs_of_cons {hp : Heap K V} {h : Nat} {kv : K × V} (L : List Nat)
    (hr : read hp h = some kv) : pairs_of hp (h :: L) = kv :: pairs_of hp L := by
  simp [pairs_of, List.filterMap_cons, hr]

theorem pairs_of_congr {hp hp1 : Heap K V} {L : List Nat}
    (hsame : ∀ h, h ∈ L → read hp1 h = read hp h) : pairs_of hp1 L = pairs_of hp L := by
  induction L with
  | nil => rfl
  | cons a L ih =>
    simp only [pairs_of, List.filterMap_cons]
    rw [hsame a (List.mem_cons_self _ _)]
    have := ih (fun h hL => hsame h (List.mem_cons_of_mem _ hL))
    simp only [pairs_of] at this
    rw [this]

theorem iterate_eq {hp : Heap K V} {L : List Nat}
    (hlive : ∀ h, h ∈ L → ∃ kv, read hp h = some kv) :
    iterate hp L = .ok (pairs_of hp L) := by
  induction L with
  | nil => rfl
  | cons a L ih =>
    obtain ⟨kv, hr⟩ := hlive a (List.mem_cons_self _ _)
    unfold iterate
    rw [hr, ih (fun h hL => hlive h (List.mem_cons_of_mem _ hL)), pairs_of_cons L hr]

theorem pairs_of_length {hp : Heap K V} {L : List Nat}
    (hlive : ∀ h, h ∈ L → ∃ kv, read hp h = some kv) :
    (pairs_of hp L).length = L.length := by
  induction L with
  | nil => rfl
  | cons a L ih =>
    obtain ⟨kv, hr⟩ := hlive a (List.mem_cons_self _ _)
    rw [pairs_of_cons L hr, List.length_cons, List.length_cons,
      ih (fun h hL => hlive h (List.mem_cons_of_mem _ hL))]

theorem mem_pairs_iff {hp : Heap K V} {L : List Nat} {kv : K × V} :
    kv ∈ pairs_of hp L ↔ ∃ h, h ∈ L ∧ read hp h = some kv := by
  simp [pairs_of, List.mem_filterMap]

theorem mem_keys_iff {hp : Heap K V} {L : List Nat} {k : K} :
    k ∈ (pairs_of hp L).map Prod.fst ↔ ∃ h, h ∈ L ∧ key_of hp h = some k := by
  constructor
  · intro hk
    obtain ⟨kv, hkv, e⟩ := List.mem_map.mp hk
    obtain ⟨h, hL, hr⟩ := mem_pairs_iff.mp hkv
    exact ⟨h, hL, by rw [key_of_read hr, e]⟩
  · rintro ⟨h, hL, hk⟩
    obtain ⟨v, hv⟩ := key_of_some hk
    exact List.mem_map.mpr ⟨(k, v), mem_pairs_iff.mpr ⟨h, hL, hv⟩, rfl⟩

theorem not_mem_keys_iff {hp : Heap K V} {L : List Nat} {k : K} :
    k ∉ (pairs_of hp L).map Prod.fst ↔ ∀ h, h ∈ L → key_of hp h ≠ some k := by
  rw [mem_keys_iff]
  constructor
  · intro hn h hL e; exact hn ⟨h, hL, e⟩
  · rintro hn ⟨h, hL, e⟩; exact hn h hL e

theorem keys_nodup {hp : Heap K V} {L : List Nat} (hnd : L.Nodup)
    (hinj : ∀ h1, h1 ∈ L → ∀ h2, h2 ∈ L → key_of hp h1 = key_of hp h2 → h1 = h2)
    (hlive : ∀ h, h ∈ L → ∃ kv, read hp h = some kv) :
    ((pairs_of hp L).map Prod.fst).Nodup := by
  induction L with
  | nil => simp [pairs_of]
  | cons a L ih =>
    obtain ⟨kv, hr⟩ := hlive a (List.mem_cons_self _ _)
    rw [pairs_of_cons L hr, List.map_cons, List.nodup_cons]
    refine ⟨?_, ih (List.nodup_cons.mp hnd).2
      (fun h1 hL1 h2 hL2 => hinj h1 (List.mem_cons_of_mem _ hL1) h2 (List.mem_cons_of_mem _ hL2))
      (fun h hL => hlive h (List.mem_cons_of_mem _ hL))⟩
    intro hmem
    obtain ⟨h, hL, hk⟩ := mem_keys_iff.mp hmem
    have := hinj h (List.mem_cons_of_mem _ hL) a (List.mem_cons_self _ _)
      (by rw [hk, key_of_read hr])
    rw [this] at hL
    exact (List.nodup_cons.mp hnd).1 hL

theorem TableOK.nodup_keys {hp : Heap K V} {hash : K → Nat} {T : List Node} {L : List Nat}
    (ok : TableOK (key_of hp) hash T L) : ((pairs_of hp L).map Prod.fst).Nodup :=
  RobinHood.keys_nodup ok.nodup ok.keys_inj (fun _ hL => ok.live hL)

theorem pairs_of_alloc {hp : Heap K V} {L : List Nat} (kv : K × V)
    (hlt : ∀ h, h ∈ L → h < hp.length) :
    pairs_of (alloc hp kv).1 (hp.length :: L) = kv :: pairs_of hp L := by
  rw [pairs_of_cons L (read_alloc_new hp kv)]
  rw [pairs_of_congr (fun h hL => read_alloc_old kv (hlt h hL))]

theorem pairs_of_erase [DecidableEq K] {hp : Heap K V} {L : List Nat} {h : Nat} {key : K}
    (hnd : L.Nodup)
    (hinj : ∀ h1, h1 ∈ L → ∀ h2, h2 ∈ L → key_of hp h1 = key_of hp h2 → h1 = h2)
    (hlive : ∀ x, x ∈ L → ∃ kv, read hp x = some kv)
    (hL : h ∈ L) (hk : key_of hp h = some key) :
    pairs_of (dealloc hp h) (L.erase h) =
      (pairs_of hp L).filter (fun kv => decide (kv.1 ≠ key)) := by
  induction L with
  | nil => exact absurd hL (List.not_mem_nil h)
  | cons a L ih =>
    obtain ⟨kv, hr⟩ := hlive a (List.mem_cons_self _ _)
    have hndL := (List.nodup_cons.mp hnd).2
    have haL := (List.nodup_cons.mp hnd).1
    rw [pairs_of_cons L hr]
    by_cases ha : a = h
    · subst ha
      have hkey : kv.1 = key := by
        have := key_of_read hr
        rw [hk] at this
        exact (Option.some.inj this).symm
      rw [List.erase_cons_head, List.filter_cons_of_neg (by simp [hkey])]
      rw [pairs_of_congr (fun x hx => read_dealloc_ne (fun e => haL (by rw [e]; exact hx)))]
      symm
      apply List.filter_eq_self.mpr
      intro kv1 hkv1
      obtain ⟨x, hx, hrx⟩ := mem_pairs_iff.mp hkv1
      simp only [decide_eq_true_eq]
      intro e
      have := hinj x (List.mem_cons_of_mem _ hx) a (List.mem_cons_self _ _)
        (by rw [key_of_read hrx, e, hk])
      exact haL (this ▸ hx)
    · have hL1 : h ∈ L := by
        rcases List.mem_cons.mp hL with e | e
        · exact absurd e.symm ha
        · exact e
      have hkey : kv.1 ≠ key := by
        intro e
        exact ha (hinj a (List.mem_cons_self _ _) h hL (by rw [key_of_read hr, e, hk]))
      rw [List.erase_cons_tail (by simpa using ha), List.filter_cons_of_pos (by simp [hkey])]
      have hra : read (dealloc hp h) a = some kv := by
        rw [read_dealloc_ne (Ne.symm ha)]; exact hr
      rw [pairs_of_cons _ hra]
      rw [ih hndL
        (fun h1 hL1 h2 hL2 => hinj h1 (List.mem_cons_of_mem _ hL1) h2 (List.mem_cons_of_mem _ hL2))
        (fun x hx => hlive x (List.mem_cons_of_mem _ hx)) hL1]

theorem find?_pairs [DecidableEq K] {hp : Heap K V} {L : List Nat} {h : Nat} {kv : K × V}
    (hinj : ∀ h1, h1 ∈ L → ∀ h2, h2 ∈ L → key_of hp h1 = key_of hp h2 → h1 = h2)
    (hL : h ∈ L) (hr : read hp h = some kv) :
    (pairs_of hp L).find? (fun x => decide (x.1 = kv.1)) = some kv := by
  induction L with
  | nil => exact absurd hL (List.not_mem_nil h)
  | cons a L ih =>
    by_cases ha : a = h
    · subst ha
      rw [pairs_of_cons L hr]
      simp
    · have hL1 : h ∈ L := by
        rcases List.mem_cons.mp hL with e | e
        · exact absurd e.symm ha
        · exact e
      have hrec := ih
        (fun h1 hL1 h2 hL2 => hinj h1 (List.mem_cons_of_mem _ hL1) h2 (List.mem_cons_of_mem _ hL2))
        hL1
      cases hra : read hp a with
      | none =>
        have : pairs_of hp (a :: L) = pairs_of hp L := by
          simp [pairs_of, List.filterMap_cons, hra]
        rw [this]; exact hrec
      | some kva =>
        rw [pairs_of_cons L hra]
        have hkey : kva.1 ≠ kv.1 := by
          intro e
          exact ha (hinj a (List.mem_cons_self _ _) h hL
            (by rw [key_of_read hra, key_of_read hr, e]))
        rw [List.find?_cons_of_neg _ (by simp [hkey])]
        exact hrec

/-! ## Erasing every record -/

theorem erase_all_spec [DecidableEq K] :
    ∀ (L : List Nat) (hp : Heap K V) (m : HashMap K V), m.hash_pairs = L →
      TableOK (key_of hp) m.hash m.table L → L.length < m.table.length →
      ∃ hp1 T1, erase_all hp m (pairs_of hp L) = .ok (hp1,
          { m with cnt_elements := m.cnt_elements - L.length, table := T1,
                   hash_pairs := [] }) ∧
        T1.length = m.table.length ∧ TableOK (key_of hp1) m.hash T1 [] := by
  intro L
  induction L with
  | nil =>
    intro hp m hL ok _
    refine ⟨hp, m.table, ?_, rfl, ok⟩
    simp only [pairs_of, List.filterMap_nil, erase_all, List.length_nil, Nat.sub_zero]
    rw [← hL]
  | cons a L ih =>
    intro hp m hL ok hlt
    obtain ⟨kv, hr⟩ := ok.live (List.mem_cons_self a L)
    have ok0 : TableOK (key_of hp) m.hash m.table m.hash_pairs := by rw [hL]; exact ok
    have hka : key_of hp a = some kv.1 := key_of_read hr
    obtain ⟨T1, he, hlen, ok1⟩ := erase_key_present ok0 (by rw [hL]; exact hlt)
      (by rw [hL]; exact List.mem_cons_self a L) hka
    have herase : m.hash_pairs.erase a = L := by rw [hL, List.erase_cons_head]
    rw [herase] at he ok1
    have haL : a ∉ L := (List.nodup_cons.mp ok.nodup).1
    obtain ⟨hp1, T2, he2, hlen2, ok2⟩ := ih (dealloc hp a)
      { m with cnt_elements := m.cnt_elements - 1, table := T1, hash_pairs := L } rfl ok1
      (by show L.length < T1.length
          rw [hlen]
          simp only [List.length_cons] at hlt
          omega)
    refine ⟨hp1, T2, ?_, by rw [hlen2]; exact hlen, ok2⟩
    rw [pairs_of_cons L hr]
    unfold erase_all
    rw [he]
    simp only
    rw [pairs_of_congr (fun x hx => read_dealloc_ne (fun e => haL (by rw [e]; exact hx)))] at he2
    rw [he2]
    simp only [List.length_cons, Nat.sub_sub, Nat.add_comm 1]

/-! ## Rehashing -/

theorem insert_all_spec [DecidableEq K] (d : Nat) :
    ∀ (kvs : List (K × V)) (hp : Heap K V) (m : HashMap K V),
      TableOK (key_of hp) m.hash m.table m.hash_pairs →
      m.hash_pairs.length + kvs.length < m.table.length →
      5 * (m.cnt_elements + kvs.length) ≤ 4 * m.table.length →
      (kvs.map Prod.fst).Nodup →
      (∀ kv, kv ∈ kvs → ∀ h, h ∈ m.hash_pairs → key_of hp h ≠ some kv.1) →
      ∃ hp1 m1, insert_all (insert_pair (d + 1)) hp m kvs = .ok (hp1, m1) ∧
        TableOK (key_of hp1) m1.hash m1.table m1.hash_pairs ∧ m1.hash = m.hash ∧
        m1.table.length = m.table.length ∧
        m1.cnt_elements = m.cnt_elements + kvs.length ∧
        m1.hash_pairs.length = m.hash_pairs.length + kvs.length ∧
        pairs_of hp1 m1.hash_pairs = kvs.reverse ++ pairs_of hp m.hash_pairs := by
  intro kvs
  induction kvs with
  | nil =>
    intro hp m ok _ _ _ _
    exact ⟨hp, m, rfl, ok, rfl, rfl, rfl, rfl, rfl⟩
  | cons kv kvs ih =>
    intro hp m ok hlt hload hnd habs
    simp only [List.length_cons] at hlt hload
    obtain ⟨T1, hins, hlen, ok1⟩ := insert_pair_keep kv ok (by omega)
      (by unfold load_exceeded; omega)
      (fun h hL => habs kv (List.mem_cons_self _ _) h hL) d
    have hnd1 := List.nodup_cons.mp (by simpa using hnd : (kv.1 :: kvs.map Prod.fst).Nodup)
    obtain ⟨hp1, m1, h1, h2, h3, h4, h5, h6, h7⟩ := ih (alloc hp kv).1
      { m with cnt_elements := m.cnt_elements + 1, table := T1,
               hash_pairs := hp.length :: m.hash_pairs } ok1
      (by simp only [List.length_cons]; rw [hlen]; omega)
      (by show 5 * (m.cnt_elements + 1 + kvs.length) ≤ 4 * T1.length
          rw [hlen]; omega)
      hnd1.2
      (by
        intro kv1 hkv1 h hL
        rcases List.mem_cons.mp hL with e | hL1
        · rw [e, key_of_read (read_alloc_new hp kv)]
          intro e1
          exact hnd1.1 (List.mem_map.mpr ⟨kv1, hkv1, (Option.some.inj e1).symm⟩)
        · rw [key_of_alloc_old kv (ok.lt_length hL1)]
          exact habs kv1 (List.mem_cons_of_mem _ hkv1) h hL1)
    refine ⟨hp1, m1, ?_, h2, h3, by rw [h4]; exact hlen,
      by rw [h5]; simp only [List.length_cons]; omega,
      by rw [h6]; simp only [List.length_cons]; omega, ?_⟩
    · unfold insert_all
      rw [hins]
      exact h1
    · rw [h7]
      simp only
      rw [pairs_of_alloc kv (fun h hL => ok.lt_length hL), List.reverse_cons,
        List.append_assoc]
      rfl

end RobinHood


namespace RobinHood

variable {K V : Type}

/-! ## `insert_pair` with growth -/

theorem node_at_double_free {T : List Node} (hfree : ∀ p, (node_at T p).free = true)
    (p : Nat) : (node_at (T ++ List.replicate T.length Node.vacant) p).free = true := by
  by_cases hp : p < T.length
  · rw [node_at_append_left hp]; exact hfree p
  · rw [node_at_append_replicate (Nat.le_of_not_lt hp)]; rfl

theorem insert_pair_grow [DecidableEq K] {hp : Heap K V} {m : HashMap K V} (kv : K × V)
    (ok : TableOK (key_of hp) m.hash m.table m.hash_pairs)
    (hcount : m.cnt_elements = m.hash_pairs.length)
    (hload0 : 5 * m.cnt_elements ≤ 4 * m.table.length) (hcap : 2 ≤ m.table.length)
    (hgrow : load_exceeded (m.cnt_elements + 1) m.table.length)
    (habs : ∀ h, h ∈ m.hash_pairs → key_of hp h ≠ some kv.1) (d : Nat) :
    ∃ hp1 m1, insert_pair (d + 2) hp m kv = .ok (hp1, m1) ∧
      TableOK (key_of hp1) m1.hash m1.table m1.hash_pairs ∧ m1.hash = m.hash ∧
      m1.table.length = 2 * m.table.length ∧
      m1.cnt_elements = m.cnt_elements + 1 ∧
      m1.hash_pairs.length = m.hash_pairs.length + 1 ∧
      pairs_of hp1 m1.hash_pairs = kv :: (pairs_of hp m.hash_pairs).reverse := by
  have hlt : m.hash_pairs.length < m.table.length := by omega
  have hfind := find_key_pos_absent ok (Or.inl hlt) habs
  have hiter : iterate hp m.hash_pairs = .ok (pairs_of hp m.hash_pairs) :=
    iterate_eq (fun h hL => ok.live hL)
  have hplen : (pairs_of hp m.hash_pairs).length = m.hash_pairs.length :=
    pairs_of_length (fun h hL => ok.live hL)
  obtain ⟨hp1, T1, hera, hlen1, ok1⟩ := erase_all_spec m.hash_pairs hp
    { m with cnt_elements := m.cnt_elements + 1 } rfl ok hlt
  have hlen1a : T1.length = m.table.length := hlen1
  have ok2 : TableOK (key_of hp1) m.hash (T1 ++ List.replicate T1.length Node.vacant) [] :=
    TableOK.of_all_free _ _ (node_at_double_free ok1.all_free)
  obtain ⟨hp2, m3, hall, ok3, hh3, hl3, hc3, hn3, hp3⟩ := insert_all_spec d
    (pairs_of hp m.hash_pairs) hp1
    { table := T1 ++ List.replicate T1.length Node.vacant, hash_pairs := [],
      cnt_elements := m.cnt_elements + 1 - m.hash_pairs.length, hash := m.hash }
    ok2
    (by simp only [List.length_nil, List.length_append, List.length_replicate]
        rw [hplen, hlen1a]; omega)
    (by simp only [List.length_append, List.length_replicate]
        rw [hplen, hlen1a]; omega)
    ok.nodup_keys
    (by intro _ _ h hL; exact absurd hL (List.not_mem_nil h))
  simp only [List.length_nil, List.length_append, List.length_replicate, Nat.zero_add]
    at hl3 hc3 hn3
  rw [hplen] at hc3 hn3
  have hp3a : pairs_of hp2 m3.hash_pairs = (pairs_of hp m.hash_pairs).reverse := by
    rw [hp3]; simp [pairs_of]
  have habs3 : ∀ h, h ∈ m3.hash_pairs → key_of hp2 h ≠ some kv.1 := by
    apply not_mem_keys_iff.mp
    rw [hp3a, List.map_reverse, List.mem_reverse]
    exact not_mem_keys_iff.mpr habs
  obtain ⟨T4, hloop, hlen4, ok4⟩ := insert_slot_ok kv ok3 (by rw [hn3, hl3, hlen1a]; omega) habs3
  refine ⟨(alloc hp2 kv).1, { m3 with table := T4, hash_pairs := hp2.length :: m3.hash_pairs },
    ?_, ok4, hh3, by show T4.length = _; rw [hlen4, hl3, hlen1a]; omega,
    by show m3.cnt_elements = _; rw [hc3]; omega,
    by show (hp2.length :: m3.hash_pairs).length = _; rw [List.length_cons, hn3],
    by show pairs_of (alloc hp2 kv).1 (hp2.length :: m3.hash_pairs) = _
       rw [pairs_of_alloc kv (fun h hL => ok3.lt_length hL), hp3a]⟩
  have hE : m.table.isEmpty = false := by
    cases hT : m.table with
    | nil => simp [hT] at hcap
    | cons a t => rfl
  unfold insert_pair
  rw [hfind]
  simp only [Nat.lt_irrefl, if_false]
  unfold increase_size
  simp only [hE, Bool.false_eq_true, if_false, hgrow, if_true]
  rw [hiter]
  try simp only
  rw [hera]
  try simp only
  rw [hall]
  simp only [insert_and_get_it, alloc]
  rw [hloop]

/-! ## The operations on well-formed maps -/

theorem WF.lt {hp : Heap K V} {m : HashMap K V} (wf : WF hp m)
    (hn : m.table.length ≠ 0) : m.hash_pairs.length < m.table.length := by
  have h1 := wf.count
  have h2 := wf.load
  have h3 := wf.cap
  omega

theorem WF.nil_of_cap {hp : Heap K V} {m : HashMap K V} (wf : WF hp m)
    (hn : m.table.length = 0) : m.hash_pairs = [] := by
  have h1 := wf.count
  have h2 := wf.load
  apply List.length_eq_zero.mp
  omega

theorem WF.init (hp : Heap K V) (hash : K → Nat) : WF hp (HashMap.init hash) := by
  refine ⟨TableOK.of_all_free _ _ ?_, rfl, by simp [HashMap.init], Or.inl rfl⟩
  intro p
  show (node_at [] p).free = true
  rw [node_at_vacant_of_le (by simp)]
  rfl

theorem WF.items {hp : Heap K V} {m : HashMap K V} (wf : WF hp m) :
    items hp m = .ok (pairs_of hp m.hash_pairs) :=
  iterate_eq (fun _ hL => wf.table_ok.live hL)

theorem WF.size_eq {hp : Heap K V} {m : HashMap K V} (wf : WF hp m) :
    size m = (pairs_of hp m.hash_pairs).length := by
  rw [pairs_of_length (fun _ hL => wf.table_ok.live hL)]
  exact wf.count

theorem find_present [DecidableEq K] {hp : Heap K V} {m : HashMap K V} (wf : WF hp m)
    {h : Nat} {key : K} (hL : h ∈ m.hash_pairs) (hk : key_of hp h = some key) :
    find hp m key = .ok (some h) := by
  obtain ⟨p, hp1, hfind, _, hit⟩ := find_key_pos_present wf.table_ok hL hk
  unfold find
  rw [hfind]
  have hne : p ≠ m.table.length := by omega
  simp only [hne, if_false, hit]

theorem WF.find_pos_absent [DecidableEq K] {hp : Heap K V} {m : HashMap K V}
    (wf : WF hp m) {key : K} (habs : ∀ h, h ∈ m.hash_pairs → key_of hp h ≠ some key) :
    find_key_pos hp m key = .ok m.table.length := by
  apply RobinHood.find_key_pos_absent wf.table_ok _ habs
  by_cases hn : m.table.length = 0
  · exact Or.inr hn
  · exact Or.inl (wf.lt hn)

theorem find_absent [DecidableEq K] {hp : Heap K V} {m : HashMap K V} (wf : WF hp m)
    {key : K} (habs : ∀ h, h ∈ m.hash_pairs → key_of hp h ≠ some key) :
    find hp m key = .ok none := by
  unfold find
  rw [wf.find_pos_absent habs]
  simp

theorem find_pair_spec [DecidableEq K] {hp : Heap K V} {m : HashMap K V} (wf : WF hp m)
    (key : K) :
    find_pair hp m key =
      .ok ((pairs_of hp m.hash_pairs).find? (fun kv => decide (kv.1 = key))) := by
  by_cases hmem : key ∈ (pairs_of hp m.hash_pairs).map Prod.fst
  · obtain ⟨h, hL, hk⟩ := mem_keys_iff.mp hmem
    obtain ⟨v, hv⟩ := key_of_some hk
    unfold find_pair
    rw [find_present wf hL hk]
    simp only [hv]
    have := find?_pairs wf.table_ok.keys_inj hL hv
    simp only at this
    rw [this]
  · have habs := not_mem_keys_iff.mp hmem
    unfold find_pair
    rw [find_absent wf habs]
    try simp only
    symm
    congr 1
    apply List.find?_eq_none.mpr
    intro kv hkv
    simp only [decide_eq_true_eq]
    intro e
    exact hmem (List.mem_map.mpr ⟨kv, hkv, e⟩)

theorem insert_spec [DecidableEq K] {hp : Heap K V} {m : HashMap K V} (wf : WF hp m)
    (kv : K × V) :
    ∃ hp1 m1, insert hp m kv = .ok (hp1, m1) ∧ WF hp1 m1 ∧ m1.hash = m.hash ∧
      (kv.1 ∈ (pairs_of hp m.hash_pairs).map Prod.fst → hp1 = hp ∧ m1 = m) ∧
      (kv.1 ∉ (pairs_of hp m.hash_pairs).map Prod.fst →
        m1.cnt_elements = m.cnt_elements + 1 ∧
        pairs_of hp1 m1.hash_pairs =
          kv :: (if grows m then (pairs_of hp m.hash_pairs).reverse
                 else pairs_of hp m.hash_pairs) ∧
        m1.table.length =
          if m.table.length = 0 then INITIAL_SIZE
          else if grows m then 2 * m.table.length else m.table.length) := by
  have hcount := wf.count
  have hload := wf.load
  have hcap := wf.cap
  by_cases hmem : kv.1 ∈ (pairs_of hp m.hash_pairs).map Prod.fst
  · obtain ⟨h, hL, hk⟩ := mem_keys_iff.mp hmem
    exact ⟨hp, m, insert_pair_present wf.table_ok hL hk 1, wf, rfl, fun _ => ⟨rfl, rfl⟩,
      fun hn => absurd hmem hn⟩
  · have habs := not_mem_keys_iff.mp hmem
    by_cases hn : m.table.length = 0
    · have hL := wf.nil_of_cap hn
      obtain ⟨T1, hins, hlen, ok1⟩ := @insert_pair_first K V _ hp m kv hn hL 1
      have hng : ¬ grows m := fun hg => hg.1 hn
      refine ⟨_, _, hins, ⟨ok1, ?_, ?_, ?_⟩, rfl, fun hx => absurd hx hmem, fun _ => ⟨rfl, ?_, ?_⟩⟩
      · show m.cnt_elements + 1 = [hp.length].length
        rw [hcount, hL]; rfl
      · show 5 * (m.cnt_elements + 1) ≤ 4 * T1.length
        rw [hlen]; simp only [INITIAL_SIZE]; omega
      · right; show 2 ≤ T1.length; rw [hlen]; exact Nat.le_refl 2
      · show pairs_of (alloc hp kv).1 [hp.length] = _
        rw [if_neg hng, hL, pairs_of_alloc kv (fun h hx => absurd hx (List.not_mem_nil h))]
      · show T1.length = _
        rw [if_pos hn]; exact hlen
    · have hlt := wf.lt hn
      by_cases hg : load_exceeded (m.cnt_elements + 1) m.table.length
      · have hgr : grows m := ⟨hn, hg⟩
        obtain ⟨hp1, m1, hins, ok1, hh, hl, hc, hnl, hpairs⟩ := insert_pair_grow kv
          wf.table_ok hcount hload (by omega) hg habs 0
        refine ⟨hp1, m1, hins, ⟨ok1, by rw [hc, hnl, hcount], ?_, ?_⟩, hh,
          fun hx => absurd hx hmem, fun _ => ⟨hc, ?_, ?_⟩⟩
        · rw [hc, hl]; omega
        · right; rw [hl]; omega
        · rw [if_pos hgr]; exact hpairs
        · rw [if_neg hn, if_pos hgr]; exact hl
      · have hgr : ¬ grows m := fun hx => hg hx.2
        obtain ⟨T1, hins, hlen, ok1⟩ := insert_pair_keep kv wf.table_ok hlt hg habs 1
        refine ⟨_, _, hins, ⟨ok1, ?_, ?_, ?_⟩, rfl, fun hx => absurd hx hmem,
          fun _ => ⟨rfl, ?_, ?_⟩⟩
        · show m.cnt_elements + 1 = (hp.length :: m.hash_pairs).length
          rw [List.length_cons, hcount]
        · show 5 * (m.cnt_elements + 1) ≤ 4 * T1.length
          rw [hlen]
          unfold load_exceeded at hg
          omega
        · right; show 2 ≤ T1.length; rw [hlen]; omega
        · show pairs_of (alloc hp kv).1 (hp.length :: m.hash_pairs) = _
          rw [if_neg hgr, pairs_of_alloc kv (fun h hx => wf.table_ok.lt_length hx)]
        · show T1.length = _
          rw [if_neg hn, if_neg hgr]; exact hlen

theorem erase_spec [DecidableEq K] {hp : Heap K V} {m : HashMap K V} (wf : WF hp m)
    (key : K) :
    ∃ hp1 m1, erase hp m key = .ok (hp1, m1) ∧ WF hp1 m1 ∧ m1.hash = m.hash ∧
      m1.table.length = m.table.length ∧
      pairs_of hp1 m1.hash_pairs =
        (pairs_of hp m.hash_pairs).filter (fun kv => decide (kv.1 ≠ key)) ∧
      (key ∉ (pairs_of hp m.hash_pairs).map Prod.fst → hp1 = hp ∧ m1 = m) ∧
      (key ∈ (pairs_of hp m.hash_pairs).map Prod.fst →
        m1.cnt_elements + 1 = m.cnt_elements) := by
  have hcount := wf.count
  have hload := wf.load
  have hcap := wf.cap
  by_cases hmem : key ∈ (pairs_of hp m.hash_pairs).map Prod.fst
  · obtain ⟨h, hL, hk⟩ := mem_keys_iff.mp hmem
    have hn : m.table.length ≠ 0 := by
      intro e
      rw [wf.nil_of_cap e] at hL
      exact absurd hL (List.not_mem_nil h)
    obtain ⟨T1, he, hlen, ok1⟩ := erase_key_present wf.table_ok (wf.lt hn) hL hk
    have hlen_erase : (m.hash_pairs.erase h).length = m.hash_pairs.length - 1 :=
      List.length_erase_of_mem hL
    have hpos : 0 < m.hash_pairs.length := List.length_pos_of_mem hL
    refine ⟨_, _, he, ⟨ok1, ?_, ?_, ?_⟩, rfl, hlen, ?_, fun hx => absurd hmem hx, fun _ => ?_⟩
    · show m.cnt_elements - 1 = (m.hash_pairs.erase h).length
      rw [hlen_erase, hcount]
    · show 5 * (m.cnt_elements - 1) ≤ 4 * T1.length
      rw [hlen]; omega
    · show T1.length = 0 ∨ 2 ≤ T1.length
      rw [hlen]; exact hcap
    · exact pairs_of_erase wf.table_ok.nodup wf.table_ok.keys_inj
        (fun x hx => wf.table_ok.live hx) hL hk
    · show m.cnt_elements - 1 + 1 = m.cnt_elements
      omega
  · have habs := not_mem_keys_iff.mp hmem
    refine ⟨hp, m, erase_key_absent (wf.find_pos_absent habs), wf, rfl, rfl, ?_,
      fun _ => ⟨rfl, rfl⟩, fun hx => absurd hx hmem⟩
    symm
    apply List.filter_eq_self.mpr
    intro kv hkv
    simp only [decide_eq_true_eq]
    intro e
    exact hmem (List.mem_map.mpr ⟨kv, hkv, e⟩)

theorem WF.store {hp : Heap K V} {m : HashMap K V} (wf : WF hp m) (h : Nat) (v : V) :
    WF (store hp h v) m :=
  ⟨wf.table_ok.congr (fun h1 _ => key_of_store hp h h1 v), wf.count, wf.load, wf.cap⟩

theorem clear_spec [DecidableEq K] {hp : Heap K V} {m : HashMap K V} (wf : WF hp m) :
    ∃ hp1 m1, clear hp m = .ok (hp1, m1) ∧ WF hp1 m1 ∧ m1.hash = m.hash ∧
      m1.table.length = m.table.length ∧ m1.cnt_elements = 0 ∧ m1.hash_pairs = [] ∧
      ∀ p, (node_at m1.table p).free = true := by
  have hcount := wf.count
  have hcap := wf.cap
  have hiter : iterate hp m.hash_pairs = .ok (pairs_of hp m.hash_pairs) :=
    iterate_eq (fun h hL => wf.table_ok.live hL)
  by_cases hn : m.table.length = 0
  · have hL := wf.nil_of_cap hn
    have hc : m.cnt_elements = 0 := by rw [hcount, hL]; rfl
    refine ⟨hp, { m with hash_pairs := [] }, ?_, ?_, rfl, rfl, hc, rfl, ?_⟩
    · unfold clear
      rw [hiter, hL]
      simp [pairs_of, erase_all, hL]
    · have := wf
      refine ⟨?_, ?_, wf.load, wf.cap⟩
      · have := wf.table_ok; rw [hL] at this; exact this
      · show m.cnt_elements = 0; exact hc
    · have := wf.table_ok; rw [hL] at this; exact this.all_free
  · obtain ⟨hp1, T1, he, hlen, ok1⟩ := erase_all_spec m.hash_pairs hp m rfl wf.table_ok
      (wf.lt hn)
    refine ⟨hp1, ⟨T1, [], m.cnt_elements - m.hash_pairs.length, m.hash⟩, ?_,
      ⟨ok1, ?_, ?_, ?_⟩, rfl, hlen, ?_, rfl, ok1.all_free⟩
    · unfold clear
      rw [hiter]
      try simp only
      rw [he]
      try simp
    · show m.cnt_elements - m.hash_pairs.length = 0
      omega
    · show 5 * (m.cnt_elements - m.hash_pairs.length) ≤ 4 * T1.length
      omega
    · show T1.length = 0 ∨ 2 ≤ T1.length
      rw [hlen]; exact hcap
    · show m.cnt_elements - m.hash_pairs.length = 0
      omega

theorem index_spec [DecidableEq K] [Inhabited V] {hp : Heap K V} {m : HashMap K V}
    (wf : WF hp m) (key : K) :
    ∃ hp1 m1 h, index hp m key = .ok (hp1, m1, h) ∧
      insert hp m (key, default) = .ok (hp1, m1) ∧ WF hp1 m1 ∧ h ∈ m1.hash_pairs ∧
      key_of hp1 h = some key := by
  by_cases hmem : key ∈ (pairs_of hp m.hash_pairs).map Prod.fst
  · obtain ⟨h, hL, hk⟩ := mem_keys_iff.mp hmem
    obtain ⟨v, hv⟩ := key_of_some hk
    obtain ⟨p, hp1, hfind, _, hit⟩ := find_key_pos_present wf.table_ok hL hk
    refine ⟨hp, m, h, ?_, insert_pair_present wf.table_ok hL hk 1, wf, hL, hk⟩
    unfold index
    rw [hfind]
    simp only [hp1, if_true, hit, hv]
  · have habs := not_mem_keys_iff.mp hmem
    obtain ⟨hp1, m1, hins, wf1, hh, _, hnew⟩ := insert_spec wf (key, (default : V))
    obtain ⟨hc, hpairs, _⟩ := hnew hmem
    have hmem1 : key ∈ (pairs_of hp1 m1.hash_pairs).map Prod.fst := by
      rw [hpairs]; simp
    obtain ⟨h, hL, hk⟩ := mem_keys_iff.mp hmem1
    obtain ⟨v, hv⟩ := key_of_some hk
    obtain ⟨p, hp2, hfind1, _, hit⟩ := find_key_pos_present wf1.table_ok hL hk
    refine ⟨hp1, m1, h, ?_, hins, wf1, hL, hk⟩
    unfold index
    rw [wf.find_pos_absent habs]
    simp only [Nat.lt_irrefl, if_false]
    have hins2 : insert_pair 2 hp m (key, default) = .ok (hp1, m1) := hins
    rw [hins2]
    try simp only
    rw [hfind1]
    simp only [hit, hv]

/-- Every reachable state satisfies the representation invariant. -/
theorem Reachable.wf [DecidableEq K] [Inhabited V] {hp : Heap K V} {m : HashMap K V}
    (r : Reachable hp m) : WF hp m := by
  induction r with
  | init hp hash => exact WF.init hp hash
  | insert kv _ hins ih =>
    obtain ⟨hp1, m1, h1, wf1, _⟩ := insert_spec ih kv
    rw [h1] at hins
    cases hins
    exact wf1
  | erase key _ hers ih =>
    obtain ⟨hp1, m1, h1, wf1, _⟩ := erase_spec ih key
    rw [h1] at hers
    cases hers
    exact wf1
  | index key h _ hidx ih =>
    obtain ⟨hp1, m1, h1, hi, _, wf1, _⟩ := index_spec ih key
    rw [hi] at hidx
    cases hidx
    exact wf1
  | store h v _ _ ih => exact ih.store h v
  | clear _ hclr ih =>
    obtain ⟨hp1, m1, h1, wf1, _⟩ := clear_spec ih
    rw [h1] at hclr
    cases hclr
    exact wf1

end RobinHood


namespace RobinHood

variable {K V : Type}

/-! ## Lookup in terms of the sequence of pairs -/

theorem WF.find_mem [DecidableEq K] {hp : Heap K V} {m : HashMap K V} (wf : WF hp m)
    {key : K} (hmem : key ∈ (pairs_of hp m.hash_pairs).map Prod.fst) :
    ∃ h v, h ∈ m.hash_pairs ∧ read hp h = some (key, v) ∧ find hp m key = .ok (some h) ∧
      find_pair hp m key = .ok (some (key, v)) := by
  obtain ⟨h, hL, hk⟩ := mem_keys_iff.mp hmem
  obtain ⟨v, hv⟩ := key_of_some hk
  refine ⟨h, v, hL, hv, find_present wf hL hk, ?_⟩
  unfold find_pair
  rw [find_present wf hL hk]
  simp only [hv]

theorem WF.find_not_mem [DecidableEq K] {hp : Heap K V} {m : HashMap K V} (wf : WF hp m)
    {key : K} (hmem : key ∉ (pairs_of hp m.hash_pairs).map Prod.fst) :
    find hp m key = .ok none ∧ find_pair hp m key = .ok none := by
  have h := find_absent wf (not_mem_keys_iff.mp hmem)
  refine ⟨h, ?_⟩
  unfold find_pair
  rw [h]

theorem WF.mem_of_find [DecidableEq K] {hp : Heap K V} {m : HashMap K V} (wf : WF hp m)
    {key : K} {h : Nat} (hf : find hp m key = .ok (some h)) :
    key ∈ (pairs_of hp m.hash_pairs).map Prod.fst := by
  by_contra hmem
  rw [(wf.find_not_mem hmem).1] at hf
  cases hf

theorem WF.not_mem_of_find [DecidableEq K] {hp : Heap K V} {m : HashMap K V}
    (wf : WF hp m) {key : K} (hf : find hp m key = .ok none) :
    key ∉ (pairs_of hp m.hash_pairs).map Prod.fst := by
  intro hmem
  obtain ⟨h, v, _, _, hfind, _⟩ := wf.find_mem hmem
  rw [hfind] at hf
  cases hf

theorem WF.not_mem_of_find_pair [DecidableEq K] {hp : Heap K V} {m : HashMap K V}
    (wf : WF hp m) {key : K} (hf : find_pair hp m key = .ok none) :
    key ∉ (pairs_of hp m.hash_pairs).map Prod.fst := by
  intro hmem
  obtain ⟨h, v, _, _, _, hfind⟩ := wf.find_mem hmem
  rw [hfind] at hf
  cases hf

theorem WF.mem_of_find_pair [DecidableEq K] {hp : Heap K V} {m : HashMap K V}
    (wf : WF hp m) {key : K} {kv : K × V} (hf : find_pair hp m key = .ok (some kv)) :
    key ∈ (pairs_of hp m.hash_pairs).map Prod.fst := by
  by_contra hmem
  rw [(wf.find_not_mem hmem).2] at hf
  cases hf

theorem at_present [DecidableEq K] {hp : Heap K V} {m : HashMap K V} (wf : WF hp m)
    {h : Nat} {key : K} {v : V} (hL : h ∈ m.hash_pairs) (hr : read hp h = some (key, v)) :
    at_ hp m key = .ok v := by
  obtain ⟨p, hp1, hfind, _, hit⟩ := find_key_pos_present wf.table_ok hL (key_of_read hr)
  unfold at_
  rw [hfind]
  have hne : p ≠ m.table.length := by omega
  simp only [hne, if_false, hit, deref, hr]

theorem at_absent [DecidableEq K] {hp : Heap K V} {m : HashMap K V} (wf : WF hp m)
    {key : K} (hmem : key ∉ (pairs_of hp m.hash_pairs).map Prod.fst) :
    at_ hp m key = .error .out_of_range := by
  unfold at_
  rw [wf.find_pos_absent (not_mem_keys_iff.mp hmem)]
  simp

theorem scenario_reachable : Reachable scenario_heap scenario_map := by
  have h1 : Reachable ([some (1, "a")] : Heap Nat String)
      ⟨[Node.vacant, ⟨false, 0, some 0⟩], [0], 1, id⟩ :=
    Reachable.insert (1, "a") (Reachable.init [] id) rfl
  exact Reachable.insert (2, "b") h1 rfl

/-! ## Insertion -/

/-- Maps never assigned to: in every reachable state `insert((k, v))` returns; if `find(k)` was the end
sentinel before, `find(k)` yields `(k, v)` afterwards; if `find(k)` yielded `(k, w)`
before, it still yields `(k, w)` and `size()` is unchanged. One of the two cases always
applies. -/
theorem insert_then_find [DecidableEq K] [Inhabited V] {hp : Heap K V} {m : HashMap K V}
    (r : Reachable hp m) (k : K) (v : V) :
    ∃ hp1 m1, insert hp m (k, v) = .ok (hp1, m1) ∧
      (find hp m k = .ok none → find_pair hp1 m1 k = .ok (some (k, v))) ∧
      (∀ w, find_pair hp m k = .ok (some (k, w)) →
        find_pair hp1 m1 k = .ok (some (k, w)) ∧ size m1 = size m) ∧
      (find hp m k = .ok none ∨ ∃ w, find_pair hp m k = .ok (some (k, w))) := by
  have wf := r.wf
  obtain ⟨hp1, m1, hins, wf1, _, hpres, hnew⟩ := insert_spec wf (k, v)
  refine ⟨hp1, m1, hins, ?_, ?_, ?_⟩
  · intro hf
    have hmem := wf.not_mem_of_find hf
    obtain ⟨_, hpairs, _⟩ := hnew hmem
    rw [find_pair_spec wf1, hpairs]
    simp
  · intro w hf
    have hmem := wf.mem_of_find_pair hf
    obtain ⟨e1, e2⟩ := hpres hmem
    rw [e1, e2]
    exact ⟨hf, rfl⟩
  · by_cases hmem : k ∈ (pairs_of hp m.hash_pairs).map Prod.fst
    · obtain ⟨h, w, _, _, _, hfp⟩ := wf.find_mem hmem
      exact Or.inr ⟨w, hfp⟩
    · exact Or.inl (wf.find_not_mem hmem).1

/-- The insertion scenario of the specification: after `insert(1,"a")`, `insert(2,"b")` the call
`insert(1,"z")` changes nothing, `size() == 2`, `at(1) == "a"` and `at(2) == "b"`. -/
theorem insert_then_find_scenario :
    Reachable scenario_heap scenario_map ∧
    (∃ hp1 m1, insert scenario_heap scenario_map (1, "z") = .ok (hp1, m1) ∧
      (find scenario_heap scenario_map 1 = .ok none →
        find_pair hp1 m1 1 = .ok (some (1, "z"))) ∧
      (∀ w, find_pair scenario_heap scenario_map 1 = .ok (some (1, w)) →
        find_pair hp1 m1 1 = .ok (some (1, w)) ∧ size m1 = size scenario_map) ∧
      (find scenario_heap scenario_map 1 = .ok none ∨
        ∃ w, find_pair scenario_heap scenario_map 1 = .ok (some (1, w)))) ∧
    (∃ hp1 m1, insert scenario_heap scenario_map (1, "z") = .ok (hp1, m1) ∧
      size m1 = 2 ∧ at_ hp1 m1 1 = .ok "a" ∧ at_ hp1 m1 2 = .ok "b") :=
  ⟨scenario_reachable, insert_then_find scenario_reachable 1 "z",
    ⟨scenario_heap, scenario_map, rfl, rfl, rfl, rfl⟩⟩

/-! ## Erasure -/

/-- Maps never assigned to: in every reachable state `erase(k)` returns; if `find(k)` designated a record,
`size()` decreases by exactly one and `find(k)` is the end sentinel afterwards; if
`find(k)` was the end sentinel, the heap and the map are unchanged, hence so are
`size()`, the iteration sequence and the result of `find` for every key. -/
theorem erase_then_find [DecidableEq K] [Inhabited V] {hp : Heap K V} {m : HashMap K V}
    (r : Reachable hp m) (k : K) :
    ∃ hp1 m1, erase hp m k = .ok (hp1, m1) ∧
      ((∃ h, find hp m k = .ok (some h)) →
        size m1 + 1 = size m ∧ find hp1 m1 k = .ok none) ∧
      (find hp m k = .ok none →
        size m1 = size m ∧ items hp1 m1 = items hp m ∧
        (∀ k1, find hp1 m1 k1 = find hp m k1) ∧
        (∀ k1, find_pair hp1 m1 k1 = find_pair hp m k1)) ∧
      ((∃ h, find hp m k = .ok (some h)) ∨ find hp m k = .ok none) := by
  have wf := r.wf
  obtain ⟨hp1, m1, hers, wf1, _, _, hpairs, habs, hpres⟩ := erase_spec wf k
  refine ⟨hp1, m1, hers, ?_, ?_, ?_⟩
  · rintro ⟨h, hf⟩
    have hmem := wf.mem_of_find hf
    refine ⟨hpres hmem, ?_⟩
    apply (wf1.find_not_mem _).1
    rw [hpairs]
    intro hx
    obtain ⟨kv, hkv, e⟩ := List.mem_map.mp hx
    have := (List.mem_filter.mp hkv).2
    simp only [decide_eq_true_eq] at this
    exact this e
  · intro hf
    obtain ⟨e1, e2⟩ := habs (wf.not_mem_of_find hf)
    rw [e1, e2]
    exact ⟨rfl, rfl, fun _ => rfl, fun _ => rfl⟩
  · by_cases hmem : k ∈ (pairs_of hp m.hash_pairs).map Prod.fst
    · obtain ⟨h, w, _, _, hf, _⟩ := wf.find_mem hmem
      exact Or.inl ⟨h, hf⟩
    · exact Or.inr (wf.find_not_mem hmem).1

/-- The erasure scenario of the specification: after `insert(1,"a")`, `insert(2,"b")` the
call `erase(2)` leaves `size() == 1`, `find(2) == end()` and `at(1) == "a"`. -/
theorem erase_then_find_scenario :
    Reachable scenario_heap scenario_map ∧
    (∃ hp1 m1, erase scenario_heap scenario_map 2 = .ok (hp1, m1) ∧
      ((∃ h, find scenario_heap scenario_map 2 = .ok (some h)) →
        size m1 + 1 = size scenario_map ∧ find hp1 m1 2 = .ok none) ∧
      (find scenario_heap scenario_map 2 = .ok none →
        size m1 = size scenario_map ∧ items hp1 m1 = items scenario_heap scenario_map ∧
        (∀ k1, find hp1 m1 k1 = find scenario_heap scenario_map k1) ∧
        (∀ k1, find_pair hp1 m1 k1 = find_pair scenario_heap scenario_map k1)) ∧
      ((∃ h, find scenario_heap scenario_map 2 = .ok (some h)) ∨
        find scenario_heap scenario_map 2 = .ok none)) ∧
    find scenario_heap scenario_map 2 = .ok (some 2) ∧
    (∃ hp1 m1, erase scenario_heap scenario_map 2 = .ok (hp1, m1) ∧
      size m1 = 1 ∧ find hp1 m1 2 = .ok none ∧ at_ hp1 m1 1 = .ok "a") :=
  ⟨scenario_reachable, erase_then_find scenario_reachable 2, rfl,
    ⟨[none, some (1, "a"), none],
      ⟨[Node.vacant, ⟨false, 0, some 1⟩, ⟨true, 0, some 2⟩, Node.vacant], [1], 1, id⟩,
      rfl, rfl, rfl, rfl⟩⟩

end RobinHood


namespace RobinHood

variable {K V : Type}

/-! ## Access with `at` and the error taxonomy -/

theorem copy_list_no_throw :
    ∀ (L : List Nat) (hp : Heap K V), copy_list hp L ≠ .error .out_of_range := by
  intro L
  induction L with
  | nil => intro hp h; cases h
  | cons a L ih =>
    intro hp
    unfold copy_list
    cases hr : read hp a with
    | none => simp
    | some kv =>
      simp only
      cases hc : copy_list (alloc hp kv).1 L with
      | error e =>
        simp only
        intro h
        apply ih (alloc hp kv).1
        rw [hc]
        exact h
      | ok s => simp

theorem assign_no_throw (hp : Heap K V) (self other : HashMap K V) :
    assign hp self other ≠ .error .out_of_range := by
  unfold assign
  cases hc : copy_list hp other.hash_pairs with
  | error e =>
    simp only
    intro h
    have he : e = Err.out_of_range := Except.error.inj h
    apply copy_list_no_throw other.hash_pairs hp
    rw [hc, he]
  | ok s => simp

theorem insert_all_ok [DecidableEq K] :
    ∀ (kvs : List (K × V)) (hp : Heap K V) (m : HashMap K V), WF hp m →
      ∃ hp1 m1, insert_all insert hp m kvs = .ok (hp1, m1) ∧ WF hp1 m1 := by
  intro kvs
  induction kvs with
  | nil => intro hp m wf; exact ⟨hp, m, rfl, wf⟩
  | cons kv kvs ih =>
    intro hp m wf
    obtain ⟨hp1, m1, hins, wf1, _⟩ := insert_spec wf kv
    obtain ⟨hp2, m2, h2, wf2⟩ := ih hp1 m1 wf1
    refine ⟨hp2, m2, ?_, wf2⟩
    unfold insert_all
    rw [hins]
    exact h2

theorem range_loop_ok [DecidableEq K] (first : K × V) :
    ∀ (rest : List (K × V)) (hp : Heap K V) (m : HashMap K V), WF hp m →
      ∃ hp1 m1, range_loop first hp m rest = .ok (hp1, m1) ∧ WF hp1 m1 := by
  intro rest
  induction rest with
  | nil => intro hp m wf; exact ⟨hp, m, rfl, wf⟩
  | cons kv rest ih =>
    intro hp m wf
    obtain ⟨hp1, m1, hins, wf1, _⟩ := insert_spec wf first
    obtain ⟨hp2, m2, h2, wf2⟩ := ih hp1 m1 wf1
    refine ⟨hp2, m2, ?_, wf2⟩
    unfold range_loop
    rw [hins]
    exact h2

theorem of_list_ok [DecidableEq K] (hp : Heap K V) (pairs : List (K × V)) (hash : K → Nat) :
    ∃ hp1 m1, HashMap.of_list hp pairs hash = .ok (hp1, m1) ∧ WF hp1 m1 :=
  insert_all_ok pairs hp (HashMap.init hash) (WF.init hp hash)

theorem of_range_ok [DecidableEq K] (hp : Heap K V) (range : List (K × V))
    (hash : K → Nat) :
    ∃ hp1 m1, HashMap.of_range hp range hash = .ok (hp1, m1) ∧ WF hp1 m1 := by
  cases range with
  | nil => exact ⟨hp, HashMap.init hash, rfl, WF.init hp hash⟩
  | cons first rest =>
    exact range_loop_ok first (first :: rest) hp (HashMap.init hash) (WF.init hp hash)

/-- Maps never assigned to: in every reachable state, `at(k)` throws `std::out_of_range` exactly when
`find(k)` is the end sentinel, and otherwise returns the value of the pair that the
iterator `find(k)` designates; `find(k)` always returns. No other public operation
(`insert`, `erase`, `find`, `operator[]`, `clear`, a traversal, copy assignment from or
to any map, the constructors) ends with that exception. -/
theorem at_throws_iff_find_end [DecidableEq K] [Inhabited V] {hp : Heap K V}
    {m : HashMap K V} (r : Reachable hp m) (k : K) :
    (at_ hp m k = .error .out_of_range ↔ find hp m k = .ok none) ∧
    (∀ h, find hp m k = .ok (some h) →
      ∃ kv, read hp h = some kv ∧ at_ hp m k = .ok kv.2) ∧
    (find hp m k = .ok none ∨ ∃ h, find hp m k = .ok (some h)) ∧
    (∀ kv, insert hp m kv ≠ .error .out_of_range) ∧
    (∀ key, erase hp m key ≠ .error .out_of_range) ∧
    (∀ key, find hp m key ≠ .error .out_of_range) ∧
    (∀ key, index hp m key ≠ .error .out_of_range) ∧
    clear hp m ≠ .error .out_of_range ∧
    items hp m ≠ .error .out_of_range ∧
    (∀ other, assign hp m other ≠ .error .out_of_range ∧
      assign hp other m ≠ .error .out_of_range) ∧
    (∀ (hp0 : Heap K V) pairs hash,
      HashMap.of_list hp0 pairs hash ≠ .error .out_of_range ∧
      HashMap.of_range hp0 pairs hash ≠ .error .out_of_range) := by
  have wf := r.wf
  have hcases : ∀ key, find hp m key = .ok none ∨ ∃ h, find hp m key = .ok (some h) := by
    intro key
    by_cases hmem : key ∈ (pairs_of hp m.hash_pairs).map Prod.fst
    · obtain ⟨h, w, _, _, hf, _⟩ := wf.find_mem hmem
      exact Or.inr ⟨h, hf⟩
    · exact Or.inl (wf.find_not_mem hmem).1
  refine ⟨?_, ?_, hcases k, ?_, ?_, ?_, ?_, ?_, ?_, ?_, ?_⟩
  · constructor
    · intro hat
      by_contra hf
      have hmem : k ∈ (pairs_of hp m.hash_pairs).map Prod.fst := by
        by_contra hmem
        exact hf (wf.find_not_mem hmem).1
      obtain ⟨h, w, hL, hr, _, _⟩ := wf.find_mem hmem
      rw [at_present wf hL hr] at hat
      cases hat
    · intro hf
      exact at_absent wf (wf.not_mem_of_find hf)
  · intro h hf
    obtain ⟨h1, w, hL, hr, hf1, _⟩ := wf.find_mem (wf.mem_of_find hf)
    rw [hf1] at hf
    cases hf
    exact ⟨(k, w), hr, at_present wf hL hr⟩
  · intro kv
    obtain ⟨hp1, m1, h1, _⟩ := insert_spec wf kv
    rw [h1]; simp
  · intro key
    obtain ⟨hp1, m1, h1, _⟩ := erase_spec wf key
    rw [h1]; simp
  · intro key
    rcases hcases key with h1 | ⟨h, h1⟩ <;> rw [h1] <;> simp
  · intro key
    obtain ⟨hp1, m1, h, h1, _⟩ := index_spec wf key
    rw [h1]; simp
  · obtain ⟨hp1, m1, h1, _⟩ := clear_spec wf
    rw [h1]; simp
  · rw [wf.items]; simp
  · intro other
    exact ⟨assign_no_throw hp m other, assign_no_throw hp other m⟩
  · intro hp0 pairs hash
    obtain ⟨hp1, m1, h1, _⟩ := of_list_ok hp0 pairs hash
    obtain ⟨hp2, m2, h2, _⟩ := of_range_ok hp0 pairs hash
    rw [h1, h2]; simp

/-- Access with `at` on the map that never held a record (capacity 0): `at(5)` throws and `find(5)` is
the end sentinel. -/
theorem at_throws_on_new_map :
    at_ ([] : Heap Nat String) (HashMap.init id) 5 = .error .out_of_range ∧
    find ([] : Heap Nat String) (HashMap.init id) 5 = .ok none ∧
    (HashMap.init id : HashMap Nat String).table.length = 0 :=
  ⟨(at_throws_iff_find_end (Reachable.init ([] : Heap Nat String) id) 5).1.mpr rfl, rfl, rfl⟩

/-! ## The element count -/

theorem keys_filter_toFinset [DecidableEq K] (P : List (K × V)) (key : K) :
    ((P.filter (fun kv => decide (kv.1 ≠ key))).map Prod.fst).toFinset =
      (P.map Prod.fst).toFinset.erase key := by
  ext x
  simp only [List.mem_toFinset, List.mem_map, List.mem_filter, decide_eq_true_eq,
    Finset.mem_erase]
  constructor
  · rintro ⟨kv, ⟨hkv, hne⟩, e⟩
    exact ⟨by rw [← e]; exact hne, kv, hkv, e⟩
  · rintro ⟨hne, kv, hkv, e⟩
    exact ⟨kv, ⟨hkv, by rw [e]; exact hne⟩, e⟩

theorem run_keys [DecidableEq K] :
    ∀ (ops : List (Op K V)) (hp : Heap K V) (m : HashMap K V) (S : Finset K), WF hp m →
      ((pairs_of hp m.hash_pairs).map Prod.fst).toFinset = S →
      ∃ hp1 m1, ops.foldl apply_op (.ok (hp, m)) = .ok (hp1, m1) ∧ WF hp1 m1 ∧
        ((pairs_of hp1 m1.hash_pairs).map Prod.fst).toFinset = ops.foldl ref_step S := by
  intro ops
  induction ops with
  | nil => intro hp m S wf hS; exact ⟨hp, m, rfl, wf, hS⟩
  | cons op ops ih =>
    intro hp m S wf hS
    cases op with
    | insert kv =>
      obtain ⟨hp1, m1, hins, wf1, _, hpres, hnew⟩ := insert_spec wf kv
      have hS1 : ((pairs_of hp1 m1.hash_pairs).map Prod.fst).toFinset =
          ref_step S (Op.insert kv : Op K V) := by
        show _ = Insert.insert kv.1 S
        by_cases hmem : kv.1 ∈ (pairs_of hp m.hash_pairs).map Prod.fst
        · obtain ⟨e1, e2⟩ := hpres hmem
          rw [e1, e2, hS]
          rw [Finset.insert_eq_of_mem]
          rw [← hS]; exact List.mem_toFinset.mpr hmem
        · obtain ⟨_, hpairs, _⟩ := hnew hmem
          rw [hpairs, ← hS]
          split_ifs
          · simp [List.toFinset_reverse]
          · simp
      obtain ⟨hp2, m2, h2, wf2, hS2⟩ := ih hp1 m1 _ wf1 hS1
      refine ⟨hp2, m2, ?_, wf2, hS2⟩
      simp only [List.foldl_cons]
      have : apply_op (.ok (hp, m)) (Op.insert kv) = .ok (hp1, m1) := hins
      rw [this]
      exact h2
    | erase key =>
      obtain ⟨hp1, m1, hers, wf1, _, _, hpairs, _, _⟩ := erase_spec wf key
      have hS1 : ((pairs_of hp1 m1.hash_pairs).map Prod.fst).toFinset =
          ref_step S (Op.erase key : Op K V) := by
        show _ = S.erase key
        rw [hpairs, keys_filter_toFinset, hS]
      obtain ⟨hp2, m2, h2, wf2, hS2⟩ := ih hp1 m1 _ wf1 hS1
      refine ⟨hp2, m2, ?_, wf2, hS2⟩
      simp only [List.foldl_cons]
      have : apply_op (.ok (hp, m)) (Op.erase key) = .ok (hp1, m1) := hers
      rw [this]
      exact h2

/-- C4: for every hash function and every finite sequence of `insert` and `erase` calls
on a newly constructed empty map, all calls return and `size()` is the number of keys
inserted and not erased afterwards. -/
theorem size_counts_live_keys [DecidableEq K] (hash : K → Nat) (ops : List (Op K V)) :
    ∃ hp m, run hash ops = .ok (hp, m) ∧ size m = (ref_keys ops).card := by
  obtain ⟨hp, m, hrun, wf, hS⟩ := run_keys ops ([] : Heap K V) (HashMap.init hash) ∅
    (WF.init [] hash) (by simp [HashMap.init, pairs_of])
  refine ⟨hp, m, hrun, ?_⟩
  unfold ref_keys
  rw [← hS, List.toFinset_card_of_nodup wf.table_ok.nodup_keys, List.length_map]
  exact wf.size_eq

/-! ## `operator[]` -/

/-- Maps never assigned to: in every reachable state `operator[](k)` returns. If `find(k)` was the end
sentinel, `size()` has grown by one and `find(k)` yields `(k, ValueType())`; if `find(k)`
designated a record, nothing has changed and the reference designates the value of that
record. In both cases the reference designates the value of the record that `find(k)`
now yields, and after writing `v` through it `find(k)` yields `(k, v)`. -/
theorem index_inserts_default [DecidableEq K] [Inhabited V] {hp : Heap K V}
    {m : HashMap K V} (r : Reachable hp m) (k : K) :
    ∃ hp1 m1 h, index hp m k = .ok (hp1, m1, h) ∧
      (find hp m k = .ok none →
        size m1 = size m + 1 ∧ find_pair hp1 m1 k = .ok (some (k, default))) ∧
      (∀ h0, find hp m k = .ok (some h0) → hp1 = hp ∧ m1 = m ∧ h = h0) ∧
      find hp1 m1 k = .ok (some h) ∧
      (∀ v, find hp1 m1 k = find (store hp1 h v) m1 k ∧
        find_pair (store hp1 h v) m1 k = .ok (some (k, v))) ∧
      (find hp m k = .ok none ∨ ∃ h0, find hp m k = .ok (some h0)) := by
  have wf := r.wf
  obtain ⟨hp1, m1, h, hidx, hins, wf1, hL, hk⟩ := index_spec wf k
  obtain ⟨hp2, m2, hins2, _, _, hpres, hnew⟩ := insert_spec wf (k, (default : V))
  rw [hins] at hins2
  cases hins2
  have hfind1 := find_present wf1 hL hk
  refine ⟨hp1, m1, h, hidx, ?_, ?_, hfind1, ?_, ?_⟩
  · intro hf
    obtain ⟨hc, hpairs, _⟩ := hnew (wf.not_mem_of_find hf)
    refine ⟨hc, ?_⟩
    rw [find_pair_spec wf1, hpairs]
    simp
  · intro h0 hf
    obtain ⟨e1, e2⟩ := hpres (wf.mem_of_find hf)
    subst e1
    subst e2
    rw [hfind1] at hf
    cases hf
    exact ⟨rfl, rfl, rfl⟩
  · intro v
    have wf2 := wf1.store h v
    have hk2 : key_of (store hp1 h v) h = some k := by rw [key_of_store]; exact hk
    have hf2 := find_present wf2 hL hk2
    refine ⟨by rw [hfind1, hf2], ?_⟩
    obtain ⟨v0, hv0⟩ := key_of_some hk
    unfold find_pair
    rw [hf2]
    simp only [read_store_self v hv0]
  · by_cases hmem : k ∈ (pairs_of hp m.hash_pairs).map Prod.fst
    · obtain ⟨h0, w, _, _, hf, _⟩ := wf.find_mem hmem
      exact Or.inr ⟨h0, hf⟩
    · exact Or.inl (wf.find_not_mem hmem).1

/-- Subscript access after `insert(1,"a")`, `insert(2,"b")`: `operator[](3)` inserts `(3, "")` as third
record, and `operator[](1)` designates the stored `"a"`. -/
theorem index_inserts_default_scenario :
    (∃ hp1 m1 h, index scenario_heap scenario_map 3 = .ok (hp1, m1, h) ∧
      (find scenario_heap scenario_map 3 = .ok none →
        size m1 = size scenario_map + 1 ∧ find_pair hp1 m1 3 = .ok (some (3, default))) ∧
      (∀ h0, find scenario_heap scenario_map 3 = .ok (some h0) →
        hp1 = scenario_heap ∧ m1 = scenario_map ∧ h = h0) ∧
      find hp1 m1 3 = .ok (some h) ∧
      (∀ v, find hp1 m1 3 = find (store hp1 h v) m1 3 ∧
        find_pair (store hp1 h v) m1 3 = .ok (some (3, v))) ∧
      (find scenario_heap scenario_map 3 = .ok none ∨
        ∃ h0, find scenario_heap scenario_map 3 = .ok (some h0))) ∧
    find scenario_heap scenario_map 3 = .ok none ∧
    (∃ hp1 m1, index scenario_heap scenario_map 3 = .ok (hp1, m1, 3) ∧ size m1 = 3 ∧
      find_pair hp1 m1 3 = .ok (some (3, "")) ∧
      find_pair (store hp1 3 "c") m1 3 = .ok (some (3, "c"))) ∧
    index scenario_heap scenario_map 1 = .ok (scenario_heap, scenario_map, 1) ∧
    read scenario_heap 1 = some (1, "a") :=
  ⟨index_inserts_default scenario_reachable 3, rfl,
    ⟨[none, some (1, "a"), some (2, "b"), some (3, "")],
      ⟨[Node.vacant, ⟨false, 0, some 1⟩, ⟨false, 0, some 2⟩, ⟨false, 0, some 3⟩],
        [3, 2, 1], 3, id⟩, rfl, rfl, rfl, rfl⟩, rfl, rfl⟩

/-! ## `clear` -/

/-- Maps never assigned to: in every reachable state `clear()` returns, and afterwards `size() == 0`,
`empty()` holds, the iteration sequence is empty, `find(k)` is the end sentinel for
every key, every slot of the table is free and the table has the size it had before. -/
theorem clear_empties [DecidableEq K] [Inhabited V] {hp : Heap K V} {m : HashMap K V}
    (r : Reachable hp m) :
    ∃ hp1 m1, clear hp m = .ok (hp1, m1) ∧ size m1 = 0 ∧ empty m1 = true ∧
      items hp1 m1 = .ok [] ∧ (∀ k, find hp1 m1 k = .ok none) ∧
      (∀ p, p < m1.table.length → (node_at m1.table p).free = true) ∧
      m1.table.length = m.table.length := by
  obtain ⟨hp1, m1, hclr, wf1, _, hlen, hc, hL, hfree⟩ := clear_spec r.wf
  refine ⟨hp1, m1, hclr, hc, ?_, ?_, ?_, fun p _ => hfree p, hlen⟩
  · unfold empty; rw [hc]; rfl
  · rw [wf1.items, hL]; rfl
  · intro k
    apply find_absent wf1
    intro h hh
    rw [hL] at hh
    exact absurd hh (List.not_mem_nil h)

/-- Clearing after `insert(1,"a")`, `insert(2,"b")`: `clear()` leaves an empty map whose
table still has four slots. -/
theorem clear_empties_scenario :
    (∃ hp1 m1, clear scenario_heap scenario_map = .ok (hp1, m1) ∧ size m1 = 0 ∧
      empty m1 = true ∧ items hp1 m1 = .ok [] ∧ (∀ k, find hp1 m1 k = .ok none) ∧
      (∀ p, p < m1.table.length → (node_at m1.table p).free = true) ∧
      m1.table.length = scenario_map.table.length) ∧
    scenario_map.table.length = 4 ∧ size scenario_map = 2 :=
  ⟨clear_empties scenario_reachable, rfl, rfl⟩

end RobinHood


namespace RobinHood

variable {K V : Type}

/-! ## Copy assignment -/

theorem source_reachable : Reachable source_heap source_map :=
  Reachable.insert (1, 10) (Reachable.init [] (seeded 0)) rfl

/-- C6: a failing input. `a` holds `(1, 10)` and was constructed with the hash instance
of seed `0`; `b` is an empty map constructed with the instance of seed `1`. After
`b = a` the sizes and the iteration sequences agree, but `b` still hashes with its own
instance: `a.find(1)` yields `(1, 10)` while `b.find(1)` is the end sentinel. -/
theorem assign_keeps_own_hash :
    Reachable source_heap source_map ∧
    ∃ hp1 b1, assign source_heap (HashMap.init (seeded 1)) source_map = .ok (hp1, b1) ∧
      size b1 = size source_map ∧
      items hp1 b1 = .ok [(1, 10)] ∧ items hp1 source_map = .ok [(1, 10)] ∧
      find_pair hp1 source_map 1 = .ok (some (1, 10)) ∧
      find hp1 b1 1 = .ok none :=
  ⟨source_reachable, [some (1, 10), some (1, 10)],
    ⟨[Node.vacant, ⟨false, 0, some 0⟩], [1], 1, seeded 1⟩, rfl, rfl, rfl, rfl, rfl, rfl⟩

/-- C7: a failing input. `a` holds `(1, 10)`, `b` is an empty map with the same hash
instance. After `b = a`, the slots of `b` designate the records of `a`: the assignment
`b[1] = 99` leaves the state of `b` as it is and writes into the record of `a`, so that
`a.find(1)` yields `(1, 99)` and the iteration sequence of `a` is `(1, 99)`, while the
record `b` owns still holds `10`. -/
theorem assign_shares_records :
    Reachable source_heap source_map ∧
    ∃ hp1 b1 hp2 b2 h,
      assign source_heap (HashMap.init (seeded 0)) source_map = .ok (hp1, b1) ∧
      find_pair hp1 source_map 1 = .ok (some (1, 10)) ∧
      items hp1 source_map = .ok [(1, 10)] ∧
      index hp1 b1 1 = .ok (hp2, b2, h) ∧
      find_pair (store hp2 h 99) source_map 1 = .ok (some (1, 99)) ∧
      items (store hp2 h 99) source_map = .ok [(1, 99)] ∧
      items (store hp2 h 99) b2 = .ok [(1, 10)] :=
  ⟨source_reachable, [some (1, 10), some (1, 10)],
    ⟨[Node.vacant, ⟨false, 0, some 0⟩], [1], 1, seeded 0⟩,
    [some (1, 10), some (1, 10)],
    ⟨[Node.vacant, ⟨false, 0, some 0⟩], [1], 1, seeded 0⟩, 0,
    rfl, rfl, rfl, rfl, rfl, rfl, rfl⟩

/-! ## Construction from a range -/

/-- C8: a failing input. Constructed from the range `(1,"a"), (2,"b")` the map holds the
single pair `(1,"a")` and `find(2)` is the end sentinel, because every iteration of the
loop inserts the pair that `begin` designates; inserting the two pairs in order into an
empty map, as the constructor from an initializer list does, gives a map of size 2. -/
theorem of_range_repeats_first :
    (∃ hp m, HashMap.of_range ([] : Heap Nat String) [(1, "a"), (2, "b")] id = .ok (hp, m) ∧
      size m = 1 ∧ items hp m = .ok [(1, "a")] ∧ find hp m 2 = .ok none) ∧
    (∃ hp m, HashMap.of_list ([] : Heap Nat String) [(1, "a"), (2, "b")] id = .ok (hp, m) ∧
      size m = 2 ∧ items hp m = .ok [(2, "b"), (1, "a")] ∧
      find_pair hp m 2 = .ok (some (2, "b"))) :=
  ⟨⟨[some (1, "a")], ⟨[Node.vacant, ⟨false, 0, some 0⟩], [0], 1, id⟩, rfl, rfl, rfl, rfl⟩,
    ⟨scenario_heap, scenario_map, rfl, rfl, rfl, rfl⟩⟩

/-! ## Iteration order -/

/-- C9 as stated fails: inserting the keys 1, 2, 3, 4 into an empty map yields the
iteration sequence 4, 1, 2, 3 and not 4, 3, 2, 1, because the growth of the table at the
fourth insertion reinserts the three older records front to back. -/
theorem insertion_order_not_reversed :
    ∃ hp m, HashMap.of_list ([] : Heap Nat Nat) [(1, 10), (2, 20), (3, 30), (4, 40)] id =
        .ok (hp, m) ∧
      items hp m = .ok [(4, 40), (1, 10), (2, 20), (3, 30)] ∧
      items hp m ≠ .ok [(4, 40), (3, 30), (2, 20), (1, 10)] := by
  refine ⟨[none, none, none, none, some (3, 30), some (2, 20), some (1, 10), some (4, 40)],
    ⟨[Node.vacant, ⟨false, 0, some 6⟩, ⟨false, 0, some 5⟩, ⟨false, 0, some 4⟩,
      ⟨false, 0, some 7⟩, Node.vacant, Node.vacant, Node.vacant], [7, 6, 5, 4], 4, id⟩,
    rfl, rfl, ?_⟩
  intro h
  have h1 : [((4 : Nat), (40 : Nat)), (1, 10), (2, 20), (3, 30)] =
      [(4, 40), (3, 30), (2, 20), (1, 10)] := Except.ok.inj h
  exact absurd h1 (by decide)

theorem grows_iff {hp : Heap K V} {m : HashMap K V} (wf : WF hp m) :
    grows m ↔ m.table.length ≠ 0 ∧
      load_exceeded ((pairs_of hp m.hash_pairs).length + 1) m.table.length := by
  unfold grows
  rw [← wf.size_eq]
  rfl

theorem insert_all_order [DecidableEq K] :
    ∀ (kvs : List (K × V)) (hp : Heap K V) (m : HashMap K V), WF hp m →
      (kvs.map Prod.fst).Nodup →
      (∀ kv, kv ∈ kvs → kv.1 ∉ (pairs_of hp m.hash_pairs).map Prod.fst) →
      ∃ hp1 m1, insert_all insert hp m kvs = .ok (hp1, m1) ∧ WF hp1 m1 ∧
        (m1.table.length, pairs_of hp1 m1.hash_pairs) =
          kvs.foldl order_step (m.table.length, pairs_of hp m.hash_pairs) := by
  intro kvs
  induction kvs with
  | nil => intro hp m wf _ _; exact ⟨hp, m, rfl, wf, rfl⟩
  | cons kv kvs ih =>
    intro hp m wf hnd hnew
    have hnd1 := List.nodup_cons.mp (by simpa using hnd : (kv.1 :: kvs.map Prod.fst).Nodup)
    obtain ⟨hp1, m1, hins, wf1, _, _, hfresh⟩ := insert_spec wf kv
    obtain ⟨_, hpairs, hlen⟩ := hfresh (hnew kv (List.mem_cons_self _ _))
    have hstep : (m1.table.length, pairs_of hp1 m1.hash_pairs) =
        order_step (m.table.length, pairs_of hp m.hash_pairs) kv := by
      unfold order_step
      rw [hpairs, hlen]
      by_cases hn : m.table.length = 0
      · have hng : ¬ grows m := fun hg => hg.1 hn
        simp only [hn, if_true, if_neg hng]
      · by_cases hg : grows m
        · have := ((grows_iff wf).mp hg).2
          simp only [hn, if_false, if_pos hg, this, if_true]
        · have : ¬ load_exceeded ((pairs_of hp m.hash_pairs).length + 1) m.table.length :=
            fun hx => hg ((grows_iff wf).mpr ⟨hn, hx⟩)
          simp only [hn, if_false, if_neg hg, this]
    obtain ⟨hp2, m2, h2, wf2, hfold⟩ := ih hp1 m1 wf1 hnd1.2 (by
      intro kv1 hkv1 hmem
      rw [hpairs] at hmem
      have hmem1 : kv1.1 = kv.1 ∨ kv1.1 ∈ (pairs_of hp m.hash_pairs).map Prod.fst := by
        split_ifs at hmem
        · simpa [List.map_reverse] using hmem
        · simpa using hmem
      rcases hmem1 with e | hm
      · exact hnd1.1 (List.mem_map.mpr ⟨kv1, hkv1, e⟩)
      · exact hnew kv1 (List.mem_cons_of_mem _ hkv1) hm)
    refine ⟨hp2, m2, ?_, wf2, ?_⟩
    · unfold insert_all
      rw [hins]
      exact h2
    · rw [hfold, hstep, List.foldl_cons]

theorem order_fold_perm (kvs : List (K × V)) :
    ∀ acc : Nat × List (K × V), (kvs.foldl order_step acc).2.Perm (kvs ++ acc.2) := by
  induction kvs with
  | nil => intro acc; exact List.Perm.refl _
  | cons kv kvs ih =>
    intro acc
    rw [List.foldl_cons]
    refine (ih (order_step acc kv)).trans ?_
    have hstep : (order_step acc kv).2.Perm (kv :: acc.2) := by
      unfold order_step
      split_ifs
      · exact List.Perm.refl _
      · exact List.Perm.cons _ (List.reverse_perm _)
      · exact List.Perm.refl _
    refine (List.Perm.append_left kvs hstep).trans ?_
    exact List.perm_middle

theorem order_fold_head (kvs : List (K × V)) :
    ∀ (kv : K × V) (acc : Nat × List (K × V)),
      ((kv :: kvs).foldl order_step acc).2.head? = (kv :: kvs).getLast? := by
  induction kvs with
  | nil =>
    intro kv acc
    simp only [List.foldl_cons, List.foldl_nil, List.getLast?_singleton]
    unfold order_step
    split_ifs <;> rfl
  | cons kv2 kvs ih =>
    intro kv acc
    rw [List.foldl_cons, ih kv2 (order_step acc kv), List.getLast?_cons_cons]

/-- C9, amended: inserting pairs with pairwise distinct keys, in order, into an empty map
succeeds for every hash function, and the iteration sequence is `insertion_order`: each
insertion puts the new pair in front, of the previous sequence if the table does not
grow, and of the reversed previous sequence if it grows. Hence the sequence is a
permutation of the inserted pairs that starts with the pair inserted last. -/
theorem iteration_order_of_inserts [DecidableEq K] (hash : K → Nat) (kvs : List (K × V))
    (hnd : (kvs.map Prod.fst).Nodup) :
    ∃ hp m, HashMap.of_list ([] : Heap K V) kvs hash = .ok (hp, m) ∧
      items hp m = .ok (insertion_order kvs) ∧
      (insertion_order kvs).Perm kvs ∧
      (insertion_order kvs).head? = kvs.getLast? := by
  obtain ⟨hp, m, hrun, wf, hfold⟩ := insert_all_order kvs ([] : Heap K V)
    (HashMap.init hash) (WF.init [] hash) hnd (by
      intro kv _ hmem
      simp [HashMap.init, pairs_of] at hmem)
  have hpairs : pairs_of hp m.hash_pairs = insertion_order kvs := by
    have := congrArg Prod.snd hfold
    simpa [insertion_order, HashMap.init, pairs_of] using this
  refine ⟨hp, m, hrun, by rw [wf.items, hpairs], ?_, ?_⟩
  · have := order_fold_perm kvs ((0, []) : Nat × List (K × V))
    simpa [insertion_order] using this
  · cases kvs with
    | nil => rfl
    | cons kv kvs => exact order_fold_head kvs kv (0, [])

/-- C9, amended, at the keys 1, 2, 3, 4: the iteration sequence is 4, 1, 2, 3. -/
theorem iteration_order_of_inserts_example :
    (([(1, 10), (2, 20), (3, 30), (4, 40)] : List (Nat × Nat)).map Prod.fst).Nodup ∧
    insertion_order ([(1, 10), (2, 20), (3, 30), (4, 40)] : List (Nat × Nat)) =
      [(4, 40), (1, 10), (2, 20), (3, 30)] ∧
    ∃ hp m, HashMap.of_list ([] : Heap Nat Nat) [(1, 10), (2, 20), (3, 30), (4, 40)] id =
        .ok (hp, m) ∧
      items hp m = .ok (insertion_order [(1, 10), (2, 20), (3, 30), (4, 40)]) ∧
      (insertion_order ([(1, 10), (2, 20), (3, 30), (4, 40)] : List (Nat × Nat))).Perm
        [(1, 10), (2, 20), (3, 30), (4, 40)] ∧
      (insertion_order ([(1, 10), (2, 20), (3, 30), (4, 40)] : List (Nat × Nat))).head? =
        ([(1, 10), (2, 20), (3, 30), (4, 40)] : List (Nat × Nat)).getLast? :=
  ⟨by decide, by decide, iteration_order_of_inserts id _ (by decide)⟩

end RobinHood


namespace RobinHood

variable {K V : Type}

/-! ## Runs of `insert` and `erase` calls -/

theorem run_reachable [DecidableEq K] [Inhabited V] :
    ∀ (ops : List (Op K V)) (hp hp1 : Heap K V) (m m1 : HashMap K V), Reachable hp m →
      ops.foldl apply_op (.ok (hp, m)) = .ok (hp1, m1) → Reachable hp1 m1 := by
  intro ops
  induction ops with
  | nil =>
    intro hp hp1 m m1 r h
    cases h
    exact r
  | cons op ops ih =>
    intro hp hp1 m m1 r h
    rw [List.foldl_cons] at h
    cases op with
    | insert kv =>
      obtain ⟨hp2, m2, hins, _⟩ := insert_spec r.wf kv
      have e : apply_op (.ok (hp, m)) (Op.insert kv : Op K V) = .ok (hp2, m2) := hins
      rw [e] at h
      exact ih hp2 hp1 m2 m1 (Reachable.insert kv r hins) h
    | erase key =>
      obtain ⟨hp2, m2, hers, _⟩ := erase_spec r.wf key
      have e : apply_op (.ok (hp, m)) (Op.erase key : Op K V) = .ok (hp2, m2) := hers
      rw [e] at h
      exact ih hp2 hp1 m2 m1 (Reachable.erase key r hers) h

theorem mem_fold_insert [DecidableEq K] (kvs : List (K × V)) :
    ∀ (S : Finset K) (x : K),
      x ∈ (kvs.map Op.insert).foldl ref_step S ↔ x ∈ S ∨ x ∈ kvs.map Prod.fst := by
  induction kvs with
  | nil => intro S x; simp
  | cons kv kvs ih =>
    intro S x
    rw [List.map_cons, List.foldl_cons, ih]
    simp only [ref_step, Finset.mem_insert, List.map_cons, List.mem_cons]
    tauto

theorem mem_fold_erase [DecidableEq K] (order : List K) :
    ∀ (S : Finset K) (x : K),
      x ∈ (order.map (Op.erase : K → Op K V)).foldl ref_step S ↔ x ∈ S ∧ x ∉ order := by
  induction order with
  | nil => intro S x; simp
  | cons key order ih =>
    intro S x
    rw [List.map_cons, List.foldl_cons, ih]
    simp only [ref_step, Finset.mem_erase, List.mem_cons]
    tauto

/-- C11: for every hash function, inserting pairs with pairwise distinct keys into an
empty map and then erasing all these keys, in any order, succeeds and leaves
`size() == 0` and an empty record list, so that a traversal visits nothing. -/
theorem insert_all_then_erase_all [DecidableEq K] (hash : K → Nat) (kvs : List (K × V))
    (order : List K) (hnd : (kvs.map Prod.fst).Nodup)
    (hperm : order.Perm (kvs.map Prod.fst)) :
    ∃ hp m, run hash (kvs.map Op.insert ++ order.map Op.erase) = .ok (hp, m) ∧
      size m = 0 ∧ items hp m = .ok [] ∧ m.hash_pairs = [] := by
  have _ := hnd
  obtain ⟨hp, m, hrun, wf, hS⟩ := run_keys (kvs.map Op.insert ++ order.map Op.erase)
    ([] : Heap K V) (HashMap.init hash) ∅ (WF.init [] hash) (by simp [HashMap.init, pairs_of])
  have hempty : (kvs.map Op.insert ++ order.map Op.erase).foldl ref_step (∅ : Finset K) = ∅ := by
    apply Finset.eq_empty_of_forall_not_mem
    intro x hx
    rw [List.foldl_append, mem_fold_erase, mem_fold_insert] at hx
    rcases hx.1 with h | h
    · exact absurd h (Finset.not_mem_empty x)
    · exact hx.2 (hperm.mem_iff.mpr h)
  rw [hempty] at hS
  have hkeys : (pairs_of hp m.hash_pairs).map Prod.fst = [] := List.toFinset_eq_empty_iff _ |>.mp hS
  have hpairs : pairs_of hp m.hash_pairs = [] := List.map_eq_nil_iff.mp hkeys
  have hlen : m.hash_pairs.length = 0 := by
    rw [← pairs_of_length (fun _ hL => wf.table_ok.live hL), hpairs]; rfl
  refine ⟨hp, m, hrun, ?_, ?_, List.length_eq_zero.mp hlen⟩
  · rw [wf.size_eq, hpairs]; rfl
  · rw [wf.items, hpairs]

/-- C11 at the keys 1, 2, 3 erased in the order 2, 3, 1. -/
theorem insert_all_then_erase_all_example :
    (([(1, 10), (2, 20), (3, 30)] : List (Nat × Nat)).map Prod.fst).Nodup ∧
    ([2, 3, 1] : List Nat).Perm (([(1, 10), (2, 20), (3, 30)] : List (Nat × Nat)).map Prod.fst) ∧
    ∃ hp m, run id (([(1, 10), (2, 20), (3, 30)] : List (Nat × Nat)).map Op.insert ++
        ([2, 3, 1] : List Nat).map Op.erase) = .ok (hp, m) ∧
      size m = 0 ∧ items hp m = .ok [] ∧ m.hash_pairs = [] :=
  ⟨by decide, by decide, insert_all_then_erase_all id _ _ (by decide) (by decide)⟩

/-! ## Growth of the table -/

theorem insert_order_step [DecidableEq K] {hp : Heap K V} {m : HashMap K V} (wf : WF hp m)
    (kv : K × V) (hnew : kv.1 ∉ (pairs_of hp m.hash_pairs).map Prod.fst) :
    ∃ hp1 m1, insert hp m kv = .ok (hp1, m1) ∧ WF hp1 m1 ∧
      (m1.table.length, pairs_of hp1 m1.hash_pairs) =
        order_step (m.table.length, pairs_of hp m.hash_pairs) kv := by
  obtain ⟨hp1, m1, hins, wf1, hr⟩ := insert_all_order [kv] hp m wf (by simp)
    (by intro kv1 h1; rw [List.mem_singleton.mp h1]; exact hnew)
  refine ⟨hp1, m1, ?_, wf1, hr⟩
  unfold insert_all at hins
  cases h : insert hp m kv with
  | error e => rw [h] at hins; cases hins
  | ok s =>
    rw [h] at hins
    have : s = (hp1, m1) := Except.ok.inj hins
    rw [this]

/-- C12: for every hash function, inserting the keys 1, 2, 3, 4, 5 with values
`v1 … v5` one after another into an empty map gives a table of 2, 4, 4, 8, 8 slots after
the respective insertion, and afterwards `find(i)` yields `(i, vi)` for `i = 1 … 5` and
`size() == 5`. -/
theorem resize_on_one_to_five (hash : Nat → Nat) (v1 v2 v3 v4 v5 : V) :
    ∃ hp1 m1 hp2 m2 hp3 m3 hp4 m4 hp5 m5,
      insert ([] : Heap Nat V) (HashMap.init hash) (1, v1) = .ok (hp1, m1) ∧
      insert hp1 m1 (2, v2) = .ok (hp2, m2) ∧
      insert hp2 m2 (3, v3) = .ok (hp3, m3) ∧
      insert hp3 m3 (4, v4) = .ok (hp4, m4) ∧
      insert hp4 m4 (5, v5) = .ok (hp5, m5) ∧
      m1.table.length = 2 ∧ m2.table.length = 4 ∧ m3.table.length = 4 ∧
      m4.table.length = 8 ∧ m5.table.length = 8 ∧
      find_pair hp5 m5 1 = .ok (some (1, v1)) ∧ find_pair hp5 m5 2 = .ok (some (2, v2)) ∧
      find_pair hp5 m5 3 = .ok (some (3, v3)) ∧ find_pair hp5 m5 4 = .ok (some (4, v4)) ∧
      find_pair hp5 m5 5 = .ok (some (5, v5)) ∧ size m5 = 5 := by
  have wf0 : WF ([] : Heap Nat V) (HashMap.init hash) := WF.init [] hash
  have p0 : pairs_of ([] : Heap Nat V) (HashMap.init hash : HashMap Nat V).hash_pairs = [] := rfl
  have l0 : (HashMap.init hash : HashMap Nat V).table.length = 0 := rfl
  obtain ⟨hp1, m1, i1, wf1, e1⟩ := insert_order_step wf0 (1, v1) (by rw [p0]; simp)
  rw [p0, l0] at e1
  have e1a : (m1.table.length, pairs_of hp1 m1.hash_pairs) = (2, [(1, v1)]) := by
    rw [e1]; simp [order_step, INITIAL_SIZE]
  obtain ⟨l1, p1⟩ := Prod.mk.inj e1a
  obtain ⟨hp2, m2, i2, wf2, e2⟩ := insert_order_step wf1 (2, v2) (by rw [p1]; simp)
  rw [p1, l1] at e2
  have e2a : (m2.table.length, pairs_of hp2 m2.hash_pairs) = (4, [(2, v2), (1, v1)]) := by
    rw [e2]; simp [order_step, load_exceeded]
  obtain ⟨l2, p2⟩ := Prod.mk.inj e2a
  obtain ⟨hp3, m3, i3, wf3, e3⟩ := insert_order_step wf2 (3, v3) (by rw [p2]; simp)
  rw [p2, l2] at e3
  have e3a : (m3.table.length, pairs_of hp3 m3.hash_pairs) =
      (4, [(3, v3), (2, v2), (1, v1)]) := by
    rw [e3]; simp [order_step, load_exceeded]
  obtain ⟨l3, p3⟩ := Prod.mk.inj e3a
  obtain ⟨hp4, m4, i4, wf4, e4⟩ := insert_order_step wf3 (4, v4) (by rw [p3]; simp)
  rw [p3, l3] at e4
  have e4a : (m4.table.length, pairs_of hp4 m4.hash_pairs) =
      (8, [(4, v4), (1, v1), (2, v2), (3, v3)]) := by
    rw [e4]; simp [order_step, load_exceeded]
  obtain ⟨l4, p4⟩ := Prod.mk.inj e4a
  obtain ⟨hp5, m5, i5, wf5, e5⟩ := insert_order_step wf4 (5, v5) (by rw [p4]; simp)
  rw [p4, l4] at e5
  have e5a : (m5.table.length, pairs_of hp5 m5.hash_pairs) =
      (8, [(5, v5), (4, v4), (1, v1), (2, v2), (3, v3)]) := by
    rw [e5]; simp [order_step, load_exceeded]
  obtain ⟨l5, p5⟩ := Prod.mk.inj e5a
  refine ⟨hp1, m1, hp2, m2, hp3, m3, hp4, m4, hp5, m5, i1, i2, i3, i4, i5, l1, l2, l3, l4, l5,
    ?_, ?_, ?_, ?_, ?_, ?_⟩
  · rw [find_pair_spec wf5, p5]; simp [List.find?_cons]
  · rw [find_pair_spec wf5, p5]; simp [List.find?_cons]
  · rw [find_pair_spec wf5, p5]; simp [List.find?_cons]
  · rw [find_pair_spec wf5, p5]; simp [List.find?_cons]
  · rw [find_pair_spec wf5, p5]; simp [List.find?_cons]
  · rw [wf5.size_eq, p5]; rfl

end RobinHood


namespace RobinHood

variable {K V : Type}

/-! ## Refinement of the reference association map -/

theorem find?_key_iff [DecidableEq K] {P : List (K × V)} (hnd : (P.map Prod.fst).Nodup)
    (k : K) (kv : K × V) :
    P.find? (fun x => decide (x.1 = k)) = some kv ↔ kv ∈ P ∧ kv.1 = k := by
  constructor
  · intro h
    exact ⟨List.mem_of_find?_eq_some h, by simpa using List.find?_some h⟩
  · rintro ⟨hmem, hk⟩
    induction P with
    | nil => exact absurd hmem (List.not_mem_nil kv)
    | cons a P ih =>
      have hnd1 := List.nodup_cons.mp (by simpa using hnd : (a.1 :: P.map Prod.fst).Nodup)
      by_cases ha : a.1 = k
      · rw [List.find?_cons_of_pos _ (by simpa using ha)]
        rcases List.mem_cons.mp hmem with e | hP
        · rw [e]
        · exact absurd (List.mem_map.mpr ⟨kv, hP, by rw [hk, ha]⟩) hnd1.1
      · rw [List.find?_cons_of_neg _ (by simpa using ha)]
        rcases List.mem_cons.mp hmem with e | hP
        · rw [e] at hk; exact absurd hk ha
        · exact ih hnd1.2 hP

theorem find?_key_reverse [DecidableEq K] {P : List (K × V)}
    (hnd : (P.map Prod.fst).Nodup) (k : K) :
    P.reverse.find? (fun x => decide (x.1 = k)) = P.find? (fun x => decide (x.1 = k)) := by
  have hnd1 : (P.reverse.map Prod.fst).Nodup := by
    rw [List.map_reverse]; exact List.nodup_reverse.mpr hnd
  apply Option.ext
  intro kv
  simp only [Option.mem_def]
  rw [find?_key_iff hnd1, find?_key_iff hnd, List.mem_reverse]

theorem find?_key_filter [DecidableEq K] (P : List (K × V)) (key k : K) :
    (P.filter (fun kv => decide (kv.1 ≠ key))).find? (fun x => decide (x.1 = k)) =
      if k = key then none else P.find? (fun x => decide (x.1 = k)) := by
  induction P with
  | nil => simp
  | cons a P ih =>
    by_cases ha : a.1 = key
    · rw [List.filter_cons_of_neg (by simpa using ha), ih]
      split_ifs with hk
      · rfl
      · rw [List.find?_cons_of_neg _ (by simpa using (fun e => hk (e.symm.trans ha) : ¬ a.1 = k))]
    · rw [List.filter_cons_of_pos (by simpa using ha)]
      by_cases hak : a.1 = k
      · rw [List.find?_cons_of_pos _ (by simpa using hak),
          List.find?_cons_of_pos _ (by simpa using hak)]
        rw [if_neg (fun e => ha (hak.trans e))]
      · rw [List.find?_cons_of_neg _ (by simpa using hak),
          List.find?_cons_of_neg _ (by simpa using hak), ih]

theorem find?_key_none [DecidableEq K] {P : List (K × V)} {k : K}
    (hk : k ∉ P.map Prod.fst) : P.find? (fun x => decide (x.1 = k)) = none := by
  apply List.find?_eq_none.mpr
  intro kv hkv
  simp only [decide_eq_true_eq]
  intro e
  exact hk (List.mem_map.mpr ⟨kv, hkv, e⟩)

theorem insert_other_key [DecidableEq K] {hp : Heap K V} {m : HashMap K V} (wf : WF hp m)
    (kv : K × V) (k1 : K) (hne : k1 ≠ kv.1) :
    ∃ hp1 m1, insert hp m kv = .ok (hp1, m1) ∧ WF hp1 m1 ∧
      find_pair hp1 m1 k1 = find_pair hp m k1 := by
  obtain ⟨hp1, m1, hins, wf1, _, hpres, hnew⟩ := insert_spec wf kv
  refine ⟨hp1, m1, hins, wf1, ?_⟩
  by_cases hmem : kv.1 ∈ (pairs_of hp m.hash_pairs).map Prod.fst
  · obtain ⟨e1, e2⟩ := hpres hmem
    rw [e1, e2]
  · obtain ⟨_, hpairs, _⟩ := hnew hmem
    rw [find_pair_spec wf1, find_pair_spec wf, hpairs,
      List.find?_cons_of_neg _ (by simpa using (fun e => hne e.symm : ¬ kv.1 = k1))]
    split_ifs
    · rw [find?_key_reverse wf.table_ok.nodup_keys]
    · rfl

theorem erase_other_key [DecidableEq K] {hp : Heap K V} {m : HashMap K V} (wf : WF hp m)
    (key k1 : K) (hne : k1 ≠ key) :
    ∃ hp1 m1, erase hp m key = .ok (hp1, m1) ∧ WF hp1 m1 ∧
      find_pair hp1 m1 k1 = find_pair hp m k1 := by
  obtain ⟨hp1, m1, hers, wf1, _, _, hpairs, _, _⟩ := erase_spec wf key
  refine ⟨hp1, m1, hers, wf1, ?_⟩
  rw [find_pair_spec wf1, find_pair_spec wf, hpairs, find?_key_filter, if_neg hne]

theorem run_binds [DecidableEq K] :
    ∀ (ops : List (Op K V)) (hp : Heap K V) (m : HashMap K V) (f : K → Option V), WF hp m →
      (∀ k, (pairs_of hp m.hash_pairs).find? (fun x => decide (x.1 = k)) =
        (f k).map (fun v => (k, v))) →
      ∃ hp1 m1, ops.foldl apply_op (.ok (hp, m)) = .ok (hp1, m1) ∧ WF hp1 m1 ∧
        ∀ k, (pairs_of hp1 m1.hash_pairs).find? (fun x => decide (x.1 = k)) =
          ((ops.foldl ref_bind f) k).map (fun v => (k, v)) := by
  intro ops
  induction ops with
  | nil => intro hp m f wf hf; exact ⟨hp, m, rfl, wf, hf⟩
  | cons op ops ih =>
    intro hp m f wf hf
    cases op with
    | insert kv =>
      obtain ⟨hp1, m1, hins, wf1, _, hpres, hnew⟩ := insert_spec wf kv
      have hf1 : ∀ k, (pairs_of hp1 m1.hash_pairs).find? (fun x => decide (x.1 = k)) =
          ((ref_bind f (Op.insert kv : Op K V)) k).map (fun v => (k, v)) := by
        intro k
        show _ = (if k = kv.1 then
          (match f k with
            | none => some kv.2
            | some w => some w) else f k).map (fun v => (k, v))
        by_cases hmem : kv.1 ∈ (pairs_of hp m.hash_pairs).map Prod.fst
        · obtain ⟨e1, e2⟩ := hpres hmem
          rw [e1, e2, hf k]
          split_ifs with hk
          · cases hfk : f k with
            | none =>
              exfalso
              have h1 := hf k
              rw [hfk] at h1
              obtain ⟨kv1, hkv1, e⟩ := List.mem_map.mp hmem
              have h2 := (find?_key_iff wf.table_ok.nodup_keys k kv1).mpr
                ⟨hkv1, by rw [hk]; exact e⟩
              rw [h1] at h2
              cases h2
            | some w => rfl
          · rfl
        · obtain ⟨_, hpairs, _⟩ := hnew hmem
          rw [hpairs]
          have hQ : (if grows m then (pairs_of hp m.hash_pairs).reverse
              else pairs_of hp m.hash_pairs).find? (fun x => decide (x.1 = k)) =
              (pairs_of hp m.hash_pairs).find? (fun x => decide (x.1 = k)) := by
            split_ifs
            · exact find?_key_reverse wf.table_ok.nodup_keys k
            · rfl
          by_cases hk : k = kv.1
          · rw [if_pos hk, List.find?_cons_of_pos _ (by simpa using hk.symm)]
            have h1 := hf k
            rw [hk, find?_key_none hmem] at h1
            cases hfk : f kv.1 with
            | none => rw [hk, hfk]; rfl
            | some w => rw [hfk] at h1; cases h1
          · rw [if_neg hk, List.find?_cons_of_neg _ (by simpa using (fun e => hk e.symm : ¬ kv.1 = k)),
              hQ, hf k]
      obtain ⟨hp2, m2, h2, wf2, hf2⟩ := ih hp1 m1 _ wf1 hf1
      refine ⟨hp2, m2, ?_, wf2, hf2⟩
      simp only [List.foldl_cons]
      have : apply_op (.ok (hp, m)) (Op.insert kv) = .ok (hp1, m1) := hins
      rw [this]
      exact h2
    | erase key =>
      obtain ⟨hp1, m1, hers, wf1, _, _, hpairs, _, _⟩ := erase_spec wf key
      have hf1 : ∀ k, (pairs_of hp1 m1.hash_pairs).find? (fun x => decide (x.1 = k)) =
          ((ref_bind f (Op.erase key : Op K V)) k).map (fun v => (k, v)) := by
        intro k
        show _ = (if k = key then none else f k).map (fun v => (k, v))
        rw [hpairs, find?_key_filter]
        split_ifs
        · rfl
        · exact hf k
      obtain ⟨hp2, m2, h2, wf2, hf2⟩ := ih hp1 m1 _ wf1 hf1
      refine ⟨hp2, m2, ?_, wf2, hf2⟩
      simp only [List.foldl_cons]
      have : apply_op (.ok (hp, m)) (Op.erase key) = .ok (hp1, m1) := hers
      rw [this]
      exact h2

/-- C13: for every hash function and every finite sequence of `insert` and `erase` calls
on an empty map, all calls return and, for every key `k`, `find(k)` yields `(k, v)` exactly
when the reference association map binds `k` to `v`, and is the end sentinel when `k` is
unbound. In the state reached, a further `insert` of a pair with key `k` or `erase` of `k`
returns and leaves the pair that `find` yields for every other key as it was. -/
theorem find_refines_ref_map [DecidableEq K] (hash : K → Nat) (ops : List (Op K V)) :
    ∃ hp m, run hash ops = .ok (hp, m) ∧
      (∀ k, find_pair hp m k = .ok ((ref_map ops k).map (fun v => (k, v)))) ∧
      (∀ k v k1, k1 ≠ k → ∃ hp1 m1, insert hp m (k, v) = .ok (hp1, m1) ∧
        find_pair hp1 m1 k1 = find_pair hp m k1) ∧
      (∀ k k1, k1 ≠ k → ∃ hp1 m1, erase hp m k = .ok (hp1, m1) ∧
        find_pair hp1 m1 k1 = find_pair hp m k1) := by
  obtain ⟨hp, m, hrun, wf, hf⟩ := run_binds ops ([] : Heap K V) (HashMap.init hash)
    (fun _ => none) (WF.init [] hash) (by intro k; rfl)
  refine ⟨hp, m, hrun, ?_, ?_, ?_⟩
  · intro k
    rw [find_pair_spec wf, hf k]
    rfl
  · intro k v k1 hne
    obtain ⟨hp1, m1, h1, _, h2⟩ := insert_other_key wf (k, v) k1 hne
    exact ⟨hp1, m1, h1, h2⟩
  · intro k k1 hne
    obtain ⟨hp1, m1, h1, _, h2⟩ := erase_other_key wf k k1 hne
    exact ⟨hp1, m1, h1, h2⟩

/-- C13 with a hash function that sends every key to bucket 0, on the calls
`insert(1,10)`, `insert(2,20)`, `insert(1,30)`, `erase(2)`, `insert(3,40)`: the keys 1
and 3 are bound to 10 and 40 and the key 2 is unbound. -/
theorem find_refines_ref_map_example :
    (∃ hp m, run (fun _ => 0) ([Op.insert (1, 10), Op.insert (2, 20), Op.insert (1, 30),
        Op.erase 2, Op.insert (3, 40)] : List (Op Nat Nat)) = .ok (hp, m) ∧
      find_pair hp m 1 = .ok (some (1, 10)) ∧ find_pair hp m 2 = .ok none ∧
      find_pair hp m 3 = .ok (some (3, 40))) := by
  obtain ⟨hp, m, hrun, hf, _⟩ := find_refines_ref_map (fun _ => 0)
    ([Op.insert (1, 10), Op.insert (2, 20), Op.insert (1, 30), Op.erase 2,
      Op.insert (3, 40)] : List (Op Nat Nat))
  exact ⟨hp, m, hrun, by rw [hf 1]; rfl, by rw [hf 2]; rfl, by rw [hf 3]; rfl⟩

end RobinHood


namespace RobinHood

variable {K V : Type}

/-! ## The invariants of the slot table in reachable states -/

theorem cluster_run :
    run id ([Op.insert (0, 1), Op.insert (8, 2), Op.insert (16, 3), Op.insert (2, 4)] :
      List (Op Nat Nat)) = .ok (cluster_heap, cluster_map) := rfl

theorem cluster_reachable : Reachable cluster_heap cluster_map :=
  run_reachable _ [] cluster_heap (HashMap.init id) cluster_map (Reachable.init [] id)
    cluster_run

/-- C18: in every reachable state an occupied slot at position `p` designates a live
record `(k, v)` of the list, its stored PSL is below the capacity, and `p` is
`(get_pos(k) + PSL) mod capacity`, where `get_pos(k) = hash(k) mod capacity`. -/
theorem psl_is_probe_distance [DecidableEq K] [Inhabited V] {hp : Heap K V}
    {m : HashMap K V} (r : Reachable hp m) (p : Nat) (hlt : p < m.table.length)
    (hocc : (node_at m.table p).free = false) :
    ∃ h k v, (node_at m.table p).it = some h ∧ h ∈ m.hash_pairs ∧
      read hp h = some (k, v) ∧ (node_at m.table p).PSL < m.table.length ∧
      get_pos m k = hash_function m k % m.table.length ∧
      p = (get_pos m k + (node_at m.table p).PSL) % m.table.length := by
  obtain ⟨h, k, v, hit, hL, hr, _, hpsl, hpos⟩ := r.wf.table_ok.deref_slot hlt hocc
  have hn : 0 < m.table.length := by omega
  exact ⟨h, k, v, hit, hL, hr, hpsl, get_pos_eq hn k, by rw [get_pos_eq hn k]; exact hpos.symm⟩

/-- C18 at slot 2 of the map holding the keys 0, 8, 16, 2: the slot holds key 0 with
PSL 2, two steps behind its ideal bucket 0. -/
theorem psl_is_probe_distance_example :
    (node_at cluster_map.table 2).free = false ∧ (node_at cluster_map.table 2).PSL = 2 ∧
    ∃ h k v, (node_at cluster_map.table 2).it = some h ∧ h ∈ cluster_map.hash_pairs ∧
      read cluster_heap h = some (k, v) ∧
      (node_at cluster_map.table 2).PSL < cluster_map.table.length ∧
      get_pos cluster_map k = hash_function cluster_map k % cluster_map.table.length ∧
      2 = (get_pos cluster_map k + (node_at cluster_map.table 2).PSL) %
        cluster_map.table.length :=
  ⟨rfl, rfl, psl_is_probe_distance cluster_reachable 2 (by decide) rfl⟩

/-- C19 as stated fails: after inserting the keys 0, 8, 16, 2 into an empty map with the
identity hash, slot 2 is occupied with PSL 2 and its successor, slot 3, is occupied with
PSL 1, which is positive and smaller. -/
theorem psl_not_monotone :
    run id ([Op.insert (0, 1), Op.insert (8, 2), Op.insert (16, 3), Op.insert (2, 4)] :
      List (Op Nat Nat)) = .ok (cluster_heap, cluster_map) ∧
    (node_at cluster_map.table 2).free = false ∧
    (node_at cluster_map.table (next_pos cluster_map.table.length 2)).free = false ∧
    0 < (node_at cluster_map.table (next_pos cluster_map.table.length 2)).PSL ∧
    ¬ ((node_at cluster_map.table (next_pos cluster_map.table.length 2)).PSL ≥
      (node_at cluster_map.table 2).PSL) :=
  ⟨rfl, rfl, rfl, by decide, by decide⟩

/-- C19, amended: in every reachable state, for every occupied slot `p` whose successor
is occupied with a positive PSL, the PSL of the successor is at most one more than the
PSL of `p`. -/
theorem psl_grows_by_at_most_one [DecidableEq K] [Inhabited V] {hp : Heap K V}
    {m : HashMap K V} (r : Reachable hp m) (p : Nat) (hlt : p < m.table.length)
    (_hocc : (node_at m.table p).free = false)
    (hnext : (node_at m.table (next_pos m.table.length p)).free = false)
    (hpos : 0 < (node_at m.table (next_pos m.table.length p)).PSL) :
    (node_at m.table (next_pos m.table.length p)).PSL ≤ (node_at m.table p).PSL + 1 :=
  (r.wf.table_ok.chain p hlt hnext hpos).2

/-- C19, amended, at slots 1 and 2 of the map holding the keys 0, 8, 16, 2: the PSL
goes from 1 to 2. -/
theorem psl_grows_by_at_most_one_example :
    (node_at cluster_map.table 1).PSL = 1 ∧
    (node_at cluster_map.table (next_pos cluster_map.table.length 1)).PSL = 2 ∧
    (node_at cluster_map.table (next_pos cluster_map.table.length 1)).PSL ≤
      (node_at cluster_map.table 1).PSL + 1 :=
  ⟨rfl, rfl, psl_grows_by_at_most_one cluster_reachable 1 (by decide) rfl rfl (by decide)⟩

theorem prev_pos_lt {n p : Nat} (hp : p < n) : prev_pos n p < n := by
  unfold prev_pos
  split_ifs <;> omega

theorem next_prev_pos {n p : Nat} (hp : p < n) : next_pos n (prev_pos n p) = p := by
  unfold prev_pos next_pos
  split_ifs <;> omega

/-- C20: in every reachable state, (1) an occupied slot with stored PSL `d ≥ 1` has an
occupied circular predecessor whose PSL is at least `d - 1`; (2) for an occupied slot
holding key `k` with PSL `d`, the slot at every offset `j ≤ d` from the ideal bucket
`get_pos(k)` is occupied with PSL at least `j`; (3) for every record `(k, v)` of the
list, `find_key_pos(k)` returns the position of the occupied slot that designates it. -/
theorem probe_chain_continuous [DecidableEq K] [Inhabited V] {hp : Heap K V}
    {m : HashMap K V} (r : Reachable hp m) :
    (∀ p, p < m.table.length → (node_at m.table p).free = false →
      1 ≤ (node_at m.table p).PSL →
      (node_at m.table (prev_pos m.table.length p)).free = false ∧
        (node_at m.table p).PSL - 1 ≤ (node_at m.table (prev_pos m.table.length p)).PSL) ∧
    (∀ p h k v, p < m.table.length → (node_at m.table p).free = false →
      (node_at m.table p).it = some h → read hp h = some (k, v) →
      ∀ j, j ≤ (node_at m.table p).PSL →
        (node_at m.table ((get_pos m k + j) % m.table.length)).free = false ∧
          j ≤ (node_at m.table ((get_pos m k + j) % m.table.length)).PSL) ∧
    (∀ h k v, h ∈ m.hash_pairs → read hp h = some (k, v) →
      ∃ p, p < m.table.length ∧ find_key_pos hp m k = .ok p ∧
        (node_at m.table p).free = false ∧ (node_at m.table p).it = some h) := by
  have ok := r.wf.table_ok
  refine ⟨?_, ?_, ?_⟩
  · intro p hlt hocc hpsl
    have h1 := ok.chain (prev_pos m.table.length p) (prev_pos_lt hlt)
      (by rw [next_prev_pos hlt]; exact hocc) (by rw [next_prev_pos hlt]; exact hpsl)
    rw [next_prev_pos hlt] at h1
    exact ⟨h1.1, by omega⟩
  · intro p h k v hlt hocc hit hr j hj
    have hn : 0 < m.table.length := by omega
    obtain ⟨h1, k1, v1, hit1, _, hr1, _, _, hpos⟩ := ok.deref_slot hlt hocc
    rw [hit] at hit1
    have e : h1 = h := (Option.some.inj hit1).symm
    subst e
    rw [hr] at hr1
    have e2 : k1 = k := (Prod.mk.inj (Option.some.inj hr1)).1.symm
    subst e2
    rw [get_pos_eq hn]
    exact ok.chain_back hn (m.hash k1 % m.table.length) (node_at m.table p).PSL
      (by rw [hpos]; exact hocc) (by rw [hpos]) j hj
  · intro h k v hL hr
    exact find_key_pos_present ok hL (key_of_read hr)

/-- C20 on the map holding the keys 0, 8, 16, 2: slot 2 has PSL 2 and its predecessor,
slot 1, is occupied with PSL 1; `find_key_pos(0)` walks to slot 2. -/
theorem probe_chain_continuous_example :
    (node_at cluster_map.table 2).PSL = 2 ∧ prev_pos cluster_map.table.length 2 = 1 ∧
    ((node_at cluster_map.table (prev_pos cluster_map.table.length 2)).free = false ∧
      (node_at cluster_map.table 2).PSL - 1 ≤
        (node_at cluster_map.table (prev_pos cluster_map.table.length 2)).PSL) ∧
    find_key_pos cluster_heap cluster_map 0 = .ok 2 :=
  ⟨rfl, rfl, (probe_chain_continuous cluster_reachable).1 2 (by decide) rfl (by decide), rfl⟩

/-! ## Counting the occupied slots -/

theorem filter_length_range (q : Node → Bool) (T : List Node) :
    (T.filter q).length =
      ((List.range T.length).filter (fun p => q (node_at T p))).length := by
  have hT : (List.range T.length).map (node_at T) = T := by
    apply List.ext_getElem
    · simp
    · intro i h1 h2
      simp [node_at, List.getD_eq_getElem?_getD, h2]
  conv_lhs => rw [← hT]
  rw [List.filter_map, List.length_map]
  rfl

theorem TableOK.occupied_count_eq {kf : Nat → Option K} {hash : K → Nat} {T : List Node}
    {L : List Nat} (ok : TableOK kf hash T L) : occupied_count T = L.length := by
  unfold occupied_count
  rw [filter_length_range]
  have hocc : ∀ p, p ∈ (List.range T.length).filter (fun p => !(node_at T p).free) →
      p < T.length ∧ (node_at T p).free = false := by
    intro p hp
    obtain ⟨h1, h2⟩ := List.mem_filter.mp hp
    exact ⟨List.mem_range.mp h1, by simpa using h2⟩
  have hnd : (((List.range T.length).filter (fun p => !(node_at T p).free)).map
      (fun p => ((node_at T p).it).getD 0)).Nodup := by
    apply List.Nodup.map_on
    · intro p hp q hq hpq
      obtain ⟨hp1, hp2⟩ := hocc p hp
      obtain ⟨hq1, hq2⟩ := hocc q hq
      obtain ⟨h, k, hit, _⟩ := ok.slot p hp1 hp2
      obtain ⟨h2, k2, hit2, _⟩ := ok.slot q hq1 hq2
      apply ok.inj p q hp1 hq1 hp2 hq2
      simp only [hit, hit2, Option.getD_some] at hpq
      rw [hit, hit2, hpq]
    · exact (List.nodup_range _).filter _
  have hperm := (List.perm_ext_iff_of_nodup hnd ok.nodup).mpr (by
    intro h
    constructor
    · intro hm
      obtain ⟨p, hp, e⟩ := List.mem_map.mp hm
      obtain ⟨hp1, hp2⟩ := hocc p hp
      obtain ⟨h1, k, hit, hL, _⟩ := ok.slot p hp1 hp2
      simp only [hit, Option.getD_some] at e
      rw [← e]; exact hL
    · intro hL
      obtain ⟨p, hp1, hp2, hit⟩ := ok.cover h hL
      apply List.mem_map.mpr
      refine ⟨p, List.mem_filter.mpr ⟨List.mem_range.mpr hp1, by simp [hp2]⟩, ?_⟩
      simp [hit])
  rw [← hperm.length_eq, List.length_map]

/-- C15: in every reachable state no key occurs in two records of the list, two occupied
slots never hold the same key, an occupied slot designates a live record of the list,
every record of the list is live and designated by exactly one occupied slot, and the
element count equals the length of the record list and the number of occupied slots. -/
theorem structure_of_reachable [DecidableEq K] [Inhabited V] {hp : Heap K V}
    {m : HashMap K V} (r : Reachable hp m) :
    (m.hash_pairs.Nodup ∧ ((pairs_of hp m.hash_pairs).map Prod.fst).Nodup ∧
      (pairs_of hp m.hash_pairs).length = m.hash_pairs.length) ∧
    (∀ p q, p < m.table.length → q < m.table.length →
      (node_at m.table p).free = false → (node_at m.table q).free = false →
      (deref hp (node_at m.table p).it).map Prod.fst =
        (deref hp (node_at m.table q).it).map Prod.fst → p = q) ∧
    (∀ p, p < m.table.length → (node_at m.table p).free = false →
      ∃ h kv, (node_at m.table p).it = some h ∧ h ∈ m.hash_pairs ∧ read hp h = some kv) ∧
    (∀ h, h ∈ m.hash_pairs → (∃ kv, read hp h = some kv) ∧
      ∃ p, (p < m.table.length ∧ (node_at m.table p).free = false ∧
          (node_at m.table p).it = some h) ∧
        ∀ q, q < m.table.length ∧ (node_at m.table q).free = false ∧
          (node_at m.table q).it = some h → q = p) ∧
    size m = m.hash_pairs.length ∧ size m = occupied_count m.table := by
  have wf := r.wf
  have ok := wf.table_ok
  refine ⟨⟨ok.nodup, ok.nodup_keys, pairs_of_length (fun _ hL => ok.live hL)⟩, ?_, ?_, ?_,
    wf.count, ?_⟩
  · intro p q hp1 hq1 hp2 hq2 e
    obtain ⟨h1, k1, v1, hit1, hL1, hr1, hd1, _, _⟩ := ok.deref_slot hp1 hp2
    obtain ⟨h2, k2, v2, hit2, hL2, hr2, hd2, _, _⟩ := ok.deref_slot hq1 hq2
    rw [hd1, hd2] at e
    have ek : k1 = k2 := by simpa using e
    have eh : h1 = h2 := ok.keys_inj h1 hL1 h2 hL2 (by
      rw [key_of_read hr1, key_of_read hr2, ek])
    exact ok.inj p q hp1 hq1 hp2 hq2 (by rw [hit1, hit2, eh])
  · intro p hp1 hp2
    obtain ⟨h, k, v, hit, hL, hr, _⟩ := ok.deref_slot hp1 hp2
    exact ⟨h, (k, v), hit, hL, hr⟩
  · intro h hL
    obtain ⟨p, hp1, hp2, hit⟩ := ok.cover h hL
    refine ⟨ok.live hL, p, ⟨hp1, hp2, hit⟩, ?_⟩
    rintro q ⟨hq1, hq2, hitq⟩
    exact ok.inj q p hq1 hp1 hq2 hp2 (by rw [hitq, hit])
  · show m.cnt_elements = occupied_count m.table
    rw [ok.occupied_count_eq]
    exact wf.count

/-- C15 on the map holding the keys 0, 8, 16, 2: four records, four occupied slots. -/
theorem structure_of_reachable_example :
    size cluster_map = 4 ∧ cluster_map.hash_pairs.length = 4 ∧
    occupied_count cluster_map.table = 4 ∧
    size cluster_map = occupied_count cluster_map.table :=
  ⟨rfl, rfl, rfl, (structure_of_reachable cluster_reachable).2.2.2.2.2⟩

end RobinHood


namespace RobinHood

variable {K V : Type}

/-! ## The capacity -/

theorem insert_capacity [DecidableEq K] {hp : Heap K V} {m : HashMap K V} (wf : WF hp m)
    (kv : K × V) :
    ∃ hp1 m1, insert hp m kv = .ok (hp1, m1) ∧
      (m1.table.length = m.table.length ∨ m1.table.length = 2 * m.table.length ∨
        (m.table.length = 0 ∧ m1.table.length = 2)) ∧
      m.table.length ≤ m1.table.length ∧ 2 ≤ m1.table.length := by
  obtain ⟨hp1, m1, hins, wf1, _, hpres, hnew⟩ := insert_spec wf kv
  refine ⟨hp1, m1, hins, ?_⟩
  by_cases hmem : kv.1 ∈ (pairs_of hp m.hash_pairs).map Prod.fst
  · obtain ⟨e1, e2⟩ := hpres hmem
    subst e1
    subst e2
    have hn : m1.table.length ≠ 0 := by
      intro e
      have hL := wf.nil_of_cap e
      rw [hL] at hmem
      simp [pairs_of] at hmem
    have := wf.cap
    exact ⟨Or.inl rfl, Nat.le_refl _, by omega⟩
  · obtain ⟨_, _, hlen⟩ := hnew hmem
    have hcap := wf.cap
    by_cases hn : m.table.length = 0
    · rw [if_pos hn] at hlen
      simp only [INITIAL_SIZE] at hlen
      exact ⟨Or.inr (Or.inr ⟨hn, hlen⟩), by omega, by omega⟩
    · rw [if_neg hn] at hlen
      split_ifs at hlen
      · exact ⟨Or.inr (Or.inl hlen), by omega, by omega⟩
      · exact ⟨Or.inl hlen, by omega, by omega⟩

theorem pow_step {n n1 : Nat} (h : n = 0 ∨ ∃ e, n = 2 ^ (e + 1))
    (hstep : n1 = n ∨ n1 = 2 * n ∨ (n = 0 ∧ n1 = 2)) :
    n1 = 0 ∨ ∃ e, n1 = 2 ^ (e + 1) := by
  rcases hstep with e | e | ⟨_, e⟩
  · rw [e]; exact h
  · rcases h with h0 | ⟨x, hx⟩
    · left; rw [e, h0]
    · right; exact ⟨x + 1, by rw [e, hx, pow_succ 2 (x + 1)]; ring⟩
  · right; exact ⟨0, by rw [e]; rfl⟩

theorem Reachable.cap_pow [DecidableEq K] [Inhabited V] {hp : Heap K V} {m : HashMap K V}
    (r : Reachable hp m) : m.table.length = 0 ∨ ∃ e, m.table.length = 2 ^ (e + 1) := by
  induction r with
  | init hp hash => exact Or.inl rfl
  | insert kv r0 hins ih =>
    obtain ⟨hp1, m1, h1, hstep, _⟩ := insert_capacity r0.wf kv
    rw [h1] at hins
    cases hins
    exact pow_step ih hstep
  | erase key r0 hers ih =>
    obtain ⟨hp1, m1, h1, _, _, hlen, _⟩ := erase_spec r0.wf key
    rw [h1] at hers
    cases hers
    rw [hlen]; exact ih
  | index key h r0 hidx ih =>
    obtain ⟨hp1, m1, h1, hi, hins, _⟩ := index_spec r0.wf key
    rw [hi] at hidx
    cases hidx
    obtain ⟨hp2, m2, h2, hstep, _⟩ := insert_capacity r0.wf (key, (default : V))
    rw [h2] at hins
    cases hins
    exact pow_step ih hstep
  | store h v _ _ ih => exact ih
  | clear r0 hclr ih =>
    obtain ⟨hp1, m1, h1, _, _, hlen, _⟩ := clear_spec r0.wf
    rw [h1] at hclr
    cases hclr
    rw [hlen]; exact ih

/-- C16: in every reachable state the capacity is 0 or a power of two that is at least
2, and it is 0 only while the map holds no record. `insert` and `operator[]` return and
leave the capacity unchanged or double it, or turn 0 into 2; afterwards it is at least 2
and not smaller than before. `erase` and `clear` return and leave the capacity
unchanged. -/
theorem capacity_of_reachable [DecidableEq K] [Inhabited V] {hp : Heap K V}
    {m : HashMap K V} (r : Reachable hp m) :
    (m.table.length = 0 ∨ ∃ e, m.table.length = 2 ^ (e + 1)) ∧
    (m.table.length = 0 → size m = 0 ∧ m.hash_pairs = []) ∧
    (∀ kv, ∃ hp1 m1, insert hp m kv = .ok (hp1, m1) ∧
      (m1.table.length = m.table.length ∨ m1.table.length = 2 * m.table.length ∨
        (m.table.length = 0 ∧ m1.table.length = 2)) ∧
      m.table.length ≤ m1.table.length ∧ 2 ≤ m1.table.length) ∧
    (∀ key, ∃ hp1 m1 h, index hp m key = .ok (hp1, m1, h) ∧
      (m1.table.length = m.table.length ∨ m1.table.length = 2 * m.table.length ∨
        (m.table.length = 0 ∧ m1.table.length = 2)) ∧
      m.table.length ≤ m1.table.length ∧ 2 ≤ m1.table.length) ∧
    (∀ key, ∃ hp1 m1, erase hp m key = .ok (hp1, m1) ∧
      m1.table.length = m.table.length) ∧
    (∃ hp1 m1, clear hp m = .ok (hp1, m1) ∧ m1.table.length = m.table.length) := by
  have wf := r.wf
  refine ⟨r.cap_pow, ?_, fun kv => insert_capacity wf kv, ?_, ?_, ?_⟩
  · intro hn
    have hL := wf.nil_of_cap hn
    exact ⟨by show m.cnt_elements = 0; rw [wf.count, hL]; rfl, hL⟩
  · intro key
    obtain ⟨hp1, m1, h, hi, hins, _⟩ := index_spec wf key
    obtain ⟨hp2, m2, h2, hstep⟩ := insert_capacity wf (key, (default : V))
    rw [h2] at hins
    cases hins
    exact ⟨hp1, m1, h, hi, hstep⟩
  · intro key
    obtain ⟨hp1, m1, h1, _, _, hlen, _⟩ := erase_spec wf key
    exact ⟨hp1, m1, h1, hlen⟩
  · obtain ⟨hp1, m1, h1, _, _, hlen, _⟩ := clear_spec wf
    exact ⟨hp1, m1, h1, hlen⟩

/-- C16 on the map holding the keys 0, 8, 16, 2: the capacity is 8, a fifth and sixth
key keep it, and `erase` keeps it. -/
theorem capacity_of_reachable_example :
    cluster_map.table.length = 2 ^ 3 ∧
    (∃ hp1 m1, insert cluster_heap cluster_map (5, 5) = .ok (hp1, m1) ∧
      (m1.table.length = cluster_map.table.length ∨
        m1.table.length = 2 * cluster_map.table.length ∨
        (cluster_map.table.length = 0 ∧ m1.table.length = 2)) ∧
      cluster_map.table.length ≤ m1.table.length ∧ 2 ≤ m1.table.length) ∧
    (∃ hp1 m1, erase cluster_heap cluster_map 8 = .ok (hp1, m1) ∧
      m1.table.length = cluster_map.table.length) :=
  ⟨rfl, (capacity_of_reachable cluster_reachable).2.2.1 (5, 5),
    (capacity_of_reachable cluster_reachable).2.2.2.2.1 8⟩

/-! ## The load factor -/

theorem rehash_steps [DecidableEq K] {hp : Heap K V} {m : HashMap K V} (wf : WF hp m)
    (hg : grows m) :
    ∃ hp1 T1, erase_all hp { m with cnt_elements := m.cnt_elements + 1 }
        (pairs_of hp m.hash_pairs) =
        .ok (hp1, ⟨T1, [], m.cnt_elements + 1 - m.hash_pairs.length, m.hash⟩) ∧
      T1.length = m.table.length ∧
      ∀ pre kv1 post, pairs_of hp m.hash_pairs = pre ++ kv1 :: post →
        ∃ hp2 m2, insert_all (insert_pair 1) hp1
            ⟨T1 ++ List.replicate T1.length Node.vacant, [],
              m.cnt_elements + 1 - m.hash_pairs.length, m.hash⟩ pre = .ok (hp2, m2) ∧
          m2.table.length = 2 * m.table.length ∧
          ¬ load_exceeded (m2.cnt_elements + 1) m2.table.length ∧
          increase_size (insert_pair 0) hp2 { m2 with cnt_elements := m2.cnt_elements + 1 } =
            .ok (hp2, { m2 with cnt_elements := m2.cnt_elements + 1 }) := by
  have hcount := wf.count
  have hload := wf.load
  have hcap := wf.cap
  have hn : m.table.length ≠ 0 := hg.1
  have hlt := wf.lt hn
  have ok := wf.table_ok
  have hplen : (pairs_of hp m.hash_pairs).length = m.hash_pairs.length :=
    pairs_of_length (fun h hL => ok.live hL)
  obtain ⟨hp1, T1, hera, hlen1, ok1⟩ := erase_all_spec m.hash_pairs hp
    { m with cnt_elements := m.cnt_elements + 1 } rfl ok hlt
  have hlen1a : T1.length = m.table.length := hlen1
  refine ⟨hp1, T1, hera, hlen1a, ?_⟩
  intro pre kv1 post hsplit
  have ok2 : TableOK (key_of hp1) m.hash (T1 ++ List.replicate T1.length Node.vacant) [] :=
    TableOK.of_all_free _ _ (node_at_double_free ok1.all_free)
  have hprelen : pre.length + 1 ≤ m.hash_pairs.length := by
    rw [← hplen, hsplit]
    simp only [List.length_append, List.length_cons]
    omega
  have hndpre : (pre.map Prod.fst).Nodup := by
    have h1 := ok.nodup_keys
    rw [hsplit, List.map_append] at h1
    exact (List.nodup_append.mp h1).1
  obtain ⟨hp2, m2, hall, _, _, hl2, hc2, _, _⟩ := insert_all_spec 0 pre hp1
    ⟨T1 ++ List.replicate T1.length Node.vacant, [],
      m.cnt_elements + 1 - m.hash_pairs.length, m.hash⟩ ok2
    (by simp only [List.length_nil, List.length_append, List.length_replicate]
        rw [hlen1a]; omega)
    (by simp only [List.length_append, List.length_replicate]
        rw [hlen1a]; omega)
    hndpre
    (by intro _ _ h hL; exact absurd hL (List.not_mem_nil h))
  simp only [List.length_append, List.length_replicate] at hl2 hc2
  rw [hlen1a] at hl2
  have hnl : ¬ load_exceeded (m2.cnt_elements + 1) m2.table.length := by
    unfold load_exceeded
    rw [hl2, hc2]
    omega
  refine ⟨hp2, m2, hall, by rw [hl2]; omega, hnl, ?_⟩
  exact increase_size_keep (insert_pair 0) hp2
    (by show 0 < m2.table.length; rw [hl2]; omega) hnl

/-- C14: in every reachable state `5 * count ≤ 4 * capacity`, and a table that exists
has a free slot. When an insertion grows the table (`grows m`), the records are erased,
the table is doubled, and the old pairs are reinserted one after another; the call of
`increase_size` made by each of these nested insertions, in the state reached after
reinserting the pairs `pre` before it, finds the load of the doubled table not exceeded
and returns without growing. -/
theorem load_factor_of_reachable [DecidableEq K] [Inhabited V] {hp : Heap K V}
    {m : HashMap K V} (r : Reachable hp m) :
    5 * size m ≤ 4 * m.table.length ∧
    (0 < m.table.length → ∃ q, q < m.table.length ∧ (node_at m.table q).free = true) ∧
    (grows m → ∃ old hp1 m1, iterate hp m.hash_pairs = .ok old ∧
      erase_all hp { m with cnt_elements := m.cnt_elements + 1 } old = .ok (hp1, m1) ∧
      ∀ pre kv1 post, old = pre ++ kv1 :: post →
        ∃ hp2 m2, insert_all (insert_pair 1) hp1
            { m1 with table := m1.table ++ List.replicate m1.table.length Node.vacant }
            pre = .ok (hp2, m2) ∧
          m2.table.length = 2 * m.table.length ∧
          ¬ load_exceeded (m2.cnt_elements + 1) m2.table.length ∧
          increase_size (insert_pair 0) hp2 { m2 with cnt_elements := m2.cnt_elements + 1 } =
            .ok (hp2, { m2 with cnt_elements := m2.cnt_elements + 1 })) := by
  have wf := r.wf
  refine ⟨wf.load, ?_, ?_⟩
  · intro hn
    exact wf.table_ok.exists_free (wf.lt (by omega))
  · intro hg
    obtain ⟨hp1, T1, hera, _, hsteps⟩ := rehash_steps wf hg
    exact ⟨pairs_of hp m.hash_pairs, hp1, _, iterate_eq (fun _ hL => wf.table_ok.live hL),
      hera, hsteps⟩

/-- C14 on the map holding the keys 1, 2, 3 in four slots, where a fourth key grows the
table: the load is 3/4, slot 0 is free, and the rehash does not grow again. -/
theorem load_factor_of_reachable_example :
    ∃ hp m, run id ([Op.insert (1, 1), Op.insert (2, 2), Op.insert (3, 3)] :
        List (Op Nat Nat)) = .ok (hp, m) ∧ size m = 3 ∧ m.table.length = 4 ∧ grows m ∧
      5 * size m ≤ 4 * m.table.length ∧
      (0 < m.table.length → ∃ q, q < m.table.length ∧ (node_at m.table q).free = true) ∧
      (grows m → ∃ old hp1 m1, iterate hp m.hash_pairs = .ok old ∧
        erase_all hp { m with cnt_elements := m.cnt_elements + 1 } old = .ok (hp1, m1) ∧
        ∀ pre kv1 post, old = pre ++ kv1 :: post →
          ∃ hp2 m2, insert_all (insert_pair 1) hp1
              { m1 with table := m1.table ++ List.replicate m1.table.length Node.vacant }
              pre = .ok (hp2, m2) ∧
            m2.table.length = 2 * m.table.length ∧
            ¬ load_exceeded (m2.cnt_elements + 1) m2.table.length ∧
            increase_size (insert_pair 0) hp2
                { m2 with cnt_elements := m2.cnt_elements + 1 } =
              .ok (hp2, { m2 with cnt_elements := m2.cnt_elements + 1 })) := by
  have hrun : run id ([Op.insert (1, 1), Op.insert (2, 2), Op.insert (3, 3)] :
      List (Op Nat Nat)) = .ok ([none, some (1, 1), some (2, 2), some (3, 3)],
        ⟨[Node.vacant, ⟨false, 0, some 1⟩, ⟨false, 0, some 2⟩, ⟨false, 0, some 3⟩],
          [3, 2, 1], 3, id⟩) := rfl
  have hr := run_reachable _ [] _ (HashMap.init id) _ (Reachable.init [] id) hrun
  exact ⟨_, _, hrun, rfl, rfl, by decide, load_factor_of_reachable hr⟩

end RobinHood


namespace RobinHood

variable {K V : Type}

/-! ## Termination of the loops -/

theorem find_loop_succ [DecidableEq K] (hp : Heap K V) (T : List Node) (key : K) :
    ∀ (fuel pos c r : Nat), find_loop hp T key fuel pos c = .ok r →
      find_loop hp T key (fuel + 1) pos c = .ok r := by
  intro fuel
  induction fuel with
  | zero => intro pos c r h; cases h
  | succ fuel ih =>
    intro pos c r h
    rw [find_loop] at h ⊢
    split_ifs at h ⊢ with hc
    · exact h
    · cases hd : deref hp (node_at T pos).it with
      | none => rw [hd] at h; cases h
      | some kv =>
        rw [hd] at h
        simp only at h ⊢
        split_ifs at h ⊢ with hk
        · exact h
        · exact ih _ _ _ h

theorem find_loop_mono [DecidableEq K] (hp : Heap K V) (T : List Node) (key : K)
    {n pos c r : Nat} (h : find_loop hp T key n pos c = .ok r) :
    ∀ fuel, n ≤ fuel → find_loop hp T key fuel pos c = .ok r := by
  intro fuel hle
  induction fuel, hle using Nat.le_induction with
  | base => exact h
  | succ f _ ih => exact find_loop_succ hp T key f pos c r ih

theorem insert_loop_succ :
    ∀ (fuel : Nat) (T : List Node) (nd : Node) (pos : Nat) (T1 : List Node),
      insert_loop fuel T nd pos = .ok T1 → insert_loop (fuel + 1) T nd pos = .ok T1 := by
  intro fuel
  induction fuel with
  | zero => intro T nd pos T1 h; cases h
  | succ fuel ih =>
    intro T nd pos T1 h
    rw [insert_loop] at h ⊢
    split_ifs at h ⊢
    · exact h
    · exact ih _ _ _ _ h
    · exact ih _ _ _ _ h

theorem insert_loop_mono {n : Nat} {T : List Node} {nd : Node} {pos : Nat}
    {T1 : List Node} (h : insert_loop n T nd pos = .ok T1) :
    ∀ fuel, n ≤ fuel → insert_loop fuel T nd pos = .ok T1 := by
  intro fuel hle
  induction fuel, hle using Nat.le_induction with
  | base => exact h
  | succ f _ ih => exact insert_loop_succ f T nd pos T1 ih

theorem erase_loop_succ :
    ∀ (fuel : Nat) (T : List Node) (pos : Nat) (T1 : List Node),
      erase_loop fuel T pos = .ok T1 → erase_loop (fuel + 1) T pos = .ok T1 := by
  intro fuel
  induction fuel with
  | zero => intro T pos T1 h; cases h
  | succ fuel ih =>
    intro T pos T1 h
    rw [erase_loop] at h ⊢
    simp only at h ⊢
    split_ifs at h ⊢
    · exact h
    · exact ih _ _ _ h

theorem erase_loop_mono {n : Nat} {T : List Node} {pos : Nat} {T1 : List Node}
    (h : erase_loop n T pos = .ok T1) :
    ∀ fuel, n ≤ fuel → erase_loop fuel T pos = .ok T1 := by
  intro fuel hle
  induction fuel, hle using Nat.le_induction with
  | base => exact h
  | succ f _ ih => exact erase_loop_succ f T pos T1 ih

theorem increase_size_spec [DecidableEq K] {hp : Heap K V} {m : HashMap K V} (wf : WF hp m)
    (k : K) (habs : ∀ h, h ∈ m.hash_pairs → key_of hp h ≠ some k) :
    ∃ hp2 m2, increase_size (insert_pair 1) hp
        { m with cnt_elements := m.cnt_elements + 1 } = .ok (hp2, m2) ∧
      TableOK (key_of hp2) m2.hash m2.table m2.hash_pairs ∧
      m2.hash_pairs.length < m2.table.length ∧
      (∀ h, h ∈ m2.hash_pairs → key_of hp2 h ≠ some k) := by
  have hcount := wf.count
  have hload := wf.load
  have hcap := wf.cap
  have ok := wf.table_ok
  by_cases hn : m.table.length = 0
  · have hL := wf.nil_of_cap hn
    refine ⟨hp, _, increase_size_first (insert_pair 1) hp hn, ?_, ?_, ?_⟩
    · show TableOK (key_of hp) m.hash (List.replicate INITIAL_SIZE Node.vacant) m.hash_pairs
      rw [hL]
      apply TableOK.of_all_free
      intro p
      rw [node_at_replicate]
      rfl
    · show m.hash_pairs.length < (List.replicate INITIAL_SIZE Node.vacant).length
      rw [hL]; simp [INITIAL_SIZE]
    · exact habs
  · have hlt := wf.lt hn
    by_cases hg : load_exceeded (m.cnt_elements + 1) m.table.length
    · have hplen : (pairs_of hp m.hash_pairs).length = m.hash_pairs.length :=
        pairs_of_length (fun h hL => ok.live hL)
      have hiter : iterate hp m.hash_pairs = .ok (pairs_of hp m.hash_pairs) :=
        iterate_eq (fun h hL => ok.live hL)
      obtain ⟨hp1, T1, hera, hlen1, ok1⟩ := erase_all_spec m.hash_pairs hp
        { m with cnt_elements := m.cnt_elements + 1 } rfl ok hlt
      have hlen1a : T1.length = m.table.length := hlen1
      have ok2 : TableOK (key_of hp1) m.hash (T1 ++ List.replicate T1.length Node.vacant) [] :=
        TableOK.of_all_free _ _ (node_at_double_free ok1.all_free)
      obtain ⟨hp2, m3, hall, ok3, _, hl3, _, hn3, hp3⟩ := insert_all_spec 0
        (pairs_of hp m.hash_pairs) hp1
        ⟨T1 ++ List.replicate T1.length Node.vacant, [],
          m.cnt_elements + 1 - m.hash_pairs.length, m.hash⟩ ok2
        (by simp only [List.length_nil, List.length_append, List.length_replicate]
            rw [hplen, hlen1a]; omega)
        (by simp only [List.length_append, List.length_replicate]
            rw [hplen, hlen1a]; omega)
        ok.nodup_keys
        (by intro _ _ h hL; exact absurd hL (List.not_mem_nil h))
      simp only [List.length_nil, List.length_append, List.length_replicate, Nat.zero_add]
        at hl3 hn3
      rw [hplen] at hn3
      have hp3a : pairs_of hp2 m3.hash_pairs = (pairs_of hp m.hash_pairs).reverse := by
        rw [hp3]; simp [pairs_of]
      refine ⟨hp2, m3, ?_, ok3, by rw [hn3, hl3, hlen1a]; omega, ?_⟩
      · have hE : m.table.isEmpty = false := by
          cases hT : m.table with
          | nil => simp [hT] at hn
          | cons a t => rfl
        unfold increase_size
        simp only [hE, Bool.false_eq_true, if_false, hg, if_true]
        rw [hiter]
        try simp only
        rw [hera]
        try simp only
        rw [hall]
      · apply not_mem_keys_iff.mp
        rw [hp3a, List.map_reverse, List.mem_reverse]
        exact not_mem_keys_iff.mpr habs
    · exact ⟨hp, _, increase_size_keep (insert_pair 1) hp (by show 0 < m.table.length; omega) hg,
        ok, hlt, habs⟩

/-- C17: in every reachable state and for every key `k`, (1) `find_key_pos(k)` returns,
either `table.size()` or the position of an occupied slot holding `k`, and when the table
exists its probe loop ends within `capacity` inspected slots, with the same result for
every larger bound; (2) if `k` is in the map, the backward shift loop of `erase_key`,
started at the slot of `k`, ends within `capacity` iterations, with the same result for
every larger bound, and `erase(k)` returns; (3) if `k` is not in the map, the call of
`increase_size` made by `insert_pair` returns, the placement loop that follows ends within
`capacity` inspected slots of the table it is given, with the same result for every larger
bound, and `insert` returns. -/
theorem probing_terminates [DecidableEq K] [Inhabited V] {hp : Heap K V}
    {m : HashMap K V} (r : Reachable hp m) (k : K) :
    (∃ p, find_key_pos hp m k = .ok p ∧
      (p = m.table.length ∨ (p < m.table.length ∧ (node_at m.table p).free = false ∧
        ∃ v, deref hp (node_at m.table p).it = some (k, v))) ∧
      (0 < m.table.length → ∀ fuel, m.table.length ≤ fuel →
        find_loop hp m.table k fuel (get_pos m k) 0 = .ok p)) ∧
    (∀ p, find_key_pos hp m k = .ok p → p < m.table.length →
      (∃ T1, ∀ fuel, m.table.length ≤ fuel →
        erase_loop fuel (m.table.set p { node_at m.table p with free := true }) p = .ok T1) ∧
      ∃ s, erase hp m k = .ok s) ∧
    (find_key_pos hp m k = .ok m.table.length → ∀ v : V,
      (∃ hp2 m2 T1, increase_size (insert_pair 1) hp
          { m with cnt_elements := m.cnt_elements + 1 } = .ok (hp2, m2) ∧
        ∀ fuel, m2.table.length ≤ fuel →
          insert_loop fuel m2.table (Node.of_it (insert_and_get_it hp2 m2.hash_pairs (k, v)).2.2)
            (get_pos m2 k) = .ok T1) ∧
      ∃ s, insert hp m (k, v) = .ok s) := by
  have wf := r.wf
  have ok := wf.table_ok
  have hloop : ∀ p, find_key_pos hp m k = .ok p → 0 < m.table.length →
      find_loop hp m.table k m.table.length (get_pos m k) 0 = .ok p := by
    intro p hfind hn
    have hE : m.table.isEmpty = false := by
      cases hT : m.table with
      | nil => simp [hT] at hn
      | cons a t => rfl
    unfold find_key_pos at hfind
    simpa only [hE, Bool.false_eq_true, if_false] using hfind
  refine ⟨?_, ?_, ?_⟩
  · by_cases hmem : k ∈ (pairs_of hp m.hash_pairs).map Prod.fst
    · obtain ⟨h, hL, hk⟩ := mem_keys_iff.mp hmem
      obtain ⟨v, hv⟩ := key_of_some hk
      obtain ⟨p, hp1, hfind, hf, hit⟩ := find_key_pos_present ok hL hk
      refine ⟨p, hfind, Or.inr ⟨hp1, hf, v, by rw [hit]; exact hv⟩, ?_⟩
      intro hn
      exact find_loop_mono hp m.table k (hloop p hfind hn)
    · have hfind := wf.find_pos_absent (not_mem_keys_iff.mp hmem)
      refine ⟨m.table.length, hfind, Or.inl rfl, ?_⟩
      intro hn
      exact find_loop_mono hp m.table k (hloop _ hfind hn)
  · intro p hfind hp1
    have hmem : k ∈ (pairs_of hp m.hash_pairs).map Prod.fst := by
      by_contra hmem
      rw [wf.find_pos_absent (not_mem_keys_iff.mp hmem)] at hfind
      have := Except.ok.inj hfind
      omega
    obtain ⟨h, hL, hk⟩ := mem_keys_iff.mp hmem
    obtain ⟨p1, hp2, hfind1, hf, hit⟩ := find_key_pos_present ok hL hk
    rw [hfind1] at hfind
    have e : p1 = p := Except.ok.inj hfind
    subst e
    obtain ⟨T1, hl, _, _⟩ := erase_loop_ok ok (wf.lt (by omega)) hp2 hf hit
    obtain ⟨hp1, m1, hers, _⟩ := erase_spec wf k
    exact ⟨⟨T1, erase_loop_mono hl⟩, (hp1, m1), hers⟩
  · intro hfind v
    have habs : ∀ h, h ∈ m.hash_pairs → key_of hp h ≠ some k := by
      intro h hL hk
      obtain ⟨p, hp1, hfind1, _, _⟩ := find_key_pos_present ok hL hk
      rw [hfind1] at hfind
      have := Except.ok.inj hfind
      omega
    obtain ⟨hp2, m2, hinc, ok2, hlt2, habs2⟩ := increase_size_spec wf k habs
    obtain ⟨T1, hl, _, _⟩ := insert_slot_ok (k, v) ok2 hlt2 habs2
    obtain ⟨hp1, m1, hins, _⟩ := insert_spec wf (k, v)
    exact ⟨⟨hp2, m2, T1, hinc, insert_loop_mono hl⟩, (hp1, m1), hins⟩

/-- C17 on the map holding the keys 0, 8, 16, 2 in eight slots: `find_key_pos(0)` ends at
slot 2 after three inspected slots, and `find_key_pos(24)` ends with `table.size()`. -/
theorem probing_terminates_example :
    find_key_pos cluster_heap cluster_map 0 = .ok 2 ∧
    find_loop cluster_heap cluster_map.table 0 3 (get_pos cluster_map 0) 0 = .ok 2 ∧
    find_key_pos cluster_heap cluster_map 24 = .ok 8 ∧
    (∃ p, find_key_pos cluster_heap cluster_map 0 = .ok p ∧
      (p = cluster_map.table.length ∨ (p < cluster_map.table.length ∧
        (node_at cluster_map.table p).free = false ∧
        ∃ v, deref cluster_heap (node_at cluster_map.table p).it = some (0, v))) ∧
      (0 < cluster_map.table.length → ∀ fuel, cluster_map.table.length ≤ fuel →
        find_loop cluster_heap cluster_map.table 0 fuel (get_pos cluster_map 0) 0 = .ok p)) :=
  ⟨rfl, rfl, rfl, (probing_terminates cluster_reachable 0).1⟩

end RobinHood


namespace RobinHood

/-! ## The public operations after a copy assignment

`operator=` replaces the record list by a copy and keeps the slots, whose iterators then
designate the nodes of the list that was replaced. After the self assignment `a = a` these
nodes are destroyed, and every operation that probes an occupied slot dereferences a
destroyed node. -/

theorem self_assign_state :
    Reachable source_heap source_map ∧
    assign source_heap source_map source_map = .ok (self_assigned_heap, self_assigned_map) :=
  ⟨source_reachable, rfl⟩

/-- C1: a failing input. After `a.insert({1, 10}); a = a;`, a state reached by public
operations, `find(1)` dereferences a destroyed node, and so do `insert({1, 20})` (in its
lookup) and `insert({2, 20})` (in the rehash it starts): none of them returns a result,
while before the assignment `find(1)` yields `(1, 10)`. -/
theorem insert_after_self_assign :
    (Reachable source_heap source_map ∧
      assign source_heap source_map source_map =
        .ok (self_assigned_heap, self_assigned_map)) ∧
    find_pair source_heap source_map 1 = .ok (some (1, 10)) ∧
    find self_assigned_heap self_assigned_map 1 = .error .undefined ∧
    insert self_assigned_heap self_assigned_map (1, 20) = .error .undefined ∧
    insert self_assigned_heap self_assigned_map (2, 20) = .error .undefined :=
  ⟨self_assign_state, rfl, rfl, rfl, rfl⟩

/-- C2: a failing input. After `a.insert({1, 10}); a = a;`, a state reached by public
operations, `erase(1)` dereferences a destroyed node in its lookup and returns no result:
`size()` stays 1 and the record of key 1 stays in the list, while before the assignment
`erase(1)` leaves an empty map. -/
theorem erase_after_self_assign :
    (Reachable source_heap source_map ∧
      assign source_heap source_map source_map =
        .ok (self_assigned_heap, self_assigned_map)) ∧
    (∃ hp1 m1, erase source_heap source_map 1 = .ok (hp1, m1) ∧ size m1 = 0 ∧
      find hp1 m1 1 = .ok none) ∧
    size self_assigned_map = 1 ∧
    items self_assigned_heap self_assigned_map = .ok [(1, 10)] ∧
    erase self_assigned_heap self_assigned_map 1 = .error .undefined :=
  ⟨self_assign_state,
    ⟨[none], ⟨[Node.vacant, ⟨true, 0, some 0⟩], [], 0, seeded 0⟩, rfl, rfl, rfl⟩,
    rfl, rfl, rfl⟩

/-- C3: a failing input. After `a.insert({1, 10}); a = a;`, a state reached by public
operations, `at(1)` neither throws `std::out_of_range` nor returns the stored value 10:
both `at(1)` and `find(1)` dereference a destroyed node, while before the assignment
`at(1)` returns 10. -/
theorem at_after_self_assign :
    (Reachable source_heap source_map ∧
      assign source_heap source_map source_map =
        .ok (self_assigned_heap, self_assigned_map)) ∧
    at_ source_heap source_map 1 = .ok 10 ∧
    items self_assigned_heap self_assigned_map = .ok [(1, 10)] ∧
    find self_assigned_heap self_assigned_map 1 = .error .undefined ∧
    at_ self_assigned_heap self_assigned_map 1 = .error .undefined ∧
    at_ self_assigned_heap self_assigned_map 1 ≠ .error .out_of_range ∧
    at_ self_assigned_heap self_assigned_map 1 ≠ .ok 10 := by
  have e : at_ self_assigned_heap self_assigned_map 1 = .error .undefined := rfl
  refine ⟨self_assign_state, rfl, rfl, rfl, e, ?_, ?_⟩
  · rw [e]; intro h; cases h
  · rw [e]; intro h; cases h

/-- C5: a failing input. After `a.insert({1, 10}); a = a;`, a state reached by public
operations, `operator[](1)` on the present key 1 and `operator[](2)` on the absent key 2
dereference a destroyed node (in the lookup, and in the rehash of the insertion) and
return no reference, while before the assignment `operator[](1)` designates the stored
record. -/
theorem index_after_self_assign :
    (Reachable source_heap source_map ∧
      assign source_heap source_map source_map =
        .ok (self_assigned_heap, self_assigned_map)) ∧
    index source_heap source_map 1 = .ok (source_heap, source_map, 0) ∧
    index self_assigned_heap self_assigned_map 1 = .error .undefined ∧
    index self_assigned_heap self_assigned_map 2 = .error .undefined :=
  ⟨self_assign_state, rfl, rfl, rfl⟩

/-- C10: a failing input. After `a.insert({1, 10}); a = a;`, a state reached by public
operations, `clear()` calls `erase_key(1)`, which dereferences a destroyed node: it
returns no result, and `size()` is still 1 at that point, while before the assignment
`clear()` leaves an empty map. -/
theorem clear_after_self_assign :
    (Reachable source_heap source_map ∧
      assign source_heap source_map source_map =
        .ok (self_assigned_heap, self_assigned_map)) ∧
    (∃ hp1 m1, clear source_heap source_map = .ok (hp1, m1) ∧ size m1 = 0 ∧
      items hp1 m1 = .ok []) ∧
    size self_assigned_map = 1 ∧
    clear self_assigned_heap self_assigned_map = .error .undefined :=
  ⟨self_assign_state,
    ⟨[none], ⟨[Node.vacant, ⟨true, 0, some 0⟩], [], 0, seeded 0⟩, rfl, rfl, rfl⟩,
    rfl, rfl⟩

end RobinHood

